import Mathlib

/-!
# ACCEPT passes: elidability analysis and loop perforation

A shallow embedding of `pass/enerc.cpp` (qualifier lookup and the elidability
traversal over the def-use graph) and of `pass/loopperf.cpp` (loop legality
checks and the perforation rewrite), with the properties proved about them.
-/

namespace Accept

/-! ## The def-use graph (`pass/enerc.cpp`) -/

/-- Operation kinds of an instruction; `store`, `ret` and `br` are the kinds
tested by `isa<StoreInst>`, `isa<ReturnInst>` and `isa<BranchInst>`. -/
inductive Opcode where
  | binop | load | store | call | br | ret | other
  deriving DecidableEq, Repr

/-- Value of `ECQ_PRECISE`. -/
def ECQ_PRECISE : Int := 0

/-- Value of `ECQ_APPROX`. -/
def ECQ_APPROX : Int := 1

/-- A finite def-use graph. Instructions are the elements of `Fin size`.
`quals i` is operand 0 of the `"quals"` metadata node of `i` (a `ConstantInt`),
or `none` when `i` has no such node. `uses i` is the use list of `i` in
iteration order; an entry is `some u` when the user is the instruction `u`
and `none` when `dyn_cast<Instruction>` of the user is null. -/
structure DefUse where
  size : Nat
  opcode : Fin size → Opcode
  quals : Fin size → Option Int
  uses : Fin size → List (Option (Fin size))

/-- The `std::set<Instruction*>` used for cycle detection, newest first. -/
abbrev Seen (g : DefUse) := List (Fin g.size)

/-- Source `isApprox`: no metadata means precise, otherwise compare the
qualifier with `ECQ_APPROX`. -/
def isApprox (g : DefUse) (instr : Fin g.size) : Bool :=
  match g.quals instr with
  | none => false
  | some intval => intval == ECQ_APPROX

/-- The `isa<StoreInst> || isa<ReturnInst> || isa<BranchInst>` test. -/
def isSink (g : DefUse) (instr : Fin g.size) : Bool :=
  g.opcode instr == Opcode.store || g.opcode instr == Opcode.ret
    || g.opcode instr == Opcode.br

/-- The `for` loop over the use list inside `elidable_helper`; `self` is the
recursive call. The loop stops with `false` at the first user for which the
call fails, and threads the shared `seen` set through the calls. -/
def usersLoop {n : Nat} (self : Fin n → List (Fin n) → Option (Bool × List (Fin n))) :
    List (Option (Fin n)) → List (Fin n) → Option (Bool × List (Fin n))
  | [], seen => some (true, seen)
  | none :: us, seen => usersLoop self us seen
  | some user :: us, seen =>
    match self user seen with
    | none => none
    | some (false, seen1) => some (false, seen1)
    | some (true, seen1) => usersLoop self us seen1

/-- Source `elidable_helper`, with the `seen` set passed in and returned.
The first argument bounds the recursion depth; `none` means the bound was
reached. -/
def elidable_helper (g : DefUse) : Nat → Fin g.size → Seen g → Option (Bool × Seen g)
  | 0, _, _ => none
  | fuel + 1, instr, seen =>
    if instr ∈ seen then
      some (false, seen)
    else
      if isApprox g instr then
        some (true, instr :: seen)
      else if isSink g instr then
        some (false, instr :: seen)
      else
        usersLoop (elidable_helper g fuel) (g.uses instr) (instr :: seen)

/-- Source `elidable`: start with an empty `seen` set. A depth bound of
`size + 1` is always enough (`elidable_helper_total`). -/
def elidable (g : DefUse) (instr : Fin g.size) : Option Bool :=
  (elidable_helper g (g.size + 1) instr []).map Prod.fst

/-- The graph `g` with its qualifier metadata replaced by `q`. -/
def withQuals (g : DefUse) (q : Fin g.size → Option Int) : DefUse :=
  { size := g.size
    opcode := g.opcode
    quals := q
    uses := g.uses }

/-- Attach the qualifier `APPROX` to instruction `x`. -/
def tagApprox (g : DefUse) (x : Fin g.size) : DefUse :=
  withQuals g (fun i => if i = x then some ECQ_APPROX else g.quals i)

/-- A diamond: 0 is used by 1 and 2, both are used by 3, nothing is tagged and
nothing is a store, return or branch. -/
def diamond : DefUse :=
  { size := 4
    opcode := fun _ => Opcode.binop
    quals := fun _ => none
    uses := fun i =>
      if i.val = 0 then [some 1, some 2]
      else if i.val = 1 then [some 3]
      else if i.val = 2 then [some 3]
      else [] }

/-- A cycle of three untagged non-sink instructions: 0 is used by 1, 1 by 2
and 2 by 0. -/
def cycle3 : DefUse :=
  { size := 3
    opcode := fun _ => Opcode.binop
    quals := fun _ => none
    uses := fun i =>
      if i.val = 0 then [some 1]
      else if i.val = 1 then [some 2]
      else [some 0] }

/-- Two instructions: 0 is a store tagged APPROX, used by 1, an untagged
return. -/
def approxStore : DefUse :=
  { size := 2
    opcode := fun i => if i.val = 0 then Opcode.store else Opcode.ret
    quals := fun i => if i.val = 0 then some 1 else none
    uses := fun i => if i.val = 0 then [some 1] else [] }

/-! ## The intermediate representation seen by `pass/loopperf.cpp` -/

/-- Identity of a basic block (a `BasicBlock*`). -/
abbrev BlockId := Nat

/-- Identity of an SSA value (a `Value*`). -/
abbrev ValueId := Nat

/-- An operand that is either an integer constant of a given width or a
previously computed value. -/
inductive Operand where
  | const (bits : Nat) (value : Nat)
  | val (id : ValueId)
  deriving DecidableEq, Repr

/-- Non-terminator instructions. `orig` stands for an instruction of the input
program; the other constructors are the instructions that `perforateLoop`
creates through the `IRBuilder`. -/
inductive Inst where
  | orig (id : Nat)
  | alloca (res : ValueId) (bits : Nat) (name : String)
  | store (value : Operand) (ptr : ValueId)
  | load (res : ValueId) (ptr : ValueId) (name : String)
  | add (res : ValueId) (bits : Nat) (lhs : ValueId) (rhs : Operand) (name : String)
  | trunc (res : ValueId) (srcBits : Nat) (src : ValueId) (bits : Int) (name : String)
  | isNull (res : ValueId) (src : ValueId) (name : String)
  deriving DecidableEq, Repr

/-- Block terminators. `br` and `condBr` are the two forms of `BranchInst`
(one and two successors); `other` covers every other terminator with its
successor list. -/
inductive Terminator where
  | br (dest : BlockId)
  | condBr (cond : ValueId) (succ0 succ1 : BlockId)
  | ret
  | other (succs : List BlockId)
  deriving DecidableEq, Repr

/-- Successors of a terminator, in successor-index order. -/
def Terminator.successors : Terminator → List BlockId
  | .br dest => [dest]
  | .condBr _ succ0 succ1 => [succ0, succ1]
  | .ret => []
  | .other succs => succs

/-- The call `setSuccessor(0, b)` on a branch instruction. -/
def Terminator.setSuccessor0 (b : BlockId) : Terminator → Terminator
  | .br _ => .br b
  | .condBr cond _ succ1 => .condBr cond b succ1
  | .ret => .ret
  | .other succs => .other (b :: succs.tail)

/-- A basic block: its name, its instructions before the terminator, and
its terminator. -/
structure BasicBlock where
  name : String
  insts : List Inst
  term : Terminator
  deriving DecidableEq, Repr

/-- A function: its name, its block list (entry block first) and the next
unused identity, from which new blocks and values are numbered. -/
structure Func where
  name : String
  blocks : List (BlockId × BasicBlock)
  fresh : Nat
  deriving DecidableEq, Repr

/-- Look a block up by identity. -/
def Func.block? (F : Func) (b : BlockId) : Option BasicBlock :=
  (F.blocks.find? (fun p => p.1 == b)).map Prod.snd

/-- Result of `getName()` on a block. -/
def Func.blockName (F : Func) (b : BlockId) : String :=
  match F.block? b with
  | some bb => bb.name
  | none => ""

/-- Successors of a block in the control-flow graph. -/
def Func.successors (F : Func) (b : BlockId) : List BlockId :=
  match F.block? b with
  | some bb => bb.term.successors
  | none => []

/-- Apply `f` to the block with identity `b`. -/
def Func.updateBlock (F : Func) (b : BlockId) (f : BasicBlock → BasicBlock) : Func :=
  { F with blocks := F.blocks.map (fun p => if p.1 = b then (p.1, f p.2) else p) }

/-- Insert an instruction at the beginning of the entry block. -/
def Func.insertAtEntry (F : Func) (i : Inst) : Func :=
  match F.blocks with
  | [] => F
  | (b, bb) :: rest => { F with blocks := (b, { bb with insts := i :: bb.insts }) :: rest }

/-- Insert instructions immediately before the terminator of block `b`. -/
def Func.insertBeforeTerminator (F : Func) (b : BlockId) (is : List Inst) : Func :=
  F.updateBlock b (fun bb => { bb with insts := bb.insts ++ is })

/-- The call `BasicBlock::Create(ctx, name, parent, insertBefore)`: put the new
block in the block list right before `before` (at the end if `before` is not
in the list). -/
def insertBlockBefore (before : BlockId) (new : BlockId × BasicBlock) :
    List (BlockId × BasicBlock) → List (BlockId × BasicBlock)
  | [] => [new]
  | p :: rest =>
    if p.1 = before then new :: p :: rest else p :: insertBlockBefore before new rest

/-- A natural loop as reported by `LoopInfo`: its block list (header first)
and the answers of `getLoopLatch()` and `getLoopPreheader()`. -/
structure Loop where
  blocks : List BlockId
  latch : Option BlockId
  preheader : Option BlockId
  deriving DecidableEq, Repr

/-- LLVM `Loop::getHeader`: the first block of the block list. -/
def Loop.getHeader (loop : Loop) : Option BlockId := loop.blocks.head?

/-- LLVM `Loop::getNumBlocks`. -/
def Loop.getNumBlocks (loop : Loop) : Nat := loop.blocks.length

/-- LLVM `Loop::getExitBlocks`: for every block of the loop, every successor
that is not in the loop, one entry per edge. -/
def Loop.getExitBlocks (F : Func) (loop : Loop) : List BlockId :=
  loop.blocks.flatMap (fun b => (F.successors b).filter (fun s => decide (s ∉ loop.blocks)))

/-- LLVM `Loop::getExitBlock`: the exit block when `getExitBlocks` has exactly
one entry, null otherwise. -/
def Loop.getExitBlock (F : Func) (loop : Loop) : Option BlockId :=
  match loop.getExitBlocks F with
  | [e] => some e
  | _ => none

/-- LLVM `Loop::isLoopExiting`: some successor of the block is outside the
loop. -/
def Loop.isLoopExiting (F : Func) (loop : Loop) (b : BlockId) : Bool :=
  (F.successors b).any (fun s => decide (s ∉ loop.blocks))

/-- LLVM `Loop::addBasicBlockToLoop`, restricted to this loop. -/
def Loop.addBasicBlockToLoop (loop : Loop) (b : BlockId) : Loop :=
  { loop with blocks := loop.blocks ++ [b] }

/-! ## Associative containers -/

/-- Lookup in a `std::map`, represented as an association list. -/
def mapFind {κ ν : Type} [DecidableEq κ] : List (κ × ν) → κ → Option ν
  | [], _ => none
  | p :: m, k => if p.1 = k then some p.2 else mapFind m k

/-- The `count(k)` member of `std::map`. -/
def mapCount {κ ν : Type} [DecidableEq κ] (m : List (κ × ν)) (k : κ) : Nat :=
  if (mapFind m k).isSome then 1 else 0

/-- The assignment `m[k] = v`. -/
def mapSet {κ ν : Type} [DecidableEq κ] (m : List (κ × ν)) (k : κ) (v : ν) : List (κ × ν) :=
  if (mapFind m k).isSome then m.map (fun p => if p.1 = k then (p.1, v) else p)
  else m ++ [(k, v)]

/-- Reading `m[k]`: the stored value, or a value-initialised entry that is
inserted when the key is absent. -/
def mapIndex {κ ν : Type} [DecidableEq κ] (m : List (κ × ν)) (k : κ) (dflt : ν) :
    ν × List (κ × ν) :=
  match mapFind m k with
  | some v => (v, m)
  | none => (dflt, m ++ [(k, dflt)])

/-- The call `m[k].push_back(x)` on a map of vectors whose key is present. -/
def mapPushBack {κ ν : Type} [DecidableEq κ] (m : List (κ × List ν)) (k : κ) (x : ν) :
    List (κ × List ν) :=
  m.map (fun p => if p.1 = k then (p.1, p.2 ++ [x]) else p)

/-! ## State of the loop pass -/

/-- Key of the description table: `Location(kind, hasBlockers, fileName,
lineNumber)`. -/
structure Location where
  kind : String
  hasBlockers : Bool
  fileName : String
  lineNumber : Int
  deriving DecidableEq, Repr

/-- A `Description(prefix, postfix, blockerEntries)` record. -/
structure Description where
  prefixText : String
  postfixText : String
  blockerEntries : List (Int × List String)
  deriving DecidableEq, Repr

/-- The description table `AI->descTable`. -/
abbrev DescTable := List (Location × List Description)

/-- What the pass takes from its collaborators: the pointer width of the data
layout, the source-position helpers, the marker lookup on the header's first
instruction, and `ApproxInfo::preciseEscapeCheck` with the helpers that
describe a blocker. Blockers are instruction identities. -/
structure Env where
  nativeBits : Nat
  srcPosDesc : Func → BlockId → String
  splitPosDesc : String → String × String
  atoi : String → Int
  markerIsForbid : Func → BlockId → Bool
  preciseEscapeCheck : Func → List BlockId → List Nat
  instDesc : Func → Nat → String
  extractBlockerLine : String → Int

/-- The mutable state the pass works on: the `relax` flag and `relaxConfig` of
the transform pass, the description table, the function being transformed and
what was written to `errs()`. -/
structure PassState where
  relax : Bool
  relaxConfig : List (String × Int)
  descTable : DescTable
  func : Func
  errs : List String

/-- Source `addLoopDesc`: create the key's vector if the key is new, then push
the description at its back. -/
def addLoopDesc (descTable : DescTable) (hasBlockers : Bool) (fileName : String)
    (lineNumber : Int) (prefixText postfixText : String)
    (blockerEntries : List (Int × List String)) : DescTable :=
  let loc : Location := ⟨"Loop", hasBlockers, fileName, lineNumber⟩
  let table := if mapCount descTable loc = 0 then mapSet descTable loc [] else descTable
  let loopDesc : Description := ⟨prefixText, postfixText, blockerEntries⟩
  mapPushBack table loc loopDesc

/-- The `startswith` test on block names. -/
def startswith (name pat : String) : Bool := pat.data.isPrefixOf name.data

/-- The shortcut destination computed in `perforateLoop`: the latch for
for-like loops and the header for while-like loops. -/
def shortcutDest (isForLike : Bool) (latch header : BlockId) : BlockId :=
  if isForLike then latch else header

/-- The part of `perforateLoop` after its checks: allocate the counter in the
entry block, initialise it in the preheader, increment it in the latch, create
the check block before `bodyBlock`, redirect successor 0 of the header's
branch to the check block and add the check block to the loop. The
conditional branch of the check block is created with `bodyBlock` and
`loop->getLoopLatch()` as its successors; the local `shortcutDest` of the
source is computed but not passed to `CreateCondBr`. New values take the
identities `fresh .. fresh + 5` and the check block `fresh + 6`. The
truncation is always written as an instruction; when `logfactor` is the native
width the `IRBuilder` hands back the loaded value instead, which is the same
value. -/
def perforateRewrite (env : Env) (F : Func) (loop : Loop) (header latch preheader : BlockId)
    (bodyBlock : BlockId) (_shortcutDest : BlockId) (logfactor : Int) : Func × Loop :=
  let counterAlloca : ValueId := F.fresh
  let F1 := F.insertAtEntry (Inst.alloca counterAlloca env.nativeBits "accept_counter")
  let F2 := F1.insertBeforeTerminator preheader
    [Inst.store (Operand.const env.nativeBits 0) counterAlloca]
  let F3 := F2.insertBeforeTerminator latch
    [Inst.load (F.fresh + 1) counterAlloca "accept_tmp",
     Inst.add (F.fresh + 2) env.nativeBits (F.fresh + 1) (Operand.const env.nativeBits 1)
       "accept_inc",
     Inst.store (Operand.val (F.fresh + 2)) counterAlloca]
  let checkBlock : BlockId := F.fresh + 6
  let check : BasicBlock :=
    { name := "accept_cond"
      insts :=
        [Inst.load (F.fresh + 3) counterAlloca "accept_tmp",
         Inst.trunc (F.fresh + 4) env.nativeBits (F.fresh + 3) logfactor "accept_trunc",
         Inst.isNull (F.fresh + 5) (F.fresh + 4) "accept_cmp"]
      term := Terminator.condBr (F.fresh + 5) bodyBlock latch }
  let F4 : Func := { F3 with blocks := insertBlockBefore bodyBlock (checkBlock, check) F3.blocks }
  let F5 := F4.updateBlock header (fun bb => { bb with term := bb.term.setSuccessor0 checkBlock })
  ({ F5 with fresh := F.fresh + 7 }, loop.addBasicBlockToLoop checkBlock)

/-- Source `perforateLoop`. Returns the function, the loop and the text
written to `errs()`. -/
def perforateLoop (env : Env) (F : Func) (loop : Loop) (logfactor : Int) (isForLike : Bool) :
    Func × Loop × List String :=
  match loop.getHeader, loop.latch, loop.preheader, loop.getExitBlock F with
  | some header, some latch, some preheader, some exitBlock =>
    match (F.block? header).map BasicBlock.term with
    | some (Terminator.condBr _ succ0 succ1) =>
      if succ0 = exitBlock then
        let r := perforateRewrite env F loop header latch preheader succ1
          (shortcutDest isForLike latch header) logfactor
        (r.1, r.2, [])
      else if succ1 = exitBlock then
        let r := perforateRewrite env F loop header latch preheader succ0
          (shortcutDest isForLike latch header) logfactor
        (r.1, r.2, [])
      else
        (F, loop, ["loop condition does not exit\n"])
    | _ => (F, loop, ["malformed loop condition\n"])
  | _, _, _, _ => (F, loop, ["malformed loop\n"])

/-- The body blocks collected by `tryToOptimizeLoop`: every block of the loop
except the header and, for for-like loops, the latch. -/
def bodyBlocksOf (loop : Loop) (header : BlockId) (isForLike : Bool) : List BlockId :=
  loop.blocks.filter (fun bi => !(decide (bi = header) || (isForLike && decide (loop.latch = some bi))))

/-- The test `&(latch->front()) == &(latch->back())`: the latch holds a single
instruction, its terminator. -/
def latchIsOnlyTerminator (F : Func) (latch : BlockId) : Bool :=
  match F.block? latch with
  | some bb => bb.insts.isEmpty
  | none => false

/-- One round of the loop over the blockers: file the formatted entry under
its source line. -/
def addBlockerEntry (env : Env) (F : Func) (blockerEntries : List (Int × List String))
    (blocker : Nat) : List (Int × List String) :=
  let blockerEntry := env.instDesc F blocker
  let blockerLine := env.extractBlockerLine blockerEntry
  let entries :=
    if mapCount blockerEntries blockerLine = 0 then mapSet blockerEntries blockerLine []
    else blockerEntries
  mapPushBack entries blockerLine (" * " ++ blockerEntry ++ "\n")

/-- The statement pair `addLoopDesc(false, fileName, lineNumber, ...,
blockerEntries); return changed;` at the points of `tryToOptimizeLoop` where
`blockerEntries` is still empty. -/
def finish (st : PassState) (loop : Loop) (changed : Bool) (fileName : String)
    (lineNumber : Int) (prefixStream postfixStream : String) : Bool × PassState × Loop :=
  (changed,
   { st with descTable :=
      addLoopDesc st.descTable false fileName lineNumber prefixStream postfixStream [] },
   loop)

/-- The key under which a loop is stored in `relaxConfig`, which is also the
first line of its description (`loopName` in the source). -/
def loopNameOf (posDesc : String) : String := "-----\nloop at " ++ posDesc

/-- Lines 147-159 of `tryToOptimizeLoop`, the branch taken when the `relax`
flag is set: read the loop's parameter from `relaxConfig` (which creates the
entry when it is missing) and perforate the loop when it is not zero. -/
def relaxStage (env : Env) (st : PassState) (loop : Loop) (loopName fileName : String)
    (lineNumber : Int) (prefixStream : String) (isForLike : Bool) :
    Bool × PassState × Loop :=
  let lookup := mapIndex st.relaxConfig loopName 0
  let param := lookup.1
  let st1 := { st with relaxConfig := lookup.2 }
  if param ≠ 0 then
    let r := perforateLoop env st1.func loop param isForLike
    let st2 := { st1 with func := Prod.fst r, errs := st1.errs ++ r.2.2 }
    finish st2 r.2.1 true fileName lineNumber
      (prefixStream ++ "perforating with factor 2^" ++ toString param ++ "\n") ""
  else
    finish st1 loop false fileName lineNumber (prefixStream ++ "not perforating\n") ""

/-- Lines 161-221 of `tryToOptimizeLoop`, the branch taken when the `relax`
flag is not set: collect the body blocks, reject an empty body and a body with
a loop exit, and run the precise-escape check. -/
def analysisStage (env : Env) (st : PassState) (loop : Loop) (header : BlockId)
    (loopName fileName : String) (lineNumber : Int) (prefixStream : String)
    (isForLike : Bool) : Bool × PassState × Loop :=
  let bodyBlocks := bodyBlocksOf loop header isForLike
  if bodyBlocks.isEmpty then
    finish st loop false fileName lineNumber (prefixStream ++ "empty body\n") ""
  else if bodyBlocks.any (loop.isLoopExiting st.func) then
    finish st loop false fileName lineNumber
      (prefixStream ++ "contains loop exit\n" ++ "cannot perforate loop\n") ""
  else
    let blockers := env.preciseEscapeCheck st.func bodyBlocks
    let prefixStream := prefixStream ++ "blockers: " ++ toString blockers.length ++ "\n"
    let blockerEntries := blockers.foldl (addBlockerEntry env st.func) []
    if blockers.length = 0 then
      let st1 := { st with relaxConfig := mapSet st.relaxConfig loopName 0 }
      let table := addLoopDesc st1.descTable false fileName lineNumber prefixStream
        "can perforate loop\n" blockerEntries
      (false, { st1 with descTable := table }, loop)
    else
      let table := addLoopDesc st.descTable true fileName lineNumber prefixStream
        "cannot perforate loop\n" blockerEntries
      (false, { st with descTable := table }, loop)

/-- The first two lines of every description: the loop name and the enclosing
function. -/
def descHead (posDesc funcName : String) : String :=
  loopNameOf posDesc ++ "\n" ++ "within function _" ++ funcName ++ "\n"

/-- The line that reports the shape of the loop. -/
def shapeLine (isForLike : Bool) : String :=
  if isForLike then "for-like loop\n" else "while-like loop\n"

/-- Source `tryToOptimizeLoop`. The result is `none` when the loop has no
header, where the source dereferences `loop->getHeader()` before any check. -/
def tryToOptimizeLoop (env : Env) (st : PassState) (loop : Loop) :
    Option (Bool × PassState × Loop) :=
  match loop.getHeader with
  | none => none
  | some header =>
    let posDesc := env.srcPosDesc st.func header
    let fileName := (env.splitPosDesc posDesc).1
    let line := (env.splitPosDesc posDesc).2
    let lineNumber := env.atoi line
    let loopName := loopNameOf posDesc
    let prefixStream := descHead posDesc st.func.name
    if env.markerIsForbid st.func header then
      some (finish st loop false fileName lineNumber
        (prefixStream ++ "optimization forbidden\n") "")
    else if loop.getHeader.isNone || loop.latch.isNone || loop.preheader.isNone then
      some (finish st loop false fileName lineNumber
        (prefixStream ++ "loop not in perforatable form\n") "")
    else if startswith (st.func.blockName header) "arrayctor.loop" then
      some (finish st loop false fileName lineNumber (prefixStream ++ "array constructor\n") "")
    else if loop.getNumBlocks = 2 ∧ some header ≠ loop.latch
        ∧ (loop.latch.map (latchIsOnlyTerminator st.func)) = some true then
      some (finish st loop false fileName lineNumber (prefixStream ++ "empty body\n") "")
    else
      let isForLike := startswith (st.func.blockName header) "for.cond"
      let prefixStream := prefixStream ++ shapeLine isForLike
      if st.relax then
        some (relaxStage env st loop loopName fileName lineNumber prefixStream isForLike)
      else
        some (analysisStage env st loop header loopName fileName lineNumber prefixStream
          isForLike)

/-! ## Execution of the rewritten control-flow graph -/

/-- State of an execution: the current block, the contents of the allocated
slots (`none` for a slot that does not exist, `some none` for a slot that
exists and was never stored to), the values computed so far, the number of
branch conditions of the input program decided so far, and the blocks executed
(newest first). -/
structure Machine where
  pc : BlockId
  mem : ValueId → Option (Option Nat)
  regs : ValueId → Option Nat
  decisions : Nat
  trace : List BlockId

/-- Bind `v` to `k` in a store. -/
def bindValue {α : Type} (f : ValueId → Option α) (k : ValueId) (v : α) :
    ValueId → Option α :=
  fun j => if j = k then some v else f j

/-- Value of an operand. -/
def evalOperand (m : Machine) : Operand → Option Nat
  | .const bits value => some (value % 2 ^ bits)
  | .val id => m.regs id

/-- Execute one non-terminator instruction. Instructions of the input program
do not touch the slots and values created by the pass. An `alloca` creates a
slot without contents, a `store` needs an existing slot, and a `load` from a
slot that was never stored to has no defined result. `add` wraps at the width
of its type, `trunc` keeps the low `bits` bits and is undefined unless
`1 ≤ bits ≤ srcBits`, and `isNull` compares with zero. -/
def execInst (m : Machine) : Inst → Option Machine
  | .orig _ => some m
  | .alloca res _ _ => some { m with mem := bindValue m.mem res none }
  | .store value ptr =>
    match evalOperand m value, m.mem ptr with
    | some v, some _ => some { m with mem := bindValue m.mem ptr (some v) }
    | _, _ => none
  | .load res ptr _ =>
    match m.mem ptr with
    | some (some v) => some { m with regs := bindValue m.regs res v }
    | _ => none
  | .add res bits lhs rhs _ =>
    match m.regs lhs, evalOperand m rhs with
    | some a, some b => some { m with regs := bindValue m.regs res ((a + b) % 2 ^ bits) }
    | _, _ => none
  | .trunc res srcBits src bits _ =>
    match m.regs src with
    | some a =>
      if 1 ≤ bits ∧ bits ≤ (srcBits : Int) then
        some { m with regs := bindValue m.regs res (a % 2 ^ bits.toNat) }
      else none
    | none => none
  | .isNull res src _ =>
    match m.regs src with
    | some a => some { m with regs := bindValue m.regs res (if a = 0 then 1 else 0) }
    | none => none

/-- Execute a list of instructions in order. -/
def execInsts : Machine → List Inst → Option Machine
  | m, [] => some m
  | m, i :: is =>
    match execInst m i with
    | some m1 => execInsts m1 is
    | none => none

/-- Execute a terminator. A condition computed by the pass is read from the
values; a condition of the input program is decided by `oracle`, indexed by
the number of such decisions taken before. True selects successor 0. -/
def execTerminator (oracle : Nat → Bool) (m : Machine) : Terminator → Option Machine
  | .br dest => some { m with pc := dest }
  | .condBr cond succ0 succ1 =>
    match m.regs cond with
    | some v => some { m with pc := if v ≠ 0 then succ0 else succ1 }
    | none =>
      some { m with pc := if oracle m.decisions then succ0 else succ1,
                    decisions := m.decisions + 1 }
  | .ret => none
  | .other _ => none

/-- Execute the current block: record it in the trace, run its instructions
and its terminator. -/
def step (F : Func) (oracle : Nat → Bool) (m : Machine) : Option Machine :=
  match F.block? m.pc with
  | some bb =>
    match execInsts { m with trace := m.pc :: m.trace } bb.insts with
    | some m1 => execTerminator oracle m1 bb.term
    | none => none
  | none => none

/-- Execute blocks until control reaches `stop`, at most `fuel` of them. -/
def run (F : Func) (oracle : Nat → Bool) (stop : BlockId) : Nat → Machine → Option Machine
  | 0, m => if m.pc = stop then some m else none
  | fuel + 1, m =>
    if m.pc = stop then some m
    else
      match step F oracle m with
      | some m1 => run F oracle stop fuel m1
      | none => none

/-- Start of an execution at block `entry`. -/
def Machine.start (entry : BlockId) : Machine :=
  { pc := entry, mem := fun _ => none, regs := fun _ => none, decisions := 0, trace := [] }

/-! ## Example loops -/

/-- An environment for the examples: 64-bit pointers, every loop at `a.c:3`,
no forbid markers and no blockers. -/
def exampleEnv : Env :=
  { nativeBits := 64
    srcPosDesc := fun _ _ => "a.c:3"
    splitPosDesc := fun _ => ("a.c", "3")
    atoi := fun _ => 3
    markerIsForbid := fun _ _ => false
    preciseEscapeCheck := fun _ _ => []
    instDesc := fun _ _ => ""
    extractBlockerLine := fun _ => 0 }

/-- The loop `for (...; c; ...) body` as the front end lowers it: block 0 is
the entry block and preheader, 1 the header `for.cond` branching to the body 2
(successor 0) or the exit 4 (successor 1), 3 the latch `for.inc`. The
instruction lists hold identities of instructions of the input program. -/
def forFunc (entryInsts condInsts bodyInsts incInsts : List Nat) : Func :=
  { name := "f"
    blocks :=
      [(0, ⟨"entry", entryInsts.map Inst.orig, Terminator.br 1⟩),
       (1, ⟨"for.cond", condInsts.map Inst.orig, Terminator.condBr 5 2 4⟩),
       (2, ⟨"for.body", bodyInsts.map Inst.orig, Terminator.br 3⟩),
       (3, ⟨"for.inc", incInsts.map Inst.orig, Terminator.br 1⟩),
       (4, ⟨"for.end", [], Terminator.ret⟩)]
    fresh := 10 }

/-- The loop of `forFunc` and of `forFuncSwapped`. -/
def forLoop : Loop := { blocks := [1, 2, 3], latch := some 3, preheader := some 0 }

/-- As `forFunc`, with the header branching to the exit on successor 0 and to
the body on successor 1. -/
def forFuncSwapped : Func :=
  { name := "f"
    blocks :=
      [(0, ⟨"entry", [], Terminator.br 1⟩),
       (1, ⟨"for.cond", [], Terminator.condBr 5 4 2⟩),
       (2, ⟨"for.body", [Inst.orig 0], Terminator.br 3⟩),
       (3, ⟨"for.inc", [Inst.orig 1], Terminator.br 1⟩),
       (4, ⟨"for.end", [], Terminator.ret⟩)]
    fresh := 10 }

/-- The loop `while (c) body`: 1 is the header `while.cond`, 2 the body, which
is also the latch, 3 the exit. -/
def whileFunc : Func :=
  { name := "f"
    blocks :=
      [(0, ⟨"entry", [], Terminator.br 1⟩),
       (1, ⟨"while.cond", [], Terminator.condBr 5 2 3⟩),
       (2, ⟨"while.body", [Inst.orig 0], Terminator.br 1⟩),
       (3, ⟨"while.end", [], Terminator.ret⟩)]
    fresh := 10 }

/-- The loop of `whileFunc`. -/
def whileLoop : Loop := { blocks := [1, 2], latch := some 2, preheader := some 0 }

/-- A for loop whose body 2 ends in `if (d) break;`: it branches to the exit 4
or to the latch 3. -/
def breakFunc : Func :=
  { name := "f"
    blocks :=
      [(0, ⟨"entry", [], Terminator.br 1⟩),
       (1, ⟨"for.cond", [], Terminator.condBr 5 2 4⟩),
       (2, ⟨"for.body", [Inst.orig 0], Terminator.condBr 6 4 3⟩),
       (3, ⟨"for.inc", [Inst.orig 1], Terminator.br 1⟩),
       (4, ⟨"for.end", [], Terminator.ret⟩)]
    fresh := 10 }

/-- The key of the example loops in `relaxConfig`. -/
def exampleKey : String := loopNameOf "a.c:3"

/-- A pass state for function `F` with an empty description table. -/
def exampleState (relax : Bool) (relaxConfig : List (String × Int)) (F : Func) : PassState :=
  { relax := relax, relaxConfig := relaxConfig, descTable := [], func := F, errs := [] }

/-- The function that `perforateLoop` makes of `forFunc` for the loop `forLoop`
and skip-factor exponent 1: the counter is value 10, the check block is block
16. -/
def perforatedForFunc (env : Env) (entryInsts condInsts bodyInsts incInsts : List Nat) : Func :=
  { name := "f"
    blocks :=
      [(0, ⟨"entry",
          Inst.alloca 10 env.nativeBits "accept_counter" ::
            (entryInsts.map Inst.orig ++ [Inst.store (Operand.const env.nativeBits 0) 10]),
          Terminator.br 1⟩),
       (1, ⟨"for.cond", condInsts.map Inst.orig, Terminator.condBr 5 16 4⟩),
       (16, ⟨"accept_cond",
          [Inst.load 13 10 "accept_tmp",
           Inst.trunc 14 env.nativeBits 13 1 "accept_trunc",
           Inst.isNull 15 14 "accept_cmp"],
          Terminator.condBr 15 2 3⟩),
       (2, ⟨"for.body", bodyInsts.map Inst.orig, Terminator.br 3⟩),
       (3, ⟨"for.inc",
          incInsts.map Inst.orig ++
            [Inst.load 11 10 "accept_tmp",
             Inst.add 12 env.nativeBits 11 (Operand.const env.nativeBits 1) "accept_inc",
             Inst.store (Operand.val 12) 10],
          Terminator.br 1⟩),
       (4, ⟨"for.end", [], Terminator.ret⟩)]
    fresh := 17 }

/-- Blocks executed by iteration `i` of the perforated `forFunc` loop, counting
from 0: header, check block, the body on even iterations, latch. -/
def iterationBlocks (i : Nat) : List BlockId :=
  if i % 2 = 0 then [1, 16, 2, 3] else [1, 16, 3]

/-- Blocks executed by a run of the perforated `forFunc` in which the header
test succeeds `T` times: the entry block, `T` iterations, and the last header
test. -/
def expectedTrace (T : Nat) : List BlockId :=
  0 :: ((List.range T).flatMap iterationBlocks ++ [1])

/-- The machine is at the header at the start of iteration `i`. -/
def AtHeader (w i : Nat) (m : Machine) : Prop :=
  m.pc = 1 ∧ m.mem 10 = some (some (i % 2 ^ w)) ∧ m.regs 5 = none ∧ m.decisions = i ∧
    m.trace.reverse = 0 :: (List.range i).flatMap iterationBlocks

/-- As `exampleEnv`, with the forbid marker on every loop header. -/
def forbidEnv : Env := { exampleEnv with markerIsForbid := fun _ _ => true }

/-- The text `s` contains the text `pat`. -/
def containsText (s pat : String) : Prop := pat.data <:+: s.data

instance (s pat : String) : Decidable (containsText s pat) :=
  inferInstanceAs (Decidable (pat.data <:+: s.data))

/-- The key in the description table of the loop with header `header`. -/
def loopLocation (env : Env) (F : Func) (header : BlockId) (hasBlockers : Bool) : Location :=
  ⟨"Loop", hasBlockers, (env.splitPosDesc (env.srcPosDesc F header)).1,
    env.atoi (env.splitPosDesc (env.srcPosDesc F header)).2⟩

/-- The state `st` with its description table replaced by `t`. -/
def withDescTable (st : PassState) (t : DescTable) : PassState :=
  { st with descTable := t }

/-- A two-block while loop whose latch, block 2, holds only its terminator. -/
def emptyBodyFunc : Func :=
  { name := "f"
    blocks :=
      [(0, ⟨"entry", [], Terminator.br 1⟩),
       (1, ⟨"while.cond", [Inst.orig 0], Terminator.condBr 5 2 3⟩),
       (2, ⟨"while.body", [], Terminator.br 1⟩),
       (3, ⟨"while.end", [], Terminator.ret⟩)]
    fresh := 10 }

/-- A graph with three instructions: 0 carries the qualifier APPROX, 1 the
qualifier PRECISE and 2 no qualifier. -/
def qualsExample : DefUse :=
  { size := 3
    opcode := fun _ => Opcode.binop
    quals := fun i => if i.val = 0 then some 1 else if i.val = 1 then some 0 else none
    uses := fun _ => [] }

/-- The environment `env` with `preciseEscapeCheck` replaced by `pec`. -/
def withEscapeCheck (env : Env) (pec : Func → List BlockId → List Nat) : Env :=
  { env with preciseEscapeCheck := pec }

/-- The state `st` with the `relax` flag and `relaxConfig` replaced. -/
def withConfig (st : PassState) (relax : Bool) (relaxConfig : List (String × Int)) :
    PassState :=
  { st with relax := relax, relaxConfig := relaxConfig }

/-- Two for loops one after the other in one function, both reported at
`a.c:3` by `exampleEnv` (as for loops that come from one expansion): the first
has the blocks 1, 2, 3 (the loop `forLoop`), the second the blocks 5, 6, 7. -/
def twoLoopFunc : Func :=
  { name := "f"
    blocks :=
      [(0, ⟨"entry", [], Terminator.br 1⟩),
       (1, ⟨"for.cond", [], Terminator.condBr 20 2 4⟩),
       (2, ⟨"for.body", [Inst.orig 0], Terminator.br 3⟩),
       (3, ⟨"for.inc", [Inst.orig 1], Terminator.br 1⟩),
       (4, ⟨"for.end", [], Terminator.br 5⟩),
       (5, ⟨"for.cond1", [], Terminator.condBr 21 6 8⟩),
       (6, ⟨"for.body3", [Inst.orig 2], Terminator.br 7⟩),
       (7, ⟨"for.inc4", [Inst.orig 3], Terminator.br 5⟩),
       (8, ⟨"for.end5", [], Terminator.ret⟩)]
    fresh := 30 }

/-- The second loop of `twoLoopFunc`. -/
def secondLoop : Loop := { blocks := [5, 6, 7], latch := some 7, preheader := some 4 }

/-- As `exampleEnv`, with one blocker, instruction 2, reported for the body of
the second loop of `twoLoopFunc` and none for any other region. -/
def blockerEnv : Env :=
  { exampleEnv with
    preciseEscapeCheck := fun _ region => if region = [6] then [2] else []
    instDesc := fun _ _ => "store at a.c:4"
    extractBlockerLine := fun _ => 4 }

/-- The list `p` is a path of use edges of `g`: each instruction on it is used
by the next one. -/
def isUsePath (g : DefUse) : List (Fin g.size) → Bool
  | [] => true
  | [_] => true
  | a :: b :: rest => decide (some b ∈ g.uses a) && isUsePath g (b :: rest)

/-- A chain 0 → 1 → 2: instruction 0 is untagged, its only user 1 carries the
qualifier APPROX, and the user of 1 is the untagged store 2. -/
def guardedStore : DefUse :=
  { size := 3
    opcode := fun i => if i.val = 2 then Opcode.store else Opcode.binop
    quals := fun i => if i.val = 1 then some 1 else none
    uses := fun i => if i.val = 0 then [some 1] else if i.val = 1 then [some 2] else [] }

/-- The function that `perforateLoop` makes of `forFunc` for the loop `forLoop`
and skip-factor exponent `k`: as `perforatedForFunc`, with the truncation to
`k` bits. -/
def perforatedForFuncAt (env : Env) (k : Nat) (entryInsts condInsts bodyInsts incInsts : List Nat) :
    Func :=
  { name := "f"
    blocks :=
      [(0, ⟨"entry",
          Inst.alloca 10 env.nativeBits "accept_counter" ::
            (entryInsts.map Inst.orig ++ [Inst.store (Operand.const env.nativeBits 0) 10]),
          Terminator.br 1⟩),
       (1, ⟨"for.cond", condInsts.map Inst.orig, Terminator.condBr 5 16 4⟩),
       (16, ⟨"accept_cond",
          [Inst.load 13 10 "accept_tmp",
           Inst.trunc 14 env.nativeBits 13 (k : Int) "accept_trunc",
           Inst.isNull 15 14 "accept_cmp"],
          Terminator.condBr 15 2 3⟩),
       (2, ⟨"for.body", bodyInsts.map Inst.orig, Terminator.br 3⟩),
       (3, ⟨"for.inc",
          incInsts.map Inst.orig ++
            [Inst.load 11 10 "accept_tmp",
             Inst.add 12 env.nativeBits 11 (Operand.const env.nativeBits 1) "accept_inc",
             Inst.store (Operand.val 12) 10],
          Terminator.br 1⟩),
       (4, ⟨"for.end", [], Terminator.ret⟩)]
    fresh := 17 }

/-- Blocks executed by iteration `j` of the loop of `perforatedForFuncAt`: the
body runs when the low `k` bits of `j` are zero. -/
def iterationBlocksAt (k j : Nat) : List BlockId :=
  if j % 2 ^ k = 0 then [1, 16, 2, 3] else [1, 16, 3]

/-- Blocks executed by a run of `perforatedForFuncAt` in which the header test
succeeds `T` times. -/
def expectedTraceAt (k T : Nat) : List BlockId :=
  0 :: ((List.range T).flatMap (iterationBlocksAt k) ++ [1])

/-- The machine is at the header of `perforatedForFuncAt` at the start of
iteration `j`. -/
def AtHeaderAt (w k j : Nat) (m : Machine) : Prop :=
  m.pc = 1 ∧ m.mem 10 = some (some (j % 2 ^ w)) ∧ m.regs 5 = none ∧ m.decisions = j ∧
    m.trace.reverse = 0 :: (List.range j).flatMap (iterationBlocksAt k)

/-- A machine at block `pc` whose slot `slot` holds `c`. -/
def machineAt (pc : BlockId) (slot : ValueId) (c : Nat) : Machine :=
  { pc := pc, mem := fun j => if j = slot then some (some c) else none, regs := fun _ => none,
    decisions := 0, trace := [] }

/-! ## Basic-block instrumentation (`pass/bbcount.cpp`) -/

/-- Result types of an instruction, as far as `doInitialization` tells them
apart. -/
inductive ResultType where
  | half | float | double | other
  deriving DecidableEq, Repr

/-- An instruction as seen by the counting loop. -/
structure CountedInst where
  opcode : Opcode
  resultType : ResultType
  deriving DecidableEq, Repr

/-- A function of the module: its name, its basic blocks (each with its
instructions), and the answers of `shouldSkipFunc` and `shouldInjectError` of
the transform pass for it. -/
structure ModFunc where
  name : String
  blocks : List (List CountedInst)
  shouldSkipFunc : Bool
  shouldInjectError : Bool
  deriving DecidableEq, Repr

/-- A call `logbb(index)` inserted before the terminator of the block at
position `block` of function `func`. -/
structure LogCall where
  func : String
  block : Nat
  index : Nat
  deriving DecidableEq, Repr

/-- The statics of the pass (`bbIndex`, `bbTotal`, `fpTotal`, `fpIndex`, all
`unsigned`), the arguments of the `logbb_init` call placed in `main`, and the
`logbb` calls inserted so far, oldest first. -/
structure BBState where
  bbIndex : Nat
  bbTotal : Nat
  fpTotal : Nat
  fpIndex : Nat
  initCall : Option (Nat × Nat)
  calls : List LogCall
  deriving DecidableEq, Repr

/-- Arithmetic on `unsigned` wraps at `2^32`. -/
def uintWrap (n : Nat) : Nat := n % 2 ^ 32

/-- The test of the counting loop: a binary operator, store, load or call
whose type is half, float or double. -/
def isFpOp (inst : CountedInst) : Bool :=
  (inst.opcode == Opcode.binop || inst.opcode == Opcode.store
    || inst.opcode == Opcode.load || inst.opcode == Opcode.call)
  && (inst.resultType == ResultType.half || inst.resultType == ResultType.float
    || inst.resultType == ResultType.double)

/-- One round of the loop over the functions in `doInitialization`: add the
function's size to `bbTotal` and count its floating-point operations into
`fpTotal`. -/
def countFunction (totals : Nat × Nat) (F : ModFunc) : Nat × Nat :=
  (uintWrap (totals.1 + F.blocks.length),
   F.blocks.foldl
     (fun t bb => bb.foldl (fun t inst => if isFpOp inst then uintWrap (t + 1) else t) t)
     totals.2)

/-- Source `doInitialization`. The result is `none` when the module has no
function `main` (the assertion fails) or `main` has no block to hold the
`logbb_init` call. -/
def doInitialization (M : List ModFunc) : Option BBState :=
  match M.find? (fun F => F.name == "main") with
  | none => none
  | some main =>
    match main.blocks with
    | [] => none
    | _ :: _ =>
      let totals := M.foldl countFunction (0, 0)
      some { bbIndex := 0, bbTotal := totals.1, fpTotal := totals.2, fpIndex := 0,
             initCall := some totals, calls := [] }

/-- The loop over the blocks in `instrumentBasicBlocks`, with the position of
the next block in the function. The result is `none` when the assertion
`bbIndex < bbTotal` fails. -/
def instrumentBlocks (F : ModFunc) : Nat → List (List CountedInst) → BBState → Option BBState
  | _, [], st => some st
  | pos, _ :: rest, st =>
    if F.shouldInjectError then
      if st.bbIndex < st.bbTotal then
        instrumentBlocks F (pos + 1) rest
          { st with calls := st.calls ++ [⟨F.name, pos, st.bbIndex⟩],
                    bbIndex := uintWrap (st.bbIndex + 1) }
      else none
    else
      instrumentBlocks F (pos + 1) rest { st with bbIndex := uintWrap (st.bbIndex + 1) }

/-- Source `instrumentBasicBlocks`: the new state and the `modified` flag. -/
def instrumentBasicBlocks (F : ModFunc) (st : BBState) : Option (Bool × BBState) :=
  (instrumentBlocks F 0 F.blocks st).map
    (fun st1 => (F.shouldInjectError && !F.blocks.isEmpty, st1))

/-- Source `runOnFunction`. -/
def runOnFunction (F : ModFunc) (st : BBState) : Option (Bool × BBState) :=
  if !F.shouldSkipFunc then instrumentBasicBlocks F st else some (false, st)

/-- Run `runOnFunction` on the functions of a list, in order. -/
def runOnFunctions : List ModFunc → BBState → Option BBState
  | [], st => some st
  | F :: rest, st =>
    match runOnFunction F st with
    | some r => runOnFunctions rest r.2
    | none => none

/-- Number of basic blocks of the module. -/
def totalBlocks (M : List ModFunc) : Nat := (M.map (fun F => F.blocks.length)).sum

/-- A module with `main` (two blocks) and `helper` (one block), both
instrumented. -/
def exampleModule : List ModFunc :=
  [⟨"main", [[⟨Opcode.binop, ResultType.float⟩], []], false, true⟩,
   ⟨"helper", [[⟨Opcode.load, ResultType.other⟩]], false, true⟩]

/-- A module with `main` (one block) and a library function `memcpy` (one
block) that `shouldSkipFunc` excludes. -/
def libraryModule : List ModFunc :=
  [⟨"main", [[]], false, true⟩, ⟨"memcpy", [[]], true, false⟩]

/-- Number of elements held by a map of vectors, over all keys. -/
def mapTotal {κ ν : Type} (m : List (κ × List ν)) : Nat :=
  (m.map (fun p => p.2.length)).sum

/-- The path condition of `tryToOptimizeLoop` at the call of
`preciseEscapeCheck` (line 196), for a loop with header `header`: no forbid
marker, latch and preheader present, header not named `arrayctor.loop...`, not
a two-block loop with an empty latch, relax flag off, body-block set not empty
and without loop-exiting block. -/
def reachesEscapeCheck (env : Env) (st : PassState) (loop : Loop) (header : BlockId) : Bool :=
  !env.markerIsForbid st.func header
  && !(loop.latch.isNone || loop.preheader.isNone)
  && !startswith (st.func.blockName header) "arrayctor.loop"
  && !decide (loop.getNumBlocks = 2 ∧ some header ≠ loop.latch
      ∧ loop.latch.map (latchIsOnlyTerminator st.func) = some true)
  && !st.relax
  && !(bodyBlocksOf loop header (startswith (st.func.blockName header) "for.cond")).isEmpty
  && !(bodyBlocksOf loop header (startswith (st.func.blockName header) "for.cond")).any
      (loop.isLoopExiting st.func)

/-- The blockers that `tryToOptimizeLoop` gets from `preciseEscapeCheck` for the
loop with header `header`. -/
def blockersOf (env : Env) (st : PassState) (loop : Loop) (header : BlockId) : List Nat :=
  env.preciseEscapeCheck st.func
    (bodyBlocksOf loop header (startswith (st.func.blockName header) "for.cond"))

/-- The explanation string filed for a blocker. -/
def blockerText (env : Env) (F : Func) (blocker : Nat) : String :=
  " * " ++ env.instDesc F blocker ++ "\n"

/-- The source line under which a blocker is filed. -/
def blockerLineOf (env : Env) (F : Func) (blocker : Nat) : Int :=
  env.extractBlockerLine (env.instDesc F blocker)

/-! ## Static counting (`ACCEPTPass::countAndInstrument` in `pass/enerc.cpp`) -/

/-- The module-wide counters of `ACCEPTPass` (`unsigned long`) and the
arguments (approx, elidable, total) of the trace calls inserted so far. -/
structure CountState where
  gApproxInsts : Nat
  gElidableInsts : Nat
  gTotalInsts : Nat
  traceCalls : List (Nat × Nat × Nat)
  deriving DecidableEq, Repr

/-- The counters of one block (`unsigned int`). -/
structure BlockCounts where
  approxInsts : Nat
  elidableInsts : Nat
  totalInsts : Nat
  deriving DecidableEq, Repr

/-- The counters as the constructor of `ACCEPTPass` sets them. -/
def CountState.init : CountState :=
  { gApproxInsts := 0, gElidableInsts := 0, gTotalInsts := 0, traceCalls := [] }

/-- Arithmetic on `unsigned long` of `bits` bits wraps at `2^bits`. -/
def ulongWrap (bits n : Nat) : Nat := n % 2 ^ bits

/-- The body of the loop over the instructions of a block: the terminator is
passed over; for every other instruction the totals are incremented, the
approx counters when `isApprox` holds and the elidable counters when
`elidable` holds. -/
def countInst (g : DefUse) (ulongBits : Nat) (terminator : Option (Fin g.size))
    (acc : CountState × BlockCounts) (ii : Fin g.size) : CountState × BlockCounts :=
  if some ii = terminator then acc
  else
    let iApprox := isApprox g ii
    let iElidable := decide (elidable g ii = some true)
    let gTotal := ulongWrap ulongBits (acc.1.gTotalInsts + 1)
    let total := uintWrap (acc.2.totalInsts + 1)
    let gApprox :=
      if iApprox then ulongWrap ulongBits (acc.1.gApproxInsts + 1) else acc.1.gApproxInsts
    let approx := if iApprox then uintWrap (acc.2.approxInsts + 1) else acc.2.approxInsts
    let gElidable :=
      if iElidable then ulongWrap ulongBits (acc.1.gElidableInsts + 1)
      else acc.1.gElidableInsts
    let elidableInsts :=
      if iElidable then uintWrap (acc.2.elidableInsts + 1) else acc.2.elidableInsts
    ({ gApproxInsts := gApprox, gElidableInsts := gElidable, gTotalInsts := gTotal,
       traceCalls := acc.1.traceCalls },
     { approxInsts := approx, elidableInsts := elidableInsts, totalInsts := total })

/-- The body of the loop over the blocks of a function. A block is the list of
its instructions, the last one being its terminator; with `optInstrument` the
trace call for the block is recorded. -/
def countBlock (g : DefUse) (ulongBits : Nat) (optInstrument : Bool) (st : CountState)
    (bb : List (Fin g.size)) : CountState :=
  let r := bb.foldl (countInst g ulongBits bb.getLast?) (st, ⟨0, 0, 0⟩)
  if optInstrument then
    { gApproxInsts := r.1.gApproxInsts, gElidableInsts := r.1.gElidableInsts,
      gTotalInsts := r.1.gTotalInsts,
      traceCalls := r.1.traceCalls
        ++ [(r.2.approxInsts, r.2.elidableInsts, r.2.totalInsts)] }
  else r.1

/-- Source `countAndInstrument` on a function given by its blocks. -/
def countAndInstrument (g : DefUse) (ulongBits : Nat) (optInstrument : Bool)
    (F : List (List (Fin g.size))) (st : CountState) : CountState :=
  F.foldl (countBlock g ulongBits optInstrument) st

/-- Run `countAndInstrument` on a sequence of functions, starting from the
counters set by the constructor. -/
def countFunctions (g : DefUse) (ulongBits : Nat) (optInstrument : Bool)
    (fs : List (List (List (Fin g.size)))) : CountState :=
  fs.foldl (fun st F => countAndInstrument g ulongBits optInstrument F st) CountState.init

/-- Number of instructions of a function, terminators included. -/
def funcInstCount {n : Nat} (F : List (List (Fin n))) : Nat := (F.map List.length).sum

/-- Number of instructions of a sequence of functions. -/
def instCount {n : Nat} (fs : List (List (List (Fin n)))) : Nat := (fs.map funcInstCount).sum

/-- The counters are in the order approx, elidable, total. -/
def CountState.ordered (st : CountState) : Prop :=
  st.gApproxInsts ≤ st.gElidableInsts ∧ st.gElidableInsts ≤ st.gTotalInsts ∧
    ∀ c ∈ st.traceCalls, c.1 ≤ c.2.1 ∧ c.2.1 ≤ c.2.2

/-- A function of two blocks over six instructions. Block `[0, 1, 5]`: the
untagged 0 is used by 1, which carries APPROX, and 5 is the branch that ends
the block. Block `[2, 3, 4]`: 2 is an untagged store that uses 1, 3 is an
untagged instruction without users and 4 is the return. -/
def countExample : DefUse :=
  { size := 6
    opcode := fun i =>
      if i.val = 2 then Opcode.store
      else if i.val = 4 then Opcode.ret
      else if i.val = 5 then Opcode.br
      else Opcode.binop
    quals := fun i => if i.val = 1 then some 1 else none
    uses := fun i => if i.val = 0 then [some 1] else if i.val = 1 then [some 2] else [] }

/-- The blocks of the function of `countExample`. -/
def countExampleBlocks : List (List (Fin countExample.size)) :=
  [[(0 : Fin 6), (1 : Fin 6), (5 : Fin 6)], [(2 : Fin 6), (3 : Fin 6), (4 : Fin 6)]]


/-! ## Lemmas on the elidability traversal -/

section ElidableLemmas

variable {g : DefUse}

theorem usersLoop_fuel_mono {self1 self2 : Fin g.size → Seen g → Option (Bool × Seen g)}
    (h : ∀ i s r, self1 i s = some r → self2 i s = some r) :
    ∀ (us : List (Option (Fin g.size))) (s : Seen g) (r : Bool × Seen g),
      usersLoop self1 us s = some r → usersLoop self2 us s = some r := by
  intro us
  induction us with
  | nil => intro s r hr; simpa [usersLoop] using hr
  | cons u us ih =>
    intro s r hr
    cases u with
    | none => simp only [usersLoop] at hr ⊢; exact ih s r hr
    | some u =>
      simp only [usersLoop] at hr ⊢
      cases h1 : self1 u s with
      | none => simp [h1] at hr
      | some p =>
        obtain ⟨b, s1⟩ := p
        rw [h u s _ h1]
        rw [h1] at hr
        cases b with
        | false => simpa using hr
        | true => simp only at hr ⊢; exact ih s1 r hr

theorem elidable_helper_fuel_succ :
    ∀ (fuel : Nat) (i : Fin g.size) (s : Seen g) (r : Bool × Seen g),
      elidable_helper g fuel i s = some r → elidable_helper g (fuel + 1) i s = some r := by
  intro fuel
  induction fuel with
  | zero => intro i s r hr; simp [elidable_helper] at hr
  | succ f ih =>
    intro i s r hr
    rw [elidable_helper] at hr ⊢
    split_ifs at hr ⊢ with h1 h2 h3
    · exact hr
    · exact hr
    · exact hr
    · exact usersLoop_fuel_mono ih _ _ _ hr

theorem elidable_helper_fuel_add (fuel k : Nat) (i : Fin g.size) (s : Seen g)
    (r : Bool × Seen g) (h : elidable_helper g fuel i s = some r) :
    elidable_helper g (fuel + k) i s = some r := by
  induction k with
  | zero => exact h
  | succ k ih => exact elidable_helper_fuel_succ _ _ _ _ ih

theorem usersLoop_total {self : Fin g.size → Seen g → Option (Bool × Seen g)} {bound : Nat}
    (h : ∀ i s, s.Nodup → bound ≤ s.length →
      ∃ b s1, self i s = some (b, s1) ∧ s1.Nodup ∧ s.length ≤ s1.length) :
    ∀ (us : List (Option (Fin g.size))) (s : Seen g), s.Nodup → bound ≤ s.length →
      ∃ b s1, usersLoop self us s = some (b, s1) ∧ s1.Nodup ∧ s.length ≤ s1.length := by
  intro us
  induction us with
  | nil => intro s hs _; exact ⟨true, s, by simp [usersLoop], hs, le_refl _⟩
  | cons u us ih =>
    intro s hs hb
    cases u with
    | none => simp only [usersLoop]; exact ih s hs hb
    | some u =>
      obtain ⟨b, s1, h1, hn1, hl1⟩ := h u s hs hb
      simp only [usersLoop, h1]
      cases b with
      | false => exact ⟨false, s1, rfl, hn1, hl1⟩
      | true =>
        obtain ⟨b2, s2, h2, hn2, hl2⟩ := ih s1 hn1 (le_trans hb hl1)
        exact ⟨b2, s2, h2, hn2, le_trans hl1 hl2⟩

theorem elidable_helper_total :
    ∀ (fuel : Nat) (i : Fin g.size) (s : Seen g), s.Nodup → g.size + 1 ≤ fuel + s.length →
      ∃ b s1, elidable_helper g fuel i s = some (b, s1) ∧ s1.Nodup ∧ s.length ≤ s1.length := by
  intro fuel
  induction fuel with
  | zero =>
    intro i s hs hb
    have := hs.length_le_card
    simp at this
    omega
  | succ f ih =>
    intro i s hs hb
    rw [elidable_helper]
    split_ifs with h1 h2 h3
    · exact ⟨false, s, rfl, hs, le_refl _⟩
    · exact ⟨true, i :: s, rfl, List.nodup_cons.2 ⟨h1, hs⟩, by simp⟩
    · exact ⟨false, i :: s, rfl, List.nodup_cons.2 ⟨h1, hs⟩, by simp⟩
    · have hloop := @usersLoop_total g (elidable_helper g f) (g.size + 1 - f)
        (fun j t ht hbt => ih j t ht (by omega)) (g.uses i) (i :: s)
        (List.nodup_cons.2 ⟨h1, hs⟩) (by simp; omega)
      obtain ⟨b, s1, e, hn, hl⟩ := hloop
      exact ⟨b, s1, e, hn, by simp at hl; omega⟩

theorem usersLoop_seen_subset {self : Fin g.size → Seen g → Option (Bool × Seen g)}
    (h : ∀ i s b s1, self i s = some (b, s1) → s ⊆ s1) :
    ∀ (us : List (Option (Fin g.size))) (s : Seen g) (b : Bool) (s1 : Seen g),
      usersLoop self us s = some (b, s1) → s ⊆ s1 := by
  intro us
  induction us with
  | nil =>
    intro s b s1 hr
    simp [usersLoop] at hr
    rw [hr.2]
    exact List.Subset.refl _
  | cons u us ih =>
    intro s b s1 hr
    cases u with
    | none => simp only [usersLoop] at hr; exact ih s b s1 hr
    | some u =>
      simp only [usersLoop] at hr
      cases h1 : self u s with
      | none => simp [h1] at hr
      | some p =>
        obtain ⟨c, t⟩ := p
        rw [h1] at hr
        have hst := h u s c t h1
        cases c with
        | false =>
          simp at hr
          rw [← hr.2]
          exact hst
        | true => exact List.Subset.trans hst (ih t b s1 hr)

theorem elidable_helper_seen_subset :
    ∀ (fuel : Nat) (i : Fin g.size) (s : Seen g) (b : Bool) (s1 : Seen g),
      elidable_helper g fuel i s = some (b, s1) → s ⊆ s1 := by
  intro fuel
  induction fuel with
  | zero => intro i s b s1 hr; simp [elidable_helper] at hr
  | succ f ih =>
    intro i s b s1 hr
    rw [elidable_helper] at hr
    split_ifs at hr with h1 h2 h3
    · simp at hr; rw [hr.2]; exact List.Subset.refl _
    · simp at hr; rw [← hr.2]; exact List.subset_cons_self _ _
    · simp at hr; rw [← hr.2]; exact List.subset_cons_self _ _
    · exact List.Subset.trans (List.subset_cons_self _ _)
        (usersLoop_seen_subset ih _ _ _ _ hr)

theorem usersLoop_true_mono
    {self1 : Fin g.size → Seen g → Option (Bool × Seen g)}
    {self2 : Fin g.size → Seen g → Option (Bool × Seen g)}
    (h : ∀ i s t s1, t ⊆ s → self1 i s = some (true, s1) →
      ∃ t1, self2 i t = some (true, t1) ∧ t1 ⊆ s1) :
    ∀ (us : List (Option (Fin g.size))) (s t s1 : Seen g), t ⊆ s →
      usersLoop self1 us s = some (true, s1) →
      ∃ t1, usersLoop self2 us t = some (true, t1) ∧ t1 ⊆ s1 := by
  intro us
  induction us with
  | nil =>
    intro s t s1 hts hr
    simp [usersLoop] at hr
    exact ⟨t, by simp [usersLoop], hr ▸ hts⟩
  | cons u us ih =>
    intro s t s1 hts hr
    cases u with
    | none => simp only [usersLoop] at hr ⊢; exact ih s t s1 hts hr
    | some u =>
      simp only [usersLoop] at hr ⊢
      cases h1 : self1 u s with
      | none => simp [h1] at hr
      | some p =>
        obtain ⟨c, s2⟩ := p
        rw [h1] at hr
        cases c with
        | false => simp at hr
        | true =>
          obtain ⟨t2, e2, ht2⟩ := h u s t s2 hts h1
          rw [e2]
          exact ih s2 t2 s1 ht2 hr

end ElidableLemmas

section TagLemmas

variable (g : DefUse) (q : Fin g.size → Option Int)

theorem elidable_helper_true_mono
    (hq : ∀ i : Fin g.size, isApprox g i = true → isApprox (withQuals g q) i = true) :
    ∀ (fuel : Nat) (i : Fin g.size) (s t s1 : Seen g), t ⊆ s →
      elidable_helper g fuel i s = some (true, s1) →
      ∃ t1 : Seen g, elidable_helper (withQuals g q) fuel i t = some (true, t1) ∧ t1 ⊆ s1 := by
  intro fuel
  induction fuel with
  | zero => intro i s t s1 _ hr; simp [elidable_helper] at hr
  | succ f ih =>
    intro i s t s1 hts hr
    rw [elidable_helper] at hr ⊢
    split_ifs at hr with h1 h2 h3
    · simp at hr
    · have h1t : i ∉ t := fun hm => h1 (hts hm)
      simp at hr
      refine ⟨i :: t, ?_, ?_⟩
      · rw [if_neg h1t, if_pos (hq i h2)]
      · rw [← hr]; exact List.cons_subset_cons i hts
    · simp at hr
    · have h1t : i ∉ t := fun hm => h1 (hts hm)
      have hsub : i :: s ⊆ s1 := usersLoop_seen_subset
        (elidable_helper_seen_subset f) _ _ _ _ hr
      rw [if_neg h1t]
      by_cases ha : isApprox (withQuals g q) i = true
      · rw [if_pos ha]
        exact ⟨i :: t, rfl, List.Subset.trans (List.cons_subset_cons i hts) hsub⟩
      · rw [if_neg ha]
        have hs2 : isSink (withQuals g q) i = isSink g i := rfl
        rw [hs2, if_neg h3]
        exact usersLoop_true_mono ih (g.uses i) (i :: s) (i :: t) s1
          (List.cons_subset_cons i hts) hr

end TagLemmas


theorem usersLoop_true_member {n : Nat}
    {self : Fin n → List (Fin n) → Option (Bool × List (Fin n))}
    (hsub : ∀ i s b s1, self i s = some (b, s1) → s ⊆ s1) :
    ∀ (us : List (Option (Fin n))) (s s1 : List (Fin n)),
      usersLoop self us s = some (true, s1) →
      ∀ u, some u ∈ us → ∃ t t1, s ⊆ t ∧ self u t = some (true, t1) := by
  intro us
  induction us with
  | nil => intro s s1 _ u hu; simp at hu
  | cons v us ih =>
    intro s s1 hr u hu
    cases v with
    | none =>
      simp only [usersLoop] at hr
      simp at hu
      exact ih s s1 hr u hu
    | some v =>
      simp only [usersLoop] at hr
      cases h1 : self v s with
      | none => simp [h1] at hr
      | some p =>
        obtain ⟨c, s2⟩ := p
        rw [h1] at hr
        cases c with
        | false => simp at hr
        | true =>
          simp at hu
          rcases hu with hu | hu
          · subst hu
            exact ⟨s, s2, List.Subset.refl _, h1⟩
          · obtain ⟨t, t1, hst, e⟩ := ih s2 s1 hr u hu
            exact ⟨t, t1, List.Subset.trans (hsub v s true s2 h1) hst, e⟩

/-- A successful call on an untagged instruction made a successful call, on a larger `seen` set that contains the instruction, on each user. -/
theorem elidable_helper_true_step (g : DefUse) (fuel : Nat) (i : Fin g.size) (s s1 : Seen g)
    (ha : isApprox g i = false)
    (h : elidable_helper g fuel i s = some (true, s1)) :
    i ∉ s ∧ ∀ u, some u ∈ g.uses i →
      ∃ f t t1, i ∈ t ∧ s ⊆ t ∧ elidable_helper g f u t = some (true, t1) := by
  cases fuel with
  | zero => simp [elidable_helper] at h
  | succ f =>
    rw [elidable_helper] at h
    split_ifs at h with h1 h2 h3
    · simp at h
    · simp [ha] at h2
    · simp at h
    · refine ⟨h1, fun u hu => ?_⟩
      obtain ⟨t, t1, hst, e⟩ :=
        usersLoop_true_member (elidable_helper_seen_subset f) _ _ _ h u hu
      exact ⟨f, t, t1, hst (List.mem_cons_self _ _),
        List.Subset.trans (List.subset_cons_self _ _) hst, e⟩

/-- The direction of the recursive characterisation that holds on every
graph: when an untagged instruction is elidable, each instruction that uses it
is elidable as a top-level call. -/
theorem elidable_users_of_elidable (g : DefUse) (i : Fin g.size)
    (ha : isApprox g i = false) (h : elidable g i = some true) :
    ∀ u, some u ∈ g.uses i → elidable g u = some true := by
  intro u hu
  simp only [elidable, Option.map_eq_some', Prod.exists, exists_and_right, exists_eq_right] at h
  obtain ⟨s1, e⟩ := h
  obtain ⟨_, hstep⟩ := elidable_helper_true_step g _ i [] s1 ha e
  obtain ⟨f, t, t1, _, _, eu⟩ := hstep u hu
  have hq : ∀ j : Fin g.size, isApprox g j = true → isApprox (withQuals g g.quals) j = true :=
    fun j hj => hj
  obtain ⟨t2, e2, _⟩ := elidable_helper_true_mono g g.quals hq f u t [] t1 (by simp) eu
  have e3 : elidable_helper g f u [] = some (true, t2) := e2
  obtain ⟨r, s2, e4, _, _⟩ := elidable_helper_total (g.size + 1) u [] List.nodup_nil (by simp)
  have e5 := elidable_helper_fuel_add (g.size + 1) f u [] _ e4
  have e6 := elidable_helper_fuel_add f (g.size + 1) u [] _ e3
  rw [Nat.add_comm f (g.size + 1), e5] at e6
  simp only [Option.some.injEq, Prod.mk.injEq] at e6
  simp [elidable, e4, e6.1]

/-- An untagged instruction that is no store, return or branch and has no
instruction among its users is elidable. -/
theorem elidable_of_no_users (g : DefUse) (i : Fin g.size)
    (ha : isApprox g i = false) (hk : isSink g i = false)
    (hu : ∀ u ∈ g.uses i, u = none) : elidable g i = some true := by
  have hloop : ∀ (us : List (Option (Fin g.size))) (s : Seen g), (∀ u ∈ us, u = none) →
      usersLoop (elidable_helper g g.size) us s = some (true, s) := by
    intro us
    induction us with
    | nil => intro s _; rfl
    | cons v us ih =>
      intro s hv
      have hv0 : v = none := hv v (List.mem_cons_self _ _)
      subst hv0
      simp only [usersLoop]
      exact ih s (fun u hu1 => hv u (List.mem_cons_of_mem _ hu1))
  simp [elidable, elidable_helper, ha, hk, hloop _ _ hu]

/-! ## Elidability: the properties -/

/-- C1 (failing input): in the diamond 0 → {1, 2} → 3 instruction 0 is untagged
and is no store, return or branch, and each instruction that uses it is
elidable as a top-level call, yet `elidable` answers false for it: the second
visit of 3 is reported as a cycle. -/
theorem elidable_diamond_rejected :
    isApprox diamond (0 : Fin 4) = false ∧ isSink diamond (0 : Fin 4) = false ∧
    (∀ u : Fin 4, some u ∈ diamond.uses (0 : Fin 4) → elidable diamond u = some true) ∧
    elidable diamond (0 : Fin 4) = some false := by
  decide

/-- C2: an instruction tagged APPROX is elidable whatever its kind and its
consumers are. -/
theorem elidable_of_isApprox (g : DefUse) (i : Fin g.size) (h : isApprox g i = true) :
    elidable g i = some true := by
  simp [elidable, elidable_helper, h]

/-- Witness for C2 on an APPROX-tagged store whose consumer is a precise
return. -/
theorem elidable_of_isApprox_witness :
    isSink approxStore (0 : Fin 2) = true ∧ elidable approxStore (0 : Fin 2) = some true :=
  ⟨by decide, elidable_of_isApprox approxStore (0 : Fin 2) (by decide)⟩

/-- C3: a store, return or branch that is not tagged APPROX is not elidable,
whatever its consumers are. -/
theorem not_elidable_of_precise_sink (g : DefUse) (i : Fin g.size)
    (hk : isSink g i = true) (ha : isApprox g i = false) :
    elidable g i = some false := by
  simp [elidable, elidable_helper, hk, ha]

/-- Witness for C3 on the precise return of `approxStore`. -/
theorem not_elidable_of_precise_sink_witness :
    elidable approxStore (1 : Fin 2) = some false :=
  not_elidable_of_precise_sink approxStore (1 : Fin 2) (by decide) (by decide)

/-- C4: `elidable` terminates on every finite def-use graph. Every call of
`elidable_helper` whose depth bound covers the instructions not yet in a
duplicate-free `seen` set returns, with a `seen` set that is again
duplicate-free and at least as long; so the top-level call returns for the
bound `size + 1` and for every larger bound, with the same answer. On a cycle
of three untagged instructions (a used by b, b used by c, c used by a; in
particular when none of them is a store, return or branch) the answer for a
is false. -/
theorem elidable_terminates (g : DefUse) :
    (∀ (fuel : Nat) (i : Fin g.size) (s : Seen g), s.Nodup → g.size + 1 ≤ fuel + s.length →
      ∃ b s1, elidable_helper g fuel i s = some (b, s1) ∧ s1.Nodup ∧ s.length ≤ s1.length) ∧
    (∀ (i : Fin g.size) (k : Nat), ∃ b s1,
      elidable_helper g (g.size + 1 + k) i [] = some (b, s1) ∧ elidable g i = some b) ∧
    (∀ a b c : Fin g.size,
      isApprox g a = false → isApprox g b = false → isApprox g c = false →
      some b ∈ g.uses a → some c ∈ g.uses b → some a ∈ g.uses c →
      elidable g a = some false) := by
  have htop : ∀ i : Fin g.size, ∃ b s1, elidable_helper g (g.size + 1) i [] = some (b, s1) := by
    intro i
    obtain ⟨b, s1, e, _, _⟩ := elidable_helper_total (g.size + 1) i [] List.nodup_nil (by simp)
    exact ⟨b, s1, e⟩
  refine ⟨elidable_helper_total, ?_, ?_⟩
  · intro i k
    obtain ⟨b, s1, e⟩ := htop i
    exact ⟨b, s1, elidable_helper_fuel_add _ k _ _ _ e, by simp [elidable, e]⟩
  · intro a b c haa hab hac hb hc ha
    obtain ⟨r, s1, e⟩ := htop a
    cases r with
    | false => simp [elidable, e]
    | true =>
      exfalso
      obtain ⟨_, h1⟩ := elidable_helper_true_step g _ a [] s1 haa e
      obtain ⟨f1, t1, u1, hat1, _, e1⟩ := h1 b hb
      obtain ⟨_, h2⟩ := elidable_helper_true_step g _ b t1 u1 hab e1
      obtain ⟨f2, t2, u2, _, ht12, e2⟩ := h2 c hc
      obtain ⟨_, h3⟩ := elidable_helper_true_step g _ c t2 u2 hac e2
      obtain ⟨f3, t3, u3, _, ht23, e3⟩ := h3 a ha
      obtain ⟨hnot, _⟩ := elidable_helper_true_step g _ a t3 u3 haa e3
      exact hnot (ht23 (ht12 hat1))

/-- Witness for C4 on the three-instruction cycle 0 → 1 → 2 → 0. -/
theorem elidable_terminates_witness : elidable cycle3 (0 : Fin 3) = some false :=
  (elidable_terminates cycle3).2.2 (0 : Fin 3) (1 : Fin 3) (2 : Fin 3)
    (by decide) (by decide) (by decide) (by decide) (by decide) (by decide)

/-- C5: tagging an instruction APPROX never turns an elidable instruction into
a non-elidable one. -/
theorem elidable_tagApprox_mono (g : DefUse) (x a : Fin g.size)
    (h : elidable g a = some true) : elidable (tagApprox g x) a = some true := by
  have hq : ∀ i : Fin g.size, isApprox g i = true →
      isApprox (withQuals g (fun i => if i = x then some ECQ_APPROX else g.quals i)) i = true := by
    intro i hi
    by_cases hx : i = x
    · simp [isApprox, withQuals, hx]
    · simpa [isApprox, withQuals, hx] using hi
  simp only [elidable, Option.map_eq_some', Prod.exists, exists_and_right, exists_eq_right] at h
  obtain ⟨s1, e⟩ := h
  obtain ⟨t1, e1, _⟩ := elidable_helper_true_mono g _ hq (g.size + 1) a [] [] s1
    (List.Subset.refl _) e
  have e2 : elidable_helper (tagApprox g x) ((tagApprox g x).size + 1) a [] = some (true, t1) := e1
  simp [elidable, e2]

/-- Witness for C5: the tagged store of `approxStore` is elidable and stays
elidable once its consumer, the return, is tagged too. -/
theorem elidable_tagApprox_mono_witness :
    elidable approxStore (0 : Fin 2) = some true ∧
    elidable (tagApprox approxStore (1 : Fin 2)) (0 : Fin 2) = some true :=
  ⟨by decide, elidable_tagApprox_mono approxStore (1 : Fin 2) (0 : Fin 2) (by decide)⟩

/-! ## Loop perforation: lemmas -/

theorem exitBlock_of_header_only (F : Func) (loop : Loop) (header e : BlockId)
    (hh : loop.getHeader = some header) (he : loop.getExitBlock F = some e)
    (hs : e ∈ F.successors header) :
    ∀ b ∈ loop.blocks, b ≠ header → loop.isLoopExiting F b = false := by
  obtain ⟨blocks, latch, preheader⟩ := loop
  cases blocks with
  | nil => simp [Loop.getHeader] at hh
  | cons h rest =>
    simp only [Loop.getHeader, List.head?_cons, Option.some.injEq] at hh
    subst hh
    have hex : Loop.getExitBlocks F ⟨h :: rest, latch, preheader⟩ = [e] := by
      simp only [Loop.getExitBlock] at he
      split at he
      · simp only [Option.some.injEq] at he
        subst he
        assumption
      · simp at he
    simp only [Loop.getExitBlocks, List.flatMap_cons] at hex
    have hout : e ∉ h :: rest := by
      have hmem : e ∈ [e] := List.mem_singleton.2 rfl
      rw [← hex] at hmem
      rcases List.mem_append.1 hmem with hm | hm
      · simpa using (List.mem_filter.1 hm).2
      · obtain ⟨b, _, hb⟩ := List.mem_flatMap.1 hm
        simpa using (List.mem_filter.1 hb).2
    have hA : e ∈ (F.successors h).filter (fun s => decide (s ∉ h :: rest)) :=
      List.mem_filter.2 ⟨hs, by simpa using hout⟩
    have hlen := congrArg List.length hex
    simp only [List.length_append, List.length_singleton] at hlen
    have hApos : 0 < ((F.successors h).filter (fun s => decide (s ∉ h :: rest))).length :=
      List.length_pos_of_mem hA
    have hB : (rest.flatMap
        (fun b => (F.successors b).filter (fun s => decide (s ∉ h :: rest)))) = [] :=
      List.eq_nil_of_length_eq_zero (by omega)
    intro b hb hne
    have hbr : b ∈ rest := by
      rcases List.mem_cons.1 hb with hb | hb
      · exact absurd hb hne
      · exact hb
    have hfb : (F.successors b).filter (fun s => decide (s ∉ h :: rest)) = [] := by
      apply List.eq_nil_iff_forall_not_mem.2
      intro x hx
      have : x ∈ rest.flatMap
          (fun b => (F.successors b).filter (fun s => decide (s ∉ h :: rest))) :=
        List.mem_flatMap.2 ⟨b, hbr, hx⟩
      rw [hB] at this
      simp at this
    simp only [Loop.isLoopExiting]
    rw [Bool.eq_false_iff]
    intro hany
    obtain ⟨x, hx, hpx⟩ := List.any_eq_true.1 hany
    have : x ∈ (F.successors b).filter (fun s => decide (s ∉ h :: rest)) :=
      List.mem_filter.2 ⟨hx, hpx⟩
    rw [hfb] at this
    simp at this

theorem perforateLoop_changed (env : Env) (F : Func) (loop : Loop) (logfactor : Int)
    (isForLike : Bool) (h : (perforateLoop env F loop logfactor isForLike).1 ≠ F) :
    ∃ header latch preheader e, loop.getHeader = some header ∧ loop.latch = some latch ∧
      loop.preheader = some preheader ∧ loop.getExitBlock F = some e ∧
      e ∈ F.successors header := by
  cases hh : loop.getHeader with
  | none => simp [perforateLoop, hh] at h
  | some header =>
  cases hl : loop.latch with
  | none => simp [perforateLoop, hh, hl] at h
  | some latch =>
  cases hp : loop.preheader with
  | none => simp [perforateLoop, hh, hl, hp] at h
  | some preheader =>
  cases he : loop.getExitBlock F with
  | none => simp [perforateLoop, hh, hl, hp, he] at h
  | some e =>
    refine ⟨header, latch, preheader, e, rfl, rfl, rfl, rfl, ?_⟩
    simp only [perforateLoop, hh, hl, hp, he] at h
    cases hb : F.block? header with
    | none => simp [hb] at h
    | some bb =>
      simp only [hb, Option.map_some'] at h
      simp only [Func.successors, hb]
      cases ht : bb.term with
      | br d => simp [ht] at h
      | ret => simp [ht] at h
      | other l => simp [ht] at h
      | condBr c s0 s1 =>
        simp only [ht] at h
        simp only [Terminator.successors]
        by_cases h0 : s0 = e
        · simp [h0]
        · by_cases h1 : s1 = e
          · simp [h1]
          · simp [h0, h1] at h

theorem relaxStage_func (env : Env) (st : PassState) (loop : Loop) (loopName fileName : String)
    (lineNumber : Int) (prefixStream : String) (isForLike : Bool) :
    (relaxStage env st loop loopName fileName lineNumber prefixStream isForLike).2.1.func
        = st.func ∨
      ∃ logfactor, (relaxStage env st loop loopName fileName lineNumber prefixStream
        isForLike).2.1.func = (perforateLoop env st.func loop logfactor isForLike).1 := by
  unfold relaxStage
  dsimp only
  split_ifs
  · exact Or.inr ⟨_, rfl⟩
  · exact Or.inl rfl

theorem analysisStage_func (env : Env) (st : PassState) (loop : Loop) (header : BlockId)
    (loopName fileName : String) (lineNumber : Int) (prefixStream : String) (isForLike : Bool) :
    (analysisStage env st loop header loopName fileName lineNumber prefixStream
      isForLike).2.1.func = st.func := by
  unfold analysisStage
  dsimp only
  split_ifs <;> rfl

theorem tryToOptimizeLoop_func (env : Env) (st : PassState) (loop : Loop)
    (r : Bool × PassState × Loop) (h : tryToOptimizeLoop env st loop = some r) :
    r.2.1.func = st.func ∨
      ∃ logfactor isForLike, r.2.1.func = (perforateLoop env st.func loop logfactor isForLike).1 := by
  unfold tryToOptimizeLoop at h
  split at h
  · simp at h
  · dsimp only at h
    split_ifs at h <;> cases h
    · exact Or.inl rfl
    · exact Or.inl rfl
    · exact Or.inl rfl
    · exact Or.inl rfl
    · rcases relaxStage_func env st loop _ _ _ _ _ with h1 | ⟨k, h1⟩
      · exact Or.inl h1
      · exact Or.inr ⟨k, _, h1⟩
    · exact Or.inl (analysisStage_func _ _ _ _ _ _ _ _ _)

/-! ## Lemmas on the containers -/

theorem mapFind_mapPushBack_self {κ ν : Type} [DecidableEq κ] (m : List (κ × List ν)) (k : κ)
    (x : ν) : mapFind (mapPushBack m k x) k = (mapFind m k).map (fun l => l ++ [x]) := by
  induction m with
  | nil => rfl
  | cons p m ih =>
    simp only [mapPushBack] at ih
    by_cases hk : p.1 = k
    · simp [mapPushBack, mapFind, hk]
    · simp [mapPushBack, mapFind, hk, ih]

theorem mapFind_append_new {κ ν : Type} [DecidableEq κ] (m : List (κ × ν)) (k : κ) (v : ν)
    (h : mapFind m k = none) : mapFind (m ++ [(k, v)]) k = some v := by
  induction m with
  | nil => simp [mapFind]
  | cons p m ih =>
    by_cases hk : p.1 = k
    · simp [mapFind, hk] at h
    · simp only [mapFind, hk, if_false] at h
      simp [mapFind, hk, ih h]

theorem mapFind_addLoopDesc (t : DescTable) (hasBlockers : Bool) (fileName : String)
    (lineNumber : Int) (p q : String) (entries : List (Int × List String)) :
    mapFind (addLoopDesc t hasBlockers fileName lineNumber p q entries)
        ⟨"Loop", hasBlockers, fileName, lineNumber⟩
      = some ((mapFind t ⟨"Loop", hasBlockers, fileName, lineNumber⟩).getD [] ++ [⟨p, q, entries⟩]) := by
  simp only [addLoopDesc, mapFind_mapPushBack_self]
  cases hf : mapFind t ⟨"Loop", hasBlockers, fileName, lineNumber⟩ with
  | none => simp [mapCount, mapSet, hf, mapFind_append_new]
  | some ds => simp [mapCount, hf]

/-! ## Loop perforation: the properties -/

/-- C6: whenever `tryToOptimizeLoop` changes the function (in any mode and for
any configuration), the loop has a header, a latch, a preheader and a single
exit block, and no block of its body-block set (for either classification of
the loop) is a loop-exiting block. The relax branch does not run the exit
check of the analysis branch; the property comes from `perforateLoop`, which
rewrites only when `getExitBlock` is not null and is a successor of the
header's branch, so that the single exit edge of the loop leaves the header. -/
theorem perforated_loop_has_no_body_exit (env : Env) (st : PassState) (loop : Loop)
    (r : Bool × PassState × Loop) (h : tryToOptimizeLoop env st loop = some r)
    (hchg : r.2.1.func ≠ st.func) :
    ∃ header latch preheader e, loop.getHeader = some header ∧ loop.latch = some latch ∧
      loop.preheader = some preheader ∧ loop.getExitBlock st.func = some e ∧
      ∀ isForLike, ∀ b ∈ bodyBlocksOf loop header isForLike,
        loop.isLoopExiting st.func b = false := by
  rcases tryToOptimizeLoop_func env st loop r h with h1 | ⟨k, fl, h1⟩
  · exact absurd h1 hchg
  · rw [h1] at hchg
    obtain ⟨header, latch, preheader, e, hh, hl, hp, he, hs⟩ :=
      perforateLoop_changed env st.func loop k fl hchg
    refine ⟨header, latch, preheader, e, hh, hl, hp, he, ?_⟩
    intro isForLike b hb
    have hb2 := List.mem_filter.1 hb
    refine exitBlock_of_header_only st.func loop header e hh he hs b hb2.1 ?_
    intro hbh
    have := hb2.2
    simp [hbh] at this

/-- Witness for C6: the for loop of `forFunc`, in relax mode with factor 1
stored under its key, is rewritten. -/
theorem perforated_loop_has_no_body_exit_witness :
    ∃ header latch preheader e, forLoop.getHeader = some header ∧ forLoop.latch = some latch ∧
      forLoop.preheader = some preheader ∧
      forLoop.getExitBlock (forFunc [] [] [0] [1]) = some e ∧
      ∀ isForLike, ∀ b ∈ bodyBlocksOf forLoop header isForLike,
        forLoop.isLoopExiting (forFunc [] [] [0] [1]) b = false :=
  perforated_loop_has_no_body_exit exampleEnv
    (exampleState true [(exampleKey, 1)] (forFunc [] [] [0] [1])) forLoop
    ((tryToOptimizeLoop exampleEnv
      (exampleState true [(exampleKey, 1)] (forFunc [] [] [0] [1])) forLoop).get (by decide))
    (by simp) (by decide)

/-- C8 (failing input): for the while-like loop of `whileFunc` the shortcut
destination is the header, block 1, but both successors of the check block
that `perforateLoop` creates (block 16) are the latch, block 2, which is the
loop body: the skip successor is the latch, not the header. -/
theorem check_block_skips_to_latch_in_while_loop :
    startswith (whileFunc.blockName 1) "for.cond" = false ∧
    whileLoop.getHeader = some 1 ∧ whileLoop.latch = some 2 ∧
    shortcutDest false 2 1 = 1 ∧
    ((perforateLoop exampleEnv whileFunc whileLoop 1 false).1.block? 16).map BasicBlock.term
      = some (Terminator.condBr 15 2 2) ∧
    ((tryToOptimizeLoop exampleEnv (exampleState true [(exampleKey, 1)] whileFunc)
        whileLoop).map (fun r => (r.2.1.func.block? 16).map BasicBlock.term))
      = some (some (Terminator.condBr 15 2 2)) := by
  decide

/-- C9 (failing input): in `forFuncSwapped` the header's branch has the exit
block 4 as successor 0 and the body entry 2 as successor 1. After
`perforateLoop` successor 0 is the check block 16 and successor 1 is still the
body entry: the exit edge of the header is gone and the edge to the body
bypasses the check block. -/
theorem header_rewrite_with_body_on_successor_1 :
    (forFuncSwapped.block? 1).map BasicBlock.term = some (Terminator.condBr 5 4 2) ∧
    forLoop.getExitBlock forFuncSwapped = some 4 ∧
    ((perforateLoop exampleEnv forFuncSwapped forLoop 1 true).1.block? 1).map BasicBlock.term
      = some (Terminator.condBr 5 16 2) ∧
    ((perforateLoop exampleEnv forFuncSwapped forLoop 1 true).1.block? 16).map BasicBlock.term
      = some (Terminator.condBr 15 2 3) := by
  decide

set_option maxRecDepth 20000

/-- C10 (counterexample): the body of the loop of `breakFunc` contains a
loop-exiting block and `relaxConfig` is empty. In relax mode the call returns
false with a description that does not mention the loop exit and leaves the
loop's key in `relaxConfig` with factor 0. With the relax flag off and a
forbid marker on the header the description does not mention the loop exit
either. -/
theorem loop_exit_not_reported_in_relax_mode :
    (∃ b ∈ bodyBlocksOf forLoop 1 true, forLoop.isLoopExiting breakFunc b = true) ∧
    (∃ r, tryToOptimizeLoop exampleEnv (exampleState true [] breakFunc) forLoop = some r ∧
      r.1 = false ∧ mapFind r.2.1.relaxConfig exampleKey = some 0 ∧
      ∀ p ∈ r.2.1.descTable, ∀ d ∈ p.2, ¬ containsText d.prefixText "contains loop exit") ∧
    (∃ r, tryToOptimizeLoop forbidEnv (exampleState false [] breakFunc) forLoop = some r ∧
      r.1 = false ∧
      ∀ p ∈ r.2.1.descTable, ∀ d ∈ p.2, ¬ containsText d.prefixText "contains loop exit") := by
  refine ⟨by decide, ⟨_, rfl, by decide, by decide, by decide⟩, ⟨_, rfl, by decide, by decide⟩⟩

/-- C10 (amended): with the relax flag off, for a loop that has a header
without forbid marker, a latch and a preheader, whose header is not named
`arrayctor.loop...`, that is not rejected as a two-block loop with an empty
latch, and whose body-block set contains a loop-exiting block,
`tryToOptimizeLoop` returns false, leaves `relaxConfig` and the function
unchanged, and appends under the loop's key with `hasBlockers = false` a
description whose first text contains "contains loop exit". -/
theorem loop_exit_rejected (env : Env) (st : PassState) (loop : Loop) (header : BlockId)
    (hh : loop.getHeader = some header)
    (hforbid : env.markerIsForbid st.func header = false)
    (hl : loop.latch.isSome = true) (hp : loop.preheader.isSome = true)
    (harr : startswith (st.func.blockName header) "arrayctor.loop" = false)
    (hempty : ¬ (loop.getNumBlocks = 2 ∧ some header ≠ loop.latch
      ∧ loop.latch.map (latchIsOnlyTerminator st.func) = some true))
    (hrelax : st.relax = false)
    (hexit : ∃ b ∈ bodyBlocksOf loop header (startswith (st.func.blockName header) "for.cond"),
      loop.isLoopExiting st.func b = true) :
    ∃ r p, tryToOptimizeLoop env st loop = some r ∧ r.1 = false ∧
      r.2.1.relaxConfig = st.relaxConfig ∧ r.2.1.func = st.func ∧
      containsText p "contains loop exit" ∧
      mapFind r.2.1.descTable (loopLocation env st.func header false)
        = some ((mapFind st.descTable (loopLocation env st.func header false)).getD []
            ++ [⟨p, "", []⟩]) := by
  obtain ⟨b, hb, hbe⟩ := hexit
  have hne : (bodyBlocksOf loop header
      (startswith (st.func.blockName header) "for.cond")).isEmpty = false := by
    cases hbb : bodyBlocksOf loop header (startswith (st.func.blockName header) "for.cond") with
    | nil => rw [hbb] at hb; simp at hb
    | cons x xs => rfl
  have hany : (bodyBlocksOf loop header
      (startswith (st.func.blockName header) "for.cond")).any (loop.isLoopExiting st.func)
      = true := List.any_eq_true.2 ⟨b, hb, hbe⟩
  have hnull : ((some header : Option BlockId).isNone || loop.latch.isNone
      || loop.preheader.isNone) = false := by
    cases hl1 : loop.latch with
    | none => simp [hl1] at hl
    | some x =>
      cases hp1 : loop.preheader with
      | none => simp [hp1] at hp
      | some y => simp
  refine ⟨finish st loop false (env.splitPosDesc (env.srcPosDesc st.func header)).1
      (env.atoi (env.splitPosDesc (env.srcPosDesc st.func header)).2)
      (descHead (env.srcPosDesc st.func header) st.func.name
        ++ shapeLine (startswith (st.func.blockName header) "for.cond")
        ++ "contains loop exit\n" ++ "cannot perforate loop\n") "",
    descHead (env.srcPosDesc st.func header) st.func.name
        ++ shapeLine (startswith (st.func.blockName header) "for.cond")
        ++ "contains loop exit\n" ++ "cannot perforate loop\n", ?_, ?_, ?_, ?_, ?_, ?_⟩
  · simp only [tryToOptimizeLoop, hh, hforbid, hnull, harr, hempty, hrelax, analysisStage, hne,
      hany, if_true, if_false, Bool.false_eq_true]
  · rfl
  · rfl
  · rfl
  · refine ⟨(descHead (env.srcPosDesc st.func header) st.func.name
      ++ shapeLine (startswith (st.func.blockName header) "for.cond")).data,
      '\n' :: "cannot perforate loop\n".data, ?_⟩
    simp only [String.data_append]
    show _ = ((_ ++ _) ++ "contains loop exit\n".data) ++ _
    have : "contains loop exit\n".data = "contains loop exit".data ++ ['\n'] := by decide
    rw [this]
    simp
  · exact mapFind_addLoopDesc _ _ _ _ _ _ _

/-- Witness for C10 (amended): the loop of `breakFunc` with the relax flag
off. -/
theorem loop_exit_rejected_witness :
    ∃ r p, tryToOptimizeLoop exampleEnv (exampleState false [] breakFunc) forLoop = some r ∧
      r.1 = false ∧
      r.2.1.relaxConfig = (exampleState false [] breakFunc).relaxConfig ∧
      r.2.1.func = (exampleState false [] breakFunc).func ∧
      containsText p "contains loop exit" ∧
      mapFind r.2.1.descTable
          (loopLocation exampleEnv (exampleState false [] breakFunc).func 1 false)
        = some ((mapFind (exampleState false [] breakFunc).descTable
              (loopLocation exampleEnv (exampleState false [] breakFunc).func 1 false)).getD []
            ++ [⟨p, "", []⟩]) :=
  loop_exit_rejected exampleEnv (exampleState false [] breakFunc) forLoop 1
    (by decide) (by decide) (by decide) (by decide) (by decide) (by decide) (by decide)
    (by decide)

/-! ## Execution of the perforated for loop -/

theorem perforateLoop_forFunc (env : Env) (e c b i : List Nat) :
    (perforateLoop env (forFunc e c b i) forLoop 1 true).1 = perforatedForFunc env e c b i :=
  rfl

theorem execInsts_orig (m : Machine) (l : List Nat) :
    execInsts m (l.map Inst.orig) = some m := by
  induction l with
  | nil => rfl
  | cons x l ih => simpa [execInsts, execInst] using ih

theorem execInsts_append (m : Machine) (a b : List Inst) :
    execInsts m (a ++ b) = (execInsts m a).bind (fun m1 => execInsts m1 b) := by
  induction a generalizing m with
  | nil => rfl
  | cons x a ih =>
    simp only [List.cons_append, execInsts]
    cases execInst m x with
    | none => rfl
    | some m1 => exact ih m1

theorem run_step (F : Func) (oracle : Nat → Bool) (stop : BlockId) (fuel : Nat)
    (m m1 : Machine) (hne : m.pc ≠ stop) (hs : step F oracle m = some m1) :
    run F oracle stop (fuel + 1) m = run F oracle stop fuel m1 := by
  simp [run, hne, hs]

theorem run_at_stop (F : Func) (oracle : Nat → Bool) (stop : BlockId) (fuel : Nat)
    (m : Machine) (h : m.pc = stop) : run F oracle stop fuel m = some m := by
  cases fuel <;> simp [run, h]

section PerforatedRun

variable (env : Env) (e c b i : List Nat) (oracle : Nat → Bool)

theorem step_entry (m : Machine) (hpc : m.pc = 0) :
    ∃ m1, step (perforatedForFunc env e c b i) oracle m = some m1 ∧ m1.pc = 1 ∧
      m1.mem 10 = some (some (0 % 2 ^ env.nativeBits)) ∧ m1.regs = m.regs ∧
      m1.decisions = m.decisions ∧ m1.trace = 0 :: m.trace := by
  obtain ⟨pc, mem, regs, dec, tr⟩ := m
  simp only at hpc
  subst hpc
  simp [step, perforatedForFunc, Func.block?, execInsts, execInst, execInsts_append,
    execInsts_orig, evalOperand, bindValue, execTerminator]

theorem step_header (m : Machine) (hpc : m.pc = 1) (hc : m.regs 5 = none) :
    ∃ m1, step (perforatedForFunc env e c b i) oracle m = some m1 ∧
      m1.pc = (if oracle m.decisions then 16 else 4) ∧
      m1.mem = m.mem ∧ m1.regs = m.regs ∧
      m1.decisions = m.decisions + 1 ∧ m1.trace = 1 :: m.trace := by
  obtain ⟨pc, mem, regs, dec, tr⟩ := m
  simp only at hpc hc
  subst hpc
  simp [step, perforatedForFunc, Func.block?, execInsts_orig, execTerminator, hc]

theorem step_check (hw : 0 < env.nativeBits) (m : Machine) (hpc : m.pc = 16) (v : Nat)
    (hv : m.mem 10 = some (some v)) (hc : m.regs 5 = none) :
    ∃ m1, step (perforatedForFunc env e c b i) oracle m = some m1 ∧
      m1.pc = (if v % 2 = 0 then 2 else 3) ∧
      m1.mem = m.mem ∧ m1.regs 5 = none ∧
      m1.decisions = m.decisions ∧ m1.trace = 16 :: m.trace := by
  obtain ⟨pc, mem, regs, dec, tr⟩ := m
  simp only at hpc hv hc
  subst hpc
  have hw1 : (1 : Int) ≤ (env.nativeBits : Int) := by omega
  simp [step, perforatedForFunc, Func.block?, execInsts, execInst, bindValue, execTerminator,
    hv, hc, hw1]

theorem step_body (m : Machine) (hpc : m.pc = 2) :
    ∃ m1, step (perforatedForFunc env e c b i) oracle m = some m1 ∧ m1.pc = 3 ∧
      m1.mem = m.mem ∧ m1.regs = m.regs ∧
      m1.decisions = m.decisions ∧ m1.trace = 2 :: m.trace := by
  obtain ⟨pc, mem, regs, dec, tr⟩ := m
  simp only at hpc
  subst hpc
  simp [step, perforatedForFunc, Func.block?, execInsts_orig, execTerminator]

theorem step_latch (m : Machine) (hpc : m.pc = 3) (v : Nat)
    (hv : m.mem 10 = some (some v)) (hc : m.regs 5 = none) :
    ∃ m1, step (perforatedForFunc env e c b i) oracle m = some m1 ∧ m1.pc = 1 ∧
      m1.mem 10 = some (some ((v + 1 % 2 ^ env.nativeBits) % 2 ^ env.nativeBits)) ∧
      m1.regs 5 = none ∧
      m1.decisions = m.decisions ∧ m1.trace = 3 :: m.trace := by
  obtain ⟨pc, mem, regs, dec, tr⟩ := m
  simp only at hpc hv hc
  subst hpc
  simp [step, perforatedForFunc, Func.block?, execInsts, execInst, execInsts_append,
    execInsts_orig, evalOperand, bindValue, execTerminator, hv, hc]

theorem iteration_run (hw : 0 < env.nativeBits) (j : Nat) (m : Machine)
    (hm : AtHeader env.nativeBits j m) (ho : oracle j = true) :
    ∃ n m1, (∀ fuel, run (perforatedForFunc env e c b i) oracle 4 (fuel + n) m
        = run (perforatedForFunc env e c b i) oracle 4 fuel m1) ∧
      AtHeader env.nativeBits (j + 1) m1 := by
  obtain ⟨hpc, hmem, hreg, hdec, htr⟩ := hm
  obtain ⟨m1, s1, p1, mem1, reg1, dec1, tr1⟩ := step_header env e c b i oracle m hpc hreg
  rw [hdec, ho] at p1
  simp only [if_true] at p1
  obtain ⟨m2, s2, p2, mem2, reg2, dec2, tr2⟩ :=
    step_check env e c b i oracle hw m1 p1 (j % 2 ^ env.nativeBits)
      (by rw [mem1]; exact hmem) (by rw [reg1]; exact hreg)
  have hpar : j % 2 ^ env.nativeBits % 2 = j % 2 :=
    Nat.mod_mod_of_dvd j (dvd_pow_self 2 (by omega))
  rw [hpar] at p2
  have hnext : (j % 2 ^ env.nativeBits + 1 % 2 ^ env.nativeBits) % 2 ^ env.nativeBits
      = (j + 1) % 2 ^ env.nativeBits := (Nat.add_mod _ _ _).symm
  have hrange : (List.range (j + 1)).flatMap iterationBlocks
      = (List.range j).flatMap iterationBlocks ++ iterationBlocks j := by
    simp [List.range_succ]
  by_cases hev : j % 2 = 0
  · rw [if_pos hev] at p2
    obtain ⟨m3, s3, p3, mem3, reg3, dec3, tr3⟩ := step_body env e c b i oracle m2 p2
    obtain ⟨m4, s4, p4, mem4, reg4, dec4, tr4⟩ :=
      step_latch env e c b i oracle m3 p3 (j % 2 ^ env.nativeBits)
        (by rw [mem3, mem2, mem1]; exact hmem) (by rw [reg3]; exact reg2)
    refine ⟨4, m4, ?_, p4, ?_, reg4, ?_, ?_⟩
    · intro fuel
      rw [run_step _ _ _ (fuel + 3) m m1 (by rw [hpc]; decide) s1,
        run_step _ _ _ (fuel + 2) m1 m2 (by rw [p1]; decide) s2,
        run_step _ _ _ (fuel + 1) m2 m3 (by rw [p2]; decide) s3,
        run_step _ _ _ fuel m3 m4 (by rw [p3]; decide) s4]
    · rw [mem4, hnext]
    · rw [dec4, dec3, dec2, dec1, hdec]
    · rw [tr4, tr3, tr2, tr1, hrange]
      simp [htr, iterationBlocks, hev]
  · rw [if_neg hev] at p2
    obtain ⟨m4, s4, p4, mem4, reg4, dec4, tr4⟩ :=
      step_latch env e c b i oracle m2 p2 (j % 2 ^ env.nativeBits)
        (by rw [mem2, mem1]; exact hmem) reg2
    refine ⟨3, m4, ?_, p4, ?_, reg4, ?_, ?_⟩
    · intro fuel
      rw [run_step _ _ _ (fuel + 2) m m1 (by rw [hpc]; decide) s1,
        run_step _ _ _ (fuel + 1) m1 m2 (by rw [p1]; decide) s2,
        run_step _ _ _ fuel m2 m4 (by rw [p2]; decide) s4]
    · rw [mem4, hnext]
    · rw [dec4, dec2, dec1, hdec]
    · rw [tr4, tr2, tr1, hrange]
      simp [htr, iterationBlocks, hev]

theorem loop_run (hw : 0 < env.nativeBits) (T : Nat) (hT : ∀ j < T, oracle j = true)
    (hstop : oracle T = false) :
    ∀ (n j : Nat) (m : Machine), j + n = T → AtHeader env.nativeBits j m →
      ∃ fuel m1, run (perforatedForFunc env e c b i) oracle 4 fuel m = some m1 ∧ m1.pc = 4 ∧
        m1.mem 10 = some (some (T % 2 ^ env.nativeBits)) ∧ m1.trace.reverse = expectedTrace T := by
  intro n
  induction n with
  | zero =>
    intro j m hj hm
    have hjT : j = T := by omega
    subst hjT
    obtain ⟨hpc, hmem, hreg, hdec, htr⟩ := hm
    obtain ⟨m1, s1, p1, mem1, reg1, dec1, tr1⟩ := step_header env e c b i oracle m hpc hreg
    rw [hdec, hstop] at p1
    simp only [Bool.false_eq_true, if_false] at p1
    refine ⟨1, m1, ?_, p1, ?_, ?_⟩
    · rw [run_step _ _ _ 0 m m1 (by rw [hpc]; decide) s1]
      exact run_at_stop _ _ _ _ _ p1
    · rw [mem1]; exact hmem
    · rw [tr1]
      simp [htr, expectedTrace]
  | succ n ih =>
    intro j m hj hm
    obtain ⟨k, m1, hrun, hm1⟩ := iteration_run env e c b i oracle hw j m hm (hT j (by omega))
    obtain ⟨fuel, m2, r2, p2, c2, t2⟩ := ih (j + 1) m1 (by omega) hm1
    exact ⟨fuel + k, m2, by rw [hrun fuel]; exact r2, p2, c2, t2⟩

end PerforatedRun

theorem count_iterations (T : Nat) :
    ((List.range T).flatMap iterationBlocks).count 1 = T ∧
    ((List.range T).flatMap iterationBlocks).count 3 = T ∧
    ((List.range T).flatMap iterationBlocks).count 2 = (T + 1) / 2 := by
  induction T with
  | zero => simp
  | succ T ih =>
    obtain ⟨h1, h3, h2⟩ := ih
    have hrange : (List.range (T + 1)).flatMap iterationBlocks
        = (List.range T).flatMap iterationBlocks ++ iterationBlocks T := by
      simp [List.range_succ]
    rw [hrange]
    simp only [List.count_append, h1, h2, h3]
    have a1 : List.count 1 [1, 16, 2, 3] = 1 := by decide
    have a3 : List.count 3 [1, 16, 2, 3] = 1 := by decide
    have a2 : List.count 2 [1, 16, 2, 3] = 1 := by decide
    have b1 : List.count 1 [1, 16, 3] = 1 := by decide
    have b3 : List.count 3 [1, 16, 3] = 1 := by decide
    have b2 : List.count 2 [1, 16, 3] = 0 := by decide
    by_cases hev : T % 2 = 0
    · simp only [iterationBlocks, hev, if_true, a1, a2, a3]
      refine ⟨trivial, trivial, ?_⟩
      omega
    · simp only [iterationBlocks, hev, if_false, b1, b2, b3]
      refine ⟨trivial, trivial, ?_⟩
      omega

/-- Perforation on the layout that the front end emits for a for loop: take
the loop of `forFunc` (header `for.cond` whose branch goes to the single body
block on successor 0 and to the exit on successor 1, latch `for.inc`), with
any instructions of the input program in its blocks, rewritten
by `perforateLoop` with exponent 1 on a target with a native word of at least
one bit. In every execution in which the header test succeeds `T` times and
then fails, control reaches the exit; the header runs `T + 1` times, the latch
(with the counter increment) `T` times, so that the counter ends at `T` modulo
the word size, and the body `⌈T/2⌉` times, on the iterations with an even
count, as `expectedTrace T` lists block by block. -/
theorem perforated_for_loop_runs_body_on_even_iterations (env : Env)
    (hw : 0 < env.nativeBits) (e c b i : List Nat) (oracle : Nat → Bool) (T : Nat)
    (hT : ∀ j < T, oracle j = true) (hstop : oracle T = false) :
    startswith ((forFunc e c b i).blockName 1) "for.cond" = true ∧
    ∃ fuel m,
      run (perforateLoop env (forFunc e c b i) forLoop 1 true).1 oracle 4 fuel (Machine.start 0)
        = some m ∧
      m.pc = 4 ∧ m.mem 10 = some (some (T % 2 ^ env.nativeBits)) ∧
      m.trace.reverse = expectedTrace T ∧
      m.trace.count 1 = T + 1 ∧ m.trace.count 3 = T ∧ m.trace.count 2 = (T + 1) / 2 := by
  refine ⟨rfl, ?_⟩
  rw [perforateLoop_forFunc]
  obtain ⟨m1, s1, p1, mem1, reg1, dec1, tr1⟩ :=
    step_entry env e c b i oracle (Machine.start 0) rfl
  have hm1 : AtHeader env.nativeBits 0 m1 :=
    ⟨p1, mem1, by rw [reg1]; rfl, by rw [dec1]; rfl, by rw [tr1]; rfl⟩
  obtain ⟨fuel, m2, r2, p2, c2, t2⟩ :=
    loop_run env e c b i oracle hw T hT hstop T 0 m1 (by omega) hm1
  refine ⟨fuel + 1, m2, ?_, p2, c2, t2, ?_, ?_, ?_⟩
  · rw [run_step _ _ _ fuel (Machine.start 0) m1 (by decide) s1]
    exact r2
  · rw [← List.count_reverse, t2]
    simp [expectedTrace, List.count_cons, (count_iterations T).1]
  · rw [← List.count_reverse, t2]
    simp [expectedTrace, List.count_cons, (count_iterations T).2.1]
  · rw [← List.count_reverse, t2]
    simp [expectedTrace, List.count_cons, (count_iterations T).2.2]

/-- The loop of `forFunc` with three successful header tests on a 64-bit
target: the body runs twice. -/
theorem perforated_for_loop_runs_body_on_even_iterations_witness :
    startswith ((forFunc [] [] [0] [1]).blockName 1) "for.cond" = true ∧
    ∃ fuel m,
      run (perforateLoop exampleEnv (forFunc [] [] [0] [1]) forLoop 1 true).1
        (fun j => decide (j < 3)) 4 fuel (Machine.start 0) = some m ∧
      m.pc = 4 ∧ m.mem 10 = some (some (3 % 2 ^ exampleEnv.nativeBits)) ∧
      m.trace.reverse = expectedTrace 3 ∧
      m.trace.count 1 = 3 + 1 ∧ m.trace.count 3 = 3 ∧ m.trace.count 2 = (3 + 1) / 2 :=
  perforated_for_loop_runs_body_on_even_iterations exampleEnv (by decide) [] [] [0] [1]
    (fun j => decide (j < 3)) 3 (fun j hj => by simpa using hj) (by decide)

/-! ## More lemmas on the containers and on `tryToOptimizeLoop` -/

theorem mapFind_mapPushBack_other {κ ν : Type} [DecidableEq κ] (m : List (κ × List ν))
    (k0 k : κ) (x : ν) (h : k ≠ k0) : mapFind (mapPushBack m k0 x) k = mapFind m k := by
  induction m with
  | nil => rfl
  | cons p m ih =>
    simp only [mapPushBack] at ih
    by_cases hk0 : p.1 = k0
    · have hk : p.1 ≠ k := fun e => h (e.symm.trans hk0)
      simp [mapPushBack, mapFind, hk0, ih, Ne.symm h]
    · by_cases hk : p.1 = k
      · simp [mapPushBack, mapFind, hk, h]
      · simp [mapPushBack, mapFind, hk0, hk, ih]

theorem mapFind_append_other {κ ν : Type} [DecidableEq κ] (m : List (κ × ν)) (k0 k : κ) (v : ν)
    (h : k ≠ k0) : mapFind (m ++ [(k0, v)]) k = mapFind m k := by
  induction m with
  | nil => simp [mapFind, Ne.symm h]
  | cons p m ih =>
    by_cases hk : p.1 = k
    · simp [mapFind, hk]
    · simp [mapFind, hk, ih]

theorem mapFind_map_set_self {κ ν : Type} [DecidableEq κ] (m : List (κ × ν)) (k : κ) (v : ν)
    (h : (mapFind m k).isSome = true) :
    mapFind (m.map (fun p => if p.1 = k then (p.1, v) else p)) k = some v := by
  induction m with
  | nil => simp [mapFind] at h
  | cons p m ih =>
    by_cases hk : p.1 = k
    · simp [mapFind, hk]
    · simp only [mapFind, hk, if_false] at h
      simp [mapFind, hk, ih h]

theorem mapFind_map_set_other {κ ν : Type} [DecidableEq κ] (m : List (κ × ν)) (k0 k : κ) (v : ν)
    (h : k ≠ k0) :
    mapFind (m.map (fun p => if p.1 = k0 then (p.1, v) else p)) k = mapFind m k := by
  induction m with
  | nil => rfl
  | cons p m ih =>
    by_cases hk0 : p.1 = k0
    · simp [mapFind, hk0, ih, Ne.symm h]
    · by_cases hk : p.1 = k
      · simp [mapFind, hk, h]
      · simp [mapFind, hk0, hk, ih]

theorem mapFind_mapSet_self {κ ν : Type} [DecidableEq κ] (m : List (κ × ν)) (k : κ) (v : ν) :
    mapFind (mapSet m k v) k = some v := by
  unfold mapSet
  split_ifs with h
  · exact mapFind_map_set_self m k v h
  · apply mapFind_append_new
    cases hf : mapFind m k with
    | none => rfl
    | some x => simp [hf] at h

theorem mapFind_mapSet_other {κ ν : Type} [DecidableEq κ] (m : List (κ × ν)) (k0 k : κ) (v : ν)
    (h : k ≠ k0) : mapFind (mapSet m k0 v) k = mapFind m k := by
  unfold mapSet
  split_ifs
  · exact mapFind_map_set_other m k0 k v h
  · exact mapFind_append_other m k0 k v h

theorem mapFind_addLoopDesc_other (t : DescTable) (hasBlockers : Bool) (fileName : String)
    (lineNumber : Int) (p q : String) (entries : List (Int × List String)) (k : Location)
    (h : k ≠ ⟨"Loop", hasBlockers, fileName, lineNumber⟩) :
    mapFind (addLoopDesc t hasBlockers fileName lineNumber p q entries) k = mapFind t k := by
  simp only [addLoopDesc]
  rw [mapFind_mapPushBack_other _ _ _ _ h]
  split_ifs
  · exact mapFind_mapSet_other _ _ _ _ h
  · rfl

/-! ## Loop perforation: rejections and the return value -/

/-- C13: a loop whose header carries the forbid marker is, for every
configuration and in every mode, answered with false; the function, the loop
and `relaxConfig` stay as they are, and exactly one description is appended,
under the loop's key with `hasBlockers = false`, whose first text contains
"optimization forbidden"; the descriptions under every other key are
untouched. -/
theorem forbidden_loop_rejected (env : Env) (st : PassState) (loop : Loop) (header : BlockId)
    (hh : loop.getHeader = some header) (hf : env.markerIsForbid st.func header = true) :
    ∃ p, containsText p "optimization forbidden" ∧
      tryToOptimizeLoop env st loop
        = some (false,
            withDescTable st
              (addLoopDesc st.descTable false (loopLocation env st.func header false).fileName
                (loopLocation env st.func header false).lineNumber p "" []),
            loop) ∧
      mapFind (addLoopDesc st.descTable false (loopLocation env st.func header false).fileName
          (loopLocation env st.func header false).lineNumber p "" [])
          (loopLocation env st.func header false)
        = some ((mapFind st.descTable (loopLocation env st.func header false)).getD []
            ++ [⟨p, "", []⟩]) ∧
      ∀ k, k ≠ loopLocation env st.func header false →
        mapFind (addLoopDesc st.descTable false (loopLocation env st.func header false).fileName
          (loopLocation env st.func header false).lineNumber p "" []) k
          = mapFind st.descTable k := by
  refine ⟨descHead (env.srcPosDesc st.func header) st.func.name ++ "optimization forbidden\n",
    ?_, ?_, ?_, ?_⟩
  · refine ⟨(descHead (env.srcPosDesc st.func header) st.func.name).data, ['\n'], ?_⟩
    simp only [String.data_append]
    show _ = _ ++ "optimization forbidden\n".data
    have : "optimization forbidden\n".data = "optimization forbidden".data ++ ['\n'] := by decide
    rw [this]
    simp
  · simp only [tryToOptimizeLoop, hh, hf, if_true, finish, loopLocation, withDescTable]
  · exact mapFind_addLoopDesc _ _ _ _ _ _ _
  · intro k hk
    exact mapFind_addLoopDesc_other _ _ _ _ _ _ _ k hk

/-- Witness for C13: the loop of `forFunc` under an environment that puts the
forbid marker on its header, in relax mode with a factor stored for it. -/
theorem forbidden_loop_rejected_witness :
    ∃ p, containsText p "optimization forbidden" ∧
      tryToOptimizeLoop forbidEnv (exampleState true [(exampleKey, 1)] (forFunc [] [] [0] [1]))
          forLoop
        = some (false,
            withDescTable (exampleState true [(exampleKey, 1)] (forFunc [] [] [0] [1]))
              (addLoopDesc [] false "a.c" 3 p "" []),
            forLoop) ∧
      mapFind (addLoopDesc [] false "a.c" 3 p "" []) ⟨"Loop", false, "a.c", 3⟩
        = some ([] ++ [⟨p, "", []⟩]) ∧
      ∀ k, k ≠ (⟨"Loop", false, "a.c", 3⟩ : Location) →
        mapFind (addLoopDesc [] false "a.c" 3 p "" []) k = mapFind ([] : DescTable) k :=
  forbidden_loop_rejected forbidEnv (exampleState true [(exampleKey, 1)] (forFunc [] [] [0] [1]))
    forLoop 1 (by decide) (by decide)

/-- C14: a loop with header, latch and preheader, without forbid marker, whose
header is not named `arrayctor.loop...`, with exactly two blocks and a latch
other than the header that holds only its terminator, is answered with false.
The answer is the same for every implementation of `preciseEscapeCheck`, every
value of the relax flag and every content of `relaxConfig`, and the function,
the loop and `relaxConfig` come back as they went in. Exactly one description
is recorded: under the loop's key with `hasBlockers = false` the table holds
the descriptions it held before followed by one description whose first text
contains "empty body", with an empty second text and no blockers, and the
descriptions under every other key are untouched. -/
theorem empty_body_rejected (env : Env) (st : PassState) (loop : Loop)
    (header latch : BlockId)
    (hh : loop.getHeader = some header) (hf : env.markerIsForbid st.func header = false)
    (hl : loop.latch = some latch) (hp : loop.preheader.isSome = true)
    (harr : startswith (st.func.blockName header) "arrayctor.loop" = false)
    (hn : loop.getNumBlocks = 2) (hne : latch ≠ header)
    (hlt : latchIsOnlyTerminator st.func latch = true) :
    ∃ p, containsText p "empty body" ∧
      (∀ (pec : Func → List BlockId → List Nat) (relax : Bool)
        (relaxConfig : List (String × Int)),
        tryToOptimizeLoop (withEscapeCheck env pec) (withConfig st relax relaxConfig) loop
          = some (false,
              withDescTable (withConfig st relax relaxConfig)
                (addLoopDesc st.descTable false (loopLocation env st.func header false).fileName
                  (loopLocation env st.func header false).lineNumber p "" []),
              loop)) ∧
      (∀ (pec : Func → List BlockId → List Nat) (relax : Bool)
        (relaxConfig : List (String × Int)),
        ∃ r, tryToOptimizeLoop (withEscapeCheck env pec) (withConfig st relax relaxConfig) loop
            = some r ∧
          r.1 = false ∧ r.2.1.relaxConfig = relaxConfig ∧ r.2.1.relax = relax ∧
          r.2.1.func = st.func ∧ r.2.2 = loop ∧
          mapFind r.2.1.descTable (loopLocation env st.func header false)
            = some ((mapFind st.descTable (loopLocation env st.func header false)).getD []
                ++ [⟨p, "", []⟩]) ∧
          ∀ k, k ≠ loopLocation env st.func header false →
            mapFind r.2.1.descTable k = mapFind st.descTable k) := by
  have hcall : ∀ (pec : Func → List BlockId → List Nat) (relax : Bool)
      (relaxConfig : List (String × Int)),
      tryToOptimizeLoop (withEscapeCheck env pec) (withConfig st relax relaxConfig) loop
        = some (false,
            withDescTable (withConfig st relax relaxConfig)
              (addLoopDesc st.descTable false (loopLocation env st.func header false).fileName
                (loopLocation env st.func header false).lineNumber
                (descHead (env.srcPosDesc st.func header) st.func.name ++ "empty body\n") "" []),
            loop) := by
    intro pec relax relaxConfig
    have hnull : ((some header : Option BlockId).isNone || (some latch : Option BlockId).isNone
        || loop.preheader.isNone) = false := by
      cases hp1 : loop.preheader with
      | none => simp [hp1] at hp
      | some y => simp
    have hne2 : (some header : Option BlockId) ≠ some latch := by
      intro e
      exact hne (Option.some.inj e).symm
    have hcond : loop.getNumBlocks = 2 ∧ (some header : Option BlockId) ≠ some latch
        ∧ Option.map (latchIsOnlyTerminator st.func) (some latch) = some true :=
      ⟨hn, hne2, by simp [hlt]⟩
    simp only [tryToOptimizeLoop, withEscapeCheck, withConfig, hh, hf, hl, hnull, harr, hcond,
      if_true, if_false, Bool.false_eq_true, finish, loopLocation, withDescTable, and_self]
    exact if_pos ⟨trivial, hne2, trivial⟩
  refine ⟨descHead (env.srcPosDesc st.func header) st.func.name ++ "empty body\n", ?_, hcall,
    ?_⟩
  · refine ⟨(descHead (env.srcPosDesc st.func header) st.func.name).data, ['\n'], ?_⟩
    simp only [String.data_append]
    show _ = _ ++ "empty body\n".data
    have : "empty body\n".data = "empty body".data ++ ['\n'] := by decide
    rw [this]
    simp
  · intro pec relax relaxConfig
    refine ⟨_, hcall pec relax relaxConfig, rfl, rfl, rfl, rfl, rfl, ?_, ?_⟩
    · exact mapFind_addLoopDesc _ _ _ _ _ _ _
    · intro k hk
      exact mapFind_addLoopDesc_other _ _ _ _ _ _ _ k hk

/-- Witness for C14: the two-block loop of `emptyBodyFunc`. -/
theorem empty_body_rejected_witness :
    ∃ p, containsText p "empty body" ∧
      (∀ (pec : Func → List BlockId → List Nat) (relax : Bool)
        (relaxConfig : List (String × Int)),
        tryToOptimizeLoop (withEscapeCheck exampleEnv pec)
            (withConfig (exampleState false [] emptyBodyFunc) relax relaxConfig) whileLoop
          = some (false,
              withDescTable (withConfig (exampleState false [] emptyBodyFunc) relax relaxConfig)
                (addLoopDesc [] false "a.c" 3 p "" []),
              whileLoop)) ∧
      (∀ (pec : Func → List BlockId → List Nat) (relax : Bool)
        (relaxConfig : List (String × Int)),
        ∃ r, tryToOptimizeLoop (withEscapeCheck exampleEnv pec)
            (withConfig (exampleState false [] emptyBodyFunc) relax relaxConfig) whileLoop
            = some r ∧
          r.1 = false ∧ r.2.1.relaxConfig = relaxConfig ∧ r.2.1.relax = relax ∧
          r.2.1.func = emptyBodyFunc ∧ r.2.2 = whileLoop ∧
          mapFind r.2.1.descTable ⟨"Loop", false, "a.c", 3⟩ = some ([] ++ [⟨p, "", []⟩]) ∧
          ∀ k, k ≠ (⟨"Loop", false, "a.c", 3⟩ : Location) →
            mapFind r.2.1.descTable k = mapFind ([] : DescTable) k) :=
  empty_body_rejected exampleEnv (exampleState false [] emptyBodyFunc) whileLoop 1 2
    (by decide) (by decide) (by decide) (by decide) (by decide) (by decide) (by decide)
    (by decide)

/-- A call that answers false leaves the function as it was. -/
theorem tryToOptimizeLoop_false_unchanged (env : Env) (st : PassState) (loop : Loop)
    (r : Bool × PassState × Loop) (h : tryToOptimizeLoop env st loop = some r)
    (hr : r.1 = false) : r.2.1.func = st.func := by
  unfold tryToOptimizeLoop at h
  split at h
  · simp at h
  · dsimp only at h
    split_ifs at h <;> cases h
    · rfl
    · rfl
    · rfl
    · rfl
    · revert hr
      unfold relaxStage
      dsimp only
      split_ifs
      · intro hr; simp [finish] at hr
      · intro _; rfl
    · exact analysisStage_func _ _ _ _ _ _ _ _ _

/-- C17 (failing input): the loop of `breakFunc` has two exit edges, so
`getExitBlock` is null. In relax mode with factor 1 stored under its key
`perforateLoop` takes its "malformed loop" return and leaves the function as
it was, yet `tryToOptimizeLoop` answers true. -/
theorem returns_true_without_rewrite :
    forLoop.getExitBlock breakFunc = none ∧
    perforateLoop exampleEnv breakFunc forLoop 1 true = (breakFunc, forLoop, ["malformed loop\n"]) ∧
    (tryToOptimizeLoop exampleEnv (exampleState true [(exampleKey, 1)] breakFunc) forLoop).map
        (fun r => (r.1, r.2.1.func, r.2.1.errs))
      = some (true, breakFunc, ["malformed loop\n"]) := by
  decide

/-- C16: `isApprox` answers true exactly for an instruction whose qualifier
metadata holds the value `ECQ_APPROX` (1), and false exactly for an
instruction without qualifier metadata or with another value. -/
theorem isApprox_iff (g : DefUse) (i : Fin g.size) :
    (isApprox g i = true ↔ g.quals i = some ECQ_APPROX) ∧
    (isApprox g i = false ↔
      (g.quals i = none ∨ ∃ v, g.quals i = some v ∧ v ≠ ECQ_APPROX)) ∧
    ECQ_APPROX = 1 := by
  unfold isApprox
  cases g.quals i with
  | none => simp [ECQ_APPROX]
  | some v => simp [ECQ_APPROX]

/-- Witness for C16 on `qualsExample`: instruction 0 carries APPROX, 1 carries
PRECISE and 2 carries nothing. -/
theorem isApprox_iff_witness :
    isApprox qualsExample (0 : Fin 3) = true ∧ isApprox qualsExample (1 : Fin 3) = false ∧
    isApprox qualsExample (2 : Fin 3) = false :=
  ⟨(isApprox_iff qualsExample (0 : Fin 3)).1.2 (by decide),
   (isApprox_iff qualsExample (1 : Fin 3)).2.1.2 (Or.inr ⟨0, by decide, by decide⟩),
   (isApprox_iff qualsExample (2 : Fin 3)).2.1.2 (Or.inl (by decide))⟩

/-! ## Loop perforation: configuration and descriptions -/

/-- C11 (counterexample): the loop of `forFunc` passes every check and has no
blockers, and factor 1 is stored under its key. With the relax flag off the
call answers false, does not rewrite the function and overwrites the stored
factor with 0. -/
theorem configured_factor_overwritten :
    mapFind (exampleState false [(exampleKey, 1)] (forFunc [] [] [0] [1])).relaxConfig exampleKey
      = some 1 ∧
    exampleEnv.preciseEscapeCheck (forFunc [] [] [0] [1]) (bodyBlocksOf forLoop 1 true) = [] ∧
    ∃ r, tryToOptimizeLoop exampleEnv (exampleState false [(exampleKey, 1)] (forFunc [] [] [0] [1]))
        forLoop = some r ∧
      r.1 = false ∧ r.2.1.func = forFunc [] [] [0] [1] ∧
      mapFind r.2.1.relaxConfig exampleKey = some 0 ∧
      ∀ p ∈ r.2.1.descTable, ∀ d ∈ p.2, d.postfixText = "can perforate loop\n" := by
  refine ⟨by decide, by decide, _, rfl, by decide, by decide, by decide, by decide⟩

/-- C11 (amended): take a loop with a header without forbid marker, a latch and
a preheader, whose header is not named `arrayctor.loop...` and that is not
rejected as a two-block loop with an empty latch. With the relax flag off, if
its body-block set is not empty, holds no loop-exiting block and has no
blockers, the call answers false, leaves the function as it was and stores
factor 0 under the loop's key, whatever was stored there, without touching
any other key. With the relax flag on, if a factor other than 0 is stored
under the loop's key, the call answers true, leaves `relaxConfig` as it was
and hands the loop with that factor to `perforateLoop`. -/
theorem legal_loop_configuration (env : Env) (st : PassState) (loop : Loop) (header : BlockId)
    (hh : loop.getHeader = some header)
    (hforbid : env.markerIsForbid st.func header = false)
    (hl : loop.latch.isSome = true) (hp : loop.preheader.isSome = true)
    (harr : startswith (st.func.blockName header) "arrayctor.loop" = false)
    (hempty : ¬ (loop.getNumBlocks = 2 ∧ some header ≠ loop.latch
      ∧ loop.latch.map (latchIsOnlyTerminator st.func) = some true)) :
    (st.relax = false →
      (bodyBlocksOf loop header (startswith (st.func.blockName header) "for.cond")).isEmpty
        = false →
      (bodyBlocksOf loop header (startswith (st.func.blockName header) "for.cond")).any
        (loop.isLoopExiting st.func) = false →
      env.preciseEscapeCheck st.func
        (bodyBlocksOf loop header (startswith (st.func.blockName header) "for.cond")) = [] →
      ∃ r, tryToOptimizeLoop env st loop = some r ∧ r.1 = false ∧ r.2.1.func = st.func ∧
        mapFind r.2.1.relaxConfig (loopNameOf (env.srcPosDesc st.func header)) = some 0 ∧
        ∀ k, k ≠ loopNameOf (env.srcPosDesc st.func header) →
          mapFind r.2.1.relaxConfig k = mapFind st.relaxConfig k) ∧
    (st.relax = true →
      ∀ factor : Int,
        mapFind st.relaxConfig (loopNameOf (env.srcPosDesc st.func header)) = some factor →
        factor ≠ 0 →
        ∃ r, tryToOptimizeLoop env st loop = some r ∧ r.1 = true ∧
          r.2.1.relaxConfig = st.relaxConfig ∧
          r.2.1.func = (perforateLoop env st.func loop factor
            (startswith (st.func.blockName header) "for.cond")).1) := by
  have hnull : ((some header : Option BlockId).isNone || loop.latch.isNone
      || loop.preheader.isNone) = false := by
    cases hl1 : loop.latch with
    | none => simp [hl1] at hl
    | some x =>
      cases hp1 : loop.preheader with
      | none => simp [hp1] at hp
      | some y => simp
  have hstage : tryToOptimizeLoop env st loop
      = some (if st.relax = true then
          relaxStage env st loop (loopNameOf (env.srcPosDesc st.func header))
            (env.splitPosDesc (env.srcPosDesc st.func header)).1
            (env.atoi (env.splitPosDesc (env.srcPosDesc st.func header)).2)
            (descHead (env.srcPosDesc st.func header) st.func.name
              ++ shapeLine (startswith (st.func.blockName header) "for.cond"))
            (startswith (st.func.blockName header) "for.cond")
        else
          analysisStage env st loop header (loopNameOf (env.srcPosDesc st.func header))
            (env.splitPosDesc (env.srcPosDesc st.func header)).1
            (env.atoi (env.splitPosDesc (env.srcPosDesc st.func header)).2)
            (descHead (env.srcPosDesc st.func header) st.func.name
              ++ shapeLine (startswith (st.func.blockName header) "for.cond"))
            (startswith (st.func.blockName header) "for.cond")) := by
    simp only [tryToOptimizeLoop, hh, hforbid, hnull, harr, hempty, if_false,
      Bool.false_eq_true]
    split_ifs <;> rfl
  constructor
  · intro hrelax hne hany hblk
    rw [hrelax] at hstage
    simp only [Bool.false_eq_true, if_false, analysisStage, hne, hany, hblk,
      List.length_nil, if_true] at hstage
    refine ⟨_, hstage, rfl, rfl, ?_, ?_⟩
    · exact mapFind_mapSet_self _ _ _
    · intro k hk
      exact mapFind_mapSet_other _ _ _ _ hk
  · intro hrelax factor hfac hne0
    rw [hrelax] at hstage
    simp only [if_true, relaxStage, mapIndex, hfac, ne_eq, hne0, not_false_eq_true] at hstage
    exact ⟨_, hstage, rfl, rfl, rfl⟩

/-- Witness for C11 (amended): the loop of `forFunc` with factor 1 stored under
its key, once with the relax flag off and once with the relax flag on. -/
theorem legal_loop_configuration_witness :
    (∃ r, tryToOptimizeLoop exampleEnv (exampleState false [(exampleKey, 1)] (forFunc [] [] [0] [1]))
        forLoop = some r ∧ r.1 = false ∧ r.2.1.func = forFunc [] [] [0] [1] ∧
      mapFind r.2.1.relaxConfig exampleKey = some 0 ∧
      ∀ k, k ≠ exampleKey → mapFind r.2.1.relaxConfig k = mapFind [(exampleKey, (1 : Int))] k) ∧
    (∃ r, tryToOptimizeLoop exampleEnv (exampleState true [(exampleKey, 1)] (forFunc [] [] [0] [1]))
        forLoop = some r ∧ r.1 = true ∧ r.2.1.relaxConfig = [(exampleKey, 1)] ∧
      r.2.1.func = (perforateLoop exampleEnv (forFunc [] [] [0] [1]) forLoop 1 true).1) :=
  ⟨(legal_loop_configuration exampleEnv
      (exampleState false [(exampleKey, 1)] (forFunc [] [] [0] [1])) forLoop 1
      (by decide) (by decide) (by decide) (by decide) (by decide) (by decide)).1
      (by decide) (by decide) (by decide) (by decide),
   (legal_loop_configuration exampleEnv
      (exampleState true [(exampleKey, 1)] (forFunc [] [] [0] [1])) forLoop 1
      (by decide) (by decide) (by decide) (by decide) (by decide) (by decide)).2
      (by decide) 1 (by decide) (by decide)⟩

/-- C15 (counterexample): the two loops of `twoLoopFunc` are reported at the
same source line; the first has no blockers and the second has one. After
both are evaluated, one after the other, the table holds their descriptions
under two different keys, one with `hasBlockers = false` and one with
`hasBlockers = true`, and no key holds two descriptions. -/
theorem descriptions_split_by_blocker_flag :
    blockerEnv.srcPosDesc twoLoopFunc 1 = blockerEnv.srcPosDesc twoLoopFunc 5 ∧
    ∃ r1 r2,
      tryToOptimizeLoop blockerEnv (exampleState false [] twoLoopFunc) forLoop = some r1 ∧
      tryToOptimizeLoop blockerEnv r1.2.1 secondLoop = some r2 ∧
      (mapFind r2.2.1.descTable ⟨"Loop", false, "a.c", 3⟩).map List.length = some 1 ∧
      (mapFind r2.2.1.descTable ⟨"Loop", true, "a.c", 3⟩).map List.length = some 1 ∧
      ∀ p ∈ r2.2.1.descTable, p.2.length ≤ 1 := by
  refine ⟨rfl, _, _, rfl, rfl, by decide, by decide, by decide⟩

/-- C15 (amended): two descriptions added one after the other with the same
`hasBlockers` flag, file name and line number end up under one key, the first
before the second, behind the descriptions that were under that key before;
the descriptions under every other key stay as they were. -/
theorem addLoopDesc_twice_same_key (t : DescTable) (hasBlockers : Bool) (fileName : String)
    (lineNumber : Int) (p1 q1 p2 q2 : String) (e1 e2 : List (Int × List String)) :
    mapFind
        (addLoopDesc (addLoopDesc t hasBlockers fileName lineNumber p1 q1 e1)
          hasBlockers fileName lineNumber p2 q2 e2)
        ⟨"Loop", hasBlockers, fileName, lineNumber⟩
      = some ((mapFind t ⟨"Loop", hasBlockers, fileName, lineNumber⟩).getD []
          ++ [⟨p1, q1, e1⟩, ⟨p2, q2, e2⟩]) ∧
    ∀ k, k ≠ (⟨"Loop", hasBlockers, fileName, lineNumber⟩ : Location) →
      mapFind
          (addLoopDesc (addLoopDesc t hasBlockers fileName lineNumber p1 q1 e1)
            hasBlockers fileName lineNumber p2 q2 e2) k
        = mapFind t k := by
  constructor
  · rw [mapFind_addLoopDesc, mapFind_addLoopDesc]
    simp
  · intro k hk
    rw [mapFind_addLoopDesc_other _ _ _ _ _ _ _ k hk,
      mapFind_addLoopDesc_other _ _ _ _ _ _ _ k hk]

/-- Witness for C15 (amended): a table with one description under the key of
line 3 and one under the key of line 9; two more descriptions for line 3. -/
theorem addLoopDesc_twice_same_key_witness :
    mapFind
        (addLoopDesc
          (addLoopDesc
            [(⟨"Loop", false, "a.c", 3⟩, [⟨"zero", "", []⟩]),
             (⟨"Loop", false, "a.c", 9⟩, [⟨"other", "", []⟩])]
            false "a.c" 3 "one" "" [])
          false "a.c" 3 "two" "" [])
        ⟨"Loop", false, "a.c", 9⟩
      = mapFind
          [((⟨"Loop", false, "a.c", 3⟩ : Location), [(⟨"zero", "", []⟩ : Description)]),
           (⟨"Loop", false, "a.c", 9⟩, [⟨"other", "", []⟩])]
          ⟨"Loop", false, "a.c", 9⟩ :=
  (addLoopDesc_twice_same_key
    [(⟨"Loop", false, "a.c", 3⟩, [⟨"zero", "", []⟩]),
     (⟨"Loop", false, "a.c", 9⟩, [⟨"other", "", []⟩])]
    false "a.c" 3 "one" "" "two" "" [] []).2 ⟨"Loop", false, "a.c", 9⟩ (by decide)

/-! ## Elidability: soundness -/

theorem elidable_false_of_precise_sink (g : DefUse) (i : Fin g.size)
    (hk : isSink g i = true) (ha : isApprox g i = false) : elidable g i = some false := by
  simp [elidable, elidable_helper, hk, ha]

/-- C18: when `elidable` answers true for `i`, every path of use edges from `i`
to an untagged store, return or branch holds an instruction tagged APPROX (`i`
itself counts): no precise sink is reached from `i` through untagged
instructions only. -/
theorem elidable_sound (g : DefUse) :
    ∀ (p : List (Fin g.size)) (i s : Fin g.size), elidable g i = some true →
      isUsePath g (i :: p) = true → (i :: p).getLast? = some s →
      isSink g s = true → isApprox g s = false →
      ∃ v ∈ i :: p, isApprox g v = true := by
  intro p
  induction p with
  | nil =>
    intro i s h _ hlast hk ha
    simp only [List.getLast?_singleton, Option.some.injEq] at hlast
    subst hlast
    rw [elidable_false_of_precise_sink g i hk ha] at h
    simp at h
  | cons u p ih =>
    intro i s h hpath hlast hk ha
    by_cases hi : isApprox g i = true
    · exact ⟨i, List.mem_cons_self _ _, hi⟩
    · have hi0 : isApprox g i = false := by simpa using hi
      simp only [isUsePath, Bool.and_eq_true, decide_eq_true_eq] at hpath
      have hu : some u ∈ g.uses i := hpath.1
      have hpu : isUsePath g (u :: p) = true := hpath.2
      have heu := elidable_users_of_elidable g i hi0 h u hu
      have hlu : (u :: p).getLast? = some s := by
        rw [← hlast]
        simp [List.getLast?_cons_cons]
      obtain ⟨v, hv, hva⟩ := ih u s heu hpu hlu hk ha
      exact ⟨v, List.mem_cons_of_mem _ hv, hva⟩

/-- Witness for C18: in `guardedStore` instruction 0 is elidable, and the path
0, 1, 2 to the precise store 2 holds the tagged instruction 1. -/
theorem elidable_sound_witness :
    ∃ v ∈ [(0 : Fin 3), (1 : Fin 3), (2 : Fin 3)], isApprox guardedStore v = true :=
  elidable_sound guardedStore [(1 : Fin 3), (2 : Fin 3)] (0 : Fin 3) (2 : Fin 3)
    (by decide) (by decide) (by decide) (by decide) (by decide)

/-! ## The check block -/

theorem block?_eq_none_iff (F : Func) (b : BlockId) :
    F.block? b = none ↔ ∀ p ∈ F.blocks, p.1 ≠ b := by
  simp [Func.block?, List.find?_eq_none]

theorem block?_updateBlock_ne (F : Func) (b0 b : BlockId) (f : BasicBlock → BasicBlock)
    (h : b ≠ b0) : (F.updateBlock b0 f).block? b = F.block? b := by
  obtain ⟨name, blocks, fresh⟩ := F
  simp only [Func.block?, Func.updateBlock]
  induction blocks with
  | nil => rfl
  | cons p l ih =>
    by_cases hp0 : p.1 = b0
    · have hpb : ¬ p.1 = b := fun e => h (e.symm.trans hp0)
      have hb0 : (b0 == b) = false := by simpa using (Ne.symm h)
      have hpb2 : (p.1 == b) = false := by simpa using hpb
      simp only [List.map_cons, hp0, if_true, List.find?_cons, hb0]
      rw [hp0] at hpb2
      exact ih
    · simp only [List.map_cons, hp0, if_false, List.find?_cons]
      cases hpb : (p.1 == b) with
      | true => rfl
      | false => exact ih

theorem updateBlock_ids (F : Func) (b0 : BlockId) (f : BasicBlock → BasicBlock) :
    ∀ p ∈ (F.updateBlock b0 f).blocks, ∃ q ∈ F.blocks, q.1 = p.1 := by
  intro p hp
  simp only [Func.updateBlock, List.mem_map] at hp
  obtain ⟨q, hq, e⟩ := hp
  refine ⟨q, hq, ?_⟩
  split_ifs at e <;> rw [← e]

theorem insertAtEntry_ids (F : Func) (i : Inst) :
    ∀ p ∈ (F.insertAtEntry i).blocks, ∃ q ∈ F.blocks, q.1 = p.1 := by
  obtain ⟨name, blocks, fresh⟩ := F
  cases blocks with
  | nil => intro p hp; simp [Func.insertAtEntry] at hp
  | cons q l =>
    intro p hp
    simp only [Func.insertAtEntry, List.mem_cons] at hp
    rcases hp with hp | hp
    · exact ⟨q, List.mem_cons_self _ _, by rw [hp]⟩
    · exact ⟨p, List.mem_cons_of_mem _ hp, rfl⟩

theorem find?_insertBlockBefore (before id : BlockId) (c : BasicBlock)
    (l : List (BlockId × BasicBlock)) (h : ∀ p ∈ l, p.1 ≠ id) :
    (insertBlockBefore before (id, c) l).find? (fun p => p.1 == id) = some (id, c) := by
  induction l with
  | nil => simp [insertBlockBefore]
  | cons p l ih =>
    have hp : p.1 ≠ id := h p (List.mem_cons_self _ _)
    have hl : ∀ q ∈ l, q.1 ≠ id := fun q hq => h q (List.mem_cons_of_mem _ hq)
    simp only [insertBlockBefore]
    split_ifs
    · simp
    · have hp2 : (p.1 == id) = false := by simpa using hp
      simp only [List.find?_cons, hp2]
      exact ih hl

theorem perforateRewrite_check_block (env : Env) (F : Func) (loop : Loop)
    (header latch preheader bodyBlock sd : BlockId) (logfactor : Int)
    (hfresh : F.block? (F.fresh + 6) = none) (hheader : header ≠ F.fresh + 6) :
    (perforateRewrite env F loop header latch preheader bodyBlock sd logfactor).1.block?
        (F.fresh + 6)
      = some
        { name := "accept_cond"
          insts :=
            [Inst.load (F.fresh + 3) F.fresh "accept_tmp",
             Inst.trunc (F.fresh + 4) env.nativeBits (F.fresh + 3) logfactor "accept_trunc",
             Inst.isNull (F.fresh + 5) (F.fresh + 4) "accept_cmp"]
          term := Terminator.condBr (F.fresh + 5) bodyBlock latch } := by
  have hids := (block?_eq_none_iff F (F.fresh + 6)).1 hfresh
  simp only [perforateRewrite]
  rw [show ∀ (G : Func) (n : Nat) (b : BlockId), ({ G with fresh := n } : Func).block? b
      = G.block? b from fun _ _ _ => rfl]
  rw [block?_updateBlock_ne _ _ _ _ (Ne.symm hheader)]
  simp only [Func.block?]
  rw [find?_insertBlockBefore]
  · rfl
  · intro p hp
    obtain ⟨q1, hq1, e1⟩ := updateBlock_ids _ _ _ p hp
    obtain ⟨q2, hq2, e2⟩ := updateBlock_ids _ _ _ q1 hq1
    obtain ⟨q3, hq3, e3⟩ := insertAtEntry_ids _ _ q2 hq2
    rw [← e1, ← e2, ← e3]
    exact hids q3 hq3

theorem perforateLoop_check_block_step (env : Env) (k : Nat) (hk : 0 < k)
    (hkw : k ≤ env.nativeBits) (F : Func) (loop : Loop)
    (header latch preheader exitBlock : BlockId) (bb : BasicBlock) (cond : ValueId)
    (succ0 succ1 : BlockId) (isForLike : Bool)
    (hh : loop.getHeader = some header) (hl : loop.latch = some latch)
    (hp : loop.preheader = some preheader) (he : loop.getExitBlock F = some exitBlock)
    (hb : F.block? header = some bb) (ht : bb.term = Terminator.condBr cond succ0 succ1)
    (hs : succ0 = exitBlock ∨ succ1 = exitBlock)
    (hfresh : F.block? (F.fresh + 6) = none)
    (oracle : Nat → Bool) (m : Machine) (c : Nat)
    (hpc : m.pc = F.fresh + 6) (hc : m.mem F.fresh = some (some c)) :
    ∃ m1, step (perforateLoop env F loop (k : Int) isForLike).1 oracle m = some m1 ∧
      m1.pc = (if c % 2 ^ k = 0 then (if succ0 = exitBlock then succ1 else succ0) else latch) ∧
      m1.mem = m.mem ∧ m1.decisions = m.decisions ∧ m1.trace = (F.fresh + 6) :: m.trace := by
  have hheader : header ≠ F.fresh + 6 := by
    intro e
    rw [e, hfresh] at hb
    simp at hb
  have hk1 : (1 : Int) ≤ (k : Int) := by omega
  have hk2 : (k : Int) ≤ (env.nativeBits : Int) := by omega
  obtain ⟨pc, mem, regs, dec, tr⟩ := m
  simp only at hpc hc
  subst hpc
  have hrun : ∀ (body : BlockId) (G : Func),
      G.block? (F.fresh + 6) = some
        { name := "accept_cond"
          insts :=
            [Inst.load (F.fresh + 3) F.fresh "accept_tmp",
             Inst.trunc (F.fresh + 4) env.nativeBits (F.fresh + 3) (k : Int) "accept_trunc",
             Inst.isNull (F.fresh + 5) (F.fresh + 4) "accept_cmp"]
          term := Terminator.condBr (F.fresh + 5) body latch } →
      ∃ m1, step G oracle ⟨F.fresh + 6, mem, regs, dec, tr⟩ = some m1 ∧
        m1.pc = (if c % 2 ^ k = 0 then body else latch) ∧
        m1.mem = mem ∧ m1.decisions = dec ∧ m1.trace = (F.fresh + 6) :: tr := by
    intro body G hG
    simp only [step, hG, execInsts, execInst, hc, bindValue, hk1, hk2, and_self, if_true,
      execTerminator, Int.toNat_ofNat]
    by_cases hz : c % 2 ^ k = 0 <;> simp [hz]
  simp only [perforateLoop, hh, hl, hp, he, hb, ht, Option.map_some']
  by_cases h0 : succ0 = exitBlock
  · simp only [h0, if_true]
    exact hrun succ1 _ (perforateRewrite_check_block env F loop header latch preheader succ1 _
      (k : Int) hfresh hheader)
  · have h1 : succ1 = exitBlock := by
      rcases hs with hs | hs
      · exact absurd hs h0
      · exact hs
    simp only [h0, h1, if_true, if_false]
    exact hrun succ0 _ (perforateRewrite_check_block env F loop header latch preheader succ0 _
      (k : Int) hfresh hheader)

theorem perforateLoop_forFunc_at (env : Env) (k : Nat) (e c b i : List Nat) :
    (perforateLoop env (forFunc e c b i) forLoop (k : Int) true).1
      = perforatedForFuncAt env k e c b i :=
  rfl

section PerforatedRunAt

variable (env : Env) (k : Nat) (e c b i : List Nat) (oracle : Nat → Bool)

theorem step_entry_at (m : Machine) (hpc : m.pc = 0) :
    ∃ m1, step (perforatedForFuncAt env k e c b i) oracle m = some m1 ∧ m1.pc = 1 ∧
      m1.mem 10 = some (some (0 % 2 ^ env.nativeBits)) ∧ m1.regs = m.regs ∧
      m1.decisions = m.decisions ∧ m1.trace = 0 :: m.trace := by
  obtain ⟨pc, mem, regs, dec, tr⟩ := m
  simp only at hpc
  subst hpc
  simp [step, perforatedForFuncAt, Func.block?, execInsts, execInst, execInsts_append,
    execInsts_orig, evalOperand, bindValue, execTerminator]

theorem step_header_at (m : Machine) (hpc : m.pc = 1) (hc : m.regs 5 = none) :
    ∃ m1, step (perforatedForFuncAt env k e c b i) oracle m = some m1 ∧
      m1.pc = (if oracle m.decisions then 16 else 4) ∧
      m1.mem = m.mem ∧ m1.regs = m.regs ∧
      m1.decisions = m.decisions + 1 ∧ m1.trace = 1 :: m.trace := by
  obtain ⟨pc, mem, regs, dec, tr⟩ := m
  simp only at hpc hc
  subst hpc
  simp [step, perforatedForFuncAt, Func.block?, execInsts_orig, execTerminator, hc]

theorem step_check_at (hk : 0 < k) (hkw : k ≤ env.nativeBits) (m : Machine) (hpc : m.pc = 16)
    (v : Nat) (hv : m.mem 10 = some (some v)) (hc : m.regs 5 = none) :
    ∃ m1, step (perforatedForFuncAt env k e c b i) oracle m = some m1 ∧
      m1.pc = (if v % 2 ^ k = 0 then 2 else 3) ∧
      m1.mem = m.mem ∧ m1.regs 5 = none ∧
      m1.decisions = m.decisions ∧ m1.trace = 16 :: m.trace := by
  obtain ⟨pc, mem, regs, dec, tr⟩ := m
  simp only at hpc hv hc
  subst hpc
  have hk1 : (1 : Int) ≤ (k : Int) := by omega
  have hk2 : (k : Int) ≤ (env.nativeBits : Int) := by omega
  simp [step, perforatedForFuncAt, Func.block?, execInsts, execInst, bindValue, execTerminator,
    hv, hc, hk1, hk2]

theorem step_body_at (m : Machine) (hpc : m.pc = 2) :
    ∃ m1, step (perforatedForFuncAt env k e c b i) oracle m = some m1 ∧ m1.pc = 3 ∧
      m1.mem = m.mem ∧ m1.regs = m.regs ∧
      m1.decisions = m.decisions ∧ m1.trace = 2 :: m.trace := by
  obtain ⟨pc, mem, regs, dec, tr⟩ := m
  simp only at hpc
  subst hpc
  simp [step, perforatedForFuncAt, Func.block?, execInsts_orig, execTerminator]

theorem step_latch_at (m : Machine) (hpc : m.pc = 3) (v : Nat)
    (hv : m.mem 10 = some (some v)) (hc : m.regs 5 = none) :
    ∃ m1, step (perforatedForFuncAt env k e c b i) oracle m = some m1 ∧ m1.pc = 1 ∧
      m1.mem 10 = some (some ((v + 1 % 2 ^ env.nativeBits) % 2 ^ env.nativeBits)) ∧
      m1.regs 5 = none ∧
      m1.decisions = m.decisions ∧ m1.trace = 3 :: m.trace := by
  obtain ⟨pc, mem, regs, dec, tr⟩ := m
  simp only at hpc hv hc
  subst hpc
  simp [step, perforatedForFuncAt, Func.block?, execInsts, execInst, execInsts_append,
    execInsts_orig, evalOperand, bindValue, execTerminator, hv, hc]

theorem iteration_run_at (hk : 0 < k) (hkw : k ≤ env.nativeBits) (j : Nat) (m : Machine)
    (hm : AtHeaderAt env.nativeBits k j m) (ho : oracle j = true) :
    ∃ n m1, (∀ fuel, run (perforatedForFuncAt env k e c b i) oracle 4 (fuel + n) m
        = run (perforatedForFuncAt env k e c b i) oracle 4 fuel m1) ∧
      AtHeaderAt env.nativeBits k (j + 1) m1 := by
  obtain ⟨hpc, hmem, hreg, hdec, htr⟩ := hm
  obtain ⟨m1, s1, p1, mem1, reg1, dec1, tr1⟩ := step_header_at env k e c b i oracle m hpc hreg
  rw [hdec, ho] at p1
  simp only [if_true] at p1
  obtain ⟨m2, s2, p2, mem2, reg2, dec2, tr2⟩ :=
    step_check_at env k e c b i oracle hk hkw m1 p1 (j % 2 ^ env.nativeBits)
      (by rw [mem1]; exact hmem) (by rw [reg1]; exact hreg)
  have hpar : j % 2 ^ env.nativeBits % 2 ^ k = j % 2 ^ k :=
    Nat.mod_mod_of_dvd j (pow_dvd_pow 2 hkw)
  rw [hpar] at p2
  have hnext : (j % 2 ^ env.nativeBits + 1 % 2 ^ env.nativeBits) % 2 ^ env.nativeBits
      = (j + 1) % 2 ^ env.nativeBits := (Nat.add_mod _ _ _).symm
  have hrange : (List.range (j + 1)).flatMap (iterationBlocksAt k)
      = (List.range j).flatMap (iterationBlocksAt k) ++ iterationBlocksAt k j := by
    simp [List.range_succ]
  by_cases hev : j % 2 ^ k = 0
  · rw [if_pos hev] at p2
    obtain ⟨m3, s3, p3, mem3, reg3, dec3, tr3⟩ := step_body_at env k e c b i oracle m2 p2
    obtain ⟨m4, s4, p4, mem4, reg4, dec4, tr4⟩ :=
      step_latch_at env k e c b i oracle m3 p3 (j % 2 ^ env.nativeBits)
        (by rw [mem3, mem2, mem1]; exact hmem) (by rw [reg3]; exact reg2)
    refine ⟨4, m4, ?_, p4, ?_, reg4, ?_, ?_⟩
    · intro fuel
      rw [run_step _ _ _ (fuel + 3) m m1 (by rw [hpc]; decide) s1,
        run_step _ _ _ (fuel + 2) m1 m2 (by rw [p1]; decide) s2,
        run_step _ _ _ (fuel + 1) m2 m3 (by rw [p2]; decide) s3,
        run_step _ _ _ fuel m3 m4 (by rw [p3]; decide) s4]
    · rw [mem4, hnext]
    · rw [dec4, dec3, dec2, dec1, hdec]
    · rw [tr4, tr3, tr2, tr1, hrange]
      simp [htr, iterationBlocksAt, hev]
  · rw [if_neg hev] at p2
    obtain ⟨m4, s4, p4, mem4, reg4, dec4, tr4⟩ :=
      step_latch_at env k e c b i oracle m2 p2 (j % 2 ^ env.nativeBits)
        (by rw [mem2, mem1]; exact hmem) reg2
    refine ⟨3, m4, ?_, p4, ?_, reg4, ?_, ?_⟩
    · intro fuel
      rw [run_step _ _ _ (fuel + 2) m m1 (by rw [hpc]; decide) s1,
        run_step _ _ _ (fuel + 1) m1 m2 (by rw [p1]; decide) s2,
        run_step _ _ _ fuel m2 m4 (by rw [p2]; decide) s4]
    · rw [mem4, hnext]
    · rw [dec4, dec2, dec1, hdec]
    · rw [tr4, tr2, tr1, hrange]
      simp [htr, iterationBlocksAt, hev]

theorem loop_run_at (hk : 0 < k) (hkw : k ≤ env.nativeBits) (T : Nat)
    (hT : ∀ j < T, oracle j = true) (hstop : oracle T = false) :
    ∀ (n j : Nat) (m : Machine), j + n = T → AtHeaderAt env.nativeBits k j m →
      ∃ fuel m1, run (perforatedForFuncAt env k e c b i) oracle 4 fuel m = some m1 ∧ m1.pc = 4 ∧
        m1.trace.reverse = expectedTraceAt k T := by
  intro n
  induction n with
  | zero =>
    intro j m hj hm
    have hjT : j = T := by omega
    subst hjT
    obtain ⟨hpc, hmem, hreg, hdec, htr⟩ := hm
    obtain ⟨m1, s1, p1, mem1, reg1, dec1, tr1⟩ := step_header_at env k e c b i oracle m hpc hreg
    rw [hdec, hstop] at p1
    simp only [Bool.false_eq_true, if_false] at p1
    refine ⟨1, m1, ?_, p1, ?_⟩
    · rw [run_step _ _ _ 0 m m1 (by rw [hpc]; decide) s1]
      exact run_at_stop _ _ _ _ _ p1
    · rw [tr1]
      simp [htr, expectedTraceAt]
  | succ n ih =>
    intro j m hj hm
    obtain ⟨q, m1, hrun, hm1⟩ :=
      iteration_run_at env k e c b i oracle hk hkw j m hm (hT j (by omega))
    obtain ⟨fuel, m2, r2, p2, t2⟩ := ih (j + 1) m1 (by omega) hm1
    exact ⟨fuel + q, m2, by rw [hrun fuel]; exact r2, p2, t2⟩

end PerforatedRunAt

theorem one_multiple_per_window (n a : Nat) (hn : 0 < n) :
    ∃ j, (a ≤ j ∧ j < a + n ∧ j % n = 0) ∧
      ∀ j2, (a ≤ j2 ∧ j2 < a + n ∧ j2 % n = 0) → j2 = j := by
  refine ⟨(a + n - 1) / n * n, ⟨?_, ?_, ?_⟩, ?_⟩
  · have h1 := Nat.div_add_mod (a + n - 1) n
    have h2 := Nat.mod_lt (a + n - 1) hn
    have h3 : n * ((a + n - 1) / n) = (a + n - 1) / n * n := Nat.mul_comm _ _
    omega
  · have h1 := Nat.div_add_mod (a + n - 1) n
    have h3 : n * ((a + n - 1) / n) = (a + n - 1) / n * n := Nat.mul_comm _ _
    omega
  · exact Nat.mul_mod_left _ _
  · intro j2 ⟨h1, h2, h3⟩
    obtain ⟨q, hq⟩ := Nat.dvd_of_mod_eq_zero h3
    subst hq
    have hdiv : (a + n - 1) / n = q := by
      apply Nat.div_eq_of_lt_le
      · rw [Nat.mul_comm]; omega
      · rw [Nat.mul_comm]
        have : n * (q + 1) = n * q + n := by ring
        omega
    rw [hdiv, Nat.mul_comm]

/-- Let `0 < k ≤ w`, with `w` the native word width. In every function
that `perforateLoop` rewrites with exponent `k` (and that had no block with
the identity of the new check block), executing the check block with counter
value `c` moves control to the body entry when `c mod 2^k = 0` and to the
check block's other successor, the latch, otherwise. In the perforated loop of
`forFunc`, where the counter starts at 0 and the latch adds 1 modulo `2^w`, a
run with `T` successful header tests executes the blocks `expectedTraceAt k T`:
iteration `j` runs the body exactly when `j mod 2^k = 0`, which is exactly one
iteration out of every `2^k` consecutive ones. -/
theorem check_block_runs_body_once_per_period (env : Env) (k : Nat) (hk : 0 < k)
    (hkw : k ≤ env.nativeBits) :
    (∀ (F : Func) (loop : Loop) (header latch preheader exitBlock : BlockId) (bb : BasicBlock)
        (cond : ValueId) (succ0 succ1 : BlockId) (isForLike : Bool),
        loop.getHeader = some header → loop.latch = some latch →
        loop.preheader = some preheader → loop.getExitBlock F = some exitBlock →
        F.block? header = some bb → bb.term = Terminator.condBr cond succ0 succ1 →
        (succ0 = exitBlock ∨ succ1 = exitBlock) → F.block? (F.fresh + 6) = none →
        ∀ (oracle : Nat → Bool) (m : Machine) (c : Nat),
          m.pc = F.fresh + 6 → m.mem F.fresh = some (some c) →
          ∃ m1, step (perforateLoop env F loop (k : Int) isForLike).1 oracle m = some m1 ∧
            m1.pc = (if c % 2 ^ k = 0 then (if succ0 = exitBlock then succ1 else succ0)
              else latch)) ∧
    (∀ (e c b i : List Nat) (oracle : Nat → Bool) (T : Nat),
        (∀ j < T, oracle j = true) → oracle T = false →
        ∃ fuel m,
          run (perforateLoop env (forFunc e c b i) forLoop (k : Int) true).1 oracle 4 fuel
            (Machine.start 0) = some m ∧
          m.pc = 4 ∧ m.trace.reverse = expectedTraceAt k T) ∧
    (∀ j, 2 ∈ iterationBlocksAt k j ↔ j % 2 ^ k = 0) ∧
    (∀ a, ∃ j, (a ≤ j ∧ j < a + 2 ^ k ∧ 2 ∈ iterationBlocksAt k j) ∧
      ∀ j2, (a ≤ j2 ∧ j2 < a + 2 ^ k ∧ 2 ∈ iterationBlocksAt k j2) → j2 = j) := by
  have hbody : ∀ j, 2 ∈ iterationBlocksAt k j ↔ j % 2 ^ k = 0 := by
    intro j
    unfold iterationBlocksAt
    by_cases hz : j % 2 ^ k = 0
    · simp [hz]
    · simp [hz]
  refine ⟨?_, ?_, hbody, ?_⟩
  · intro F loop header latch preheader exitBlock bb cond succ0 succ1 isForLike hh hl hp he hb ht
      hs hfresh oracle m c hpc hc
    obtain ⟨m1, s1, p1, _⟩ := perforateLoop_check_block_step env k hk hkw F loop header latch
      preheader exitBlock bb cond succ0 succ1 isForLike hh hl hp he hb ht hs hfresh oracle m c
      hpc hc
    exact ⟨m1, s1, p1⟩
  · intro e c b i oracle T hT hstop
    rw [perforateLoop_forFunc_at]
    obtain ⟨m1, s1, p1, mem1, reg1, dec1, tr1⟩ :=
      step_entry_at env k e c b i oracle (Machine.start 0) rfl
    have hm1 : AtHeaderAt env.nativeBits k 0 m1 :=
      ⟨p1, mem1, by rw [reg1]; rfl, by rw [dec1]; rfl, by rw [tr1]; rfl⟩
    obtain ⟨fuel, m2, r2, p2, t2⟩ :=
      loop_run_at env k e c b i oracle hk hkw T hT hstop T 0 m1 (by omega) hm1
    refine ⟨fuel + 1, m2, ?_, p2, t2⟩
    rw [run_step _ _ _ fuel (Machine.start 0) m1 (by decide) s1]
    exact r2
  · intro a
    obtain ⟨j, ⟨h1, h2, h3⟩, huniq⟩ := one_multiple_per_window (2 ^ k) a (by positivity)
    refine ⟨j, ⟨h1, h2, (hbody j).2 h3⟩, ?_⟩
    intro j2 ⟨g1, g2, g3⟩
    exact huniq j2 ⟨g1, g2, (hbody j2).1 g3⟩

/-- The case `k = 3` on a 64-bit target: the check block of the perforated
`forFunc` sends counter value 8 to the body, and a run with 20 successful
header tests follows `expectedTraceAt 3 20`. -/
theorem check_block_runs_body_once_per_period_witness :
    (∃ m1, step (perforateLoop exampleEnv (forFunc [] [] [0] [1]) forLoop ((3 : Nat) : Int)
          true).1 (fun _ => true) (machineAt 16 10 8) = some m1 ∧
        m1.pc = (if 8 % 2 ^ 3 = 0 then (if 2 = 4 then 4 else 2) else 3)) ∧
    (∃ fuel m,
        run (perforateLoop exampleEnv (forFunc [] [] [0] [1]) forLoop ((3 : Nat) : Int) true).1
          (fun j => decide (j < 20)) 4 fuel (Machine.start 0) = some m ∧
        m.pc = 4 ∧ m.trace.reverse = expectedTraceAt 3 20) :=
  ⟨(check_block_runs_body_once_per_period exampleEnv 3 (by decide) (by decide)).1
      (forFunc [] [] [0] [1]) forLoop 1 3 0 4 ⟨"for.cond", [], Terminator.condBr 5 2 4⟩ 5 2 4 true
      (by decide) (by decide) (by decide) (by decide) (by decide) (by decide) (by decide)
      (by decide) (fun _ => true) (machineAt 16 10 8) 8 (by decide) (by decide),
   (check_block_runs_body_once_per_period exampleEnv 3 (by decide) (by decide)).2.1
      [] [] [0] [1] (fun j => decide (j < 20)) 20 (fun j hj => by simpa using hj) (by decide)⟩

/-! ## Basic-block instrumentation: lemmas -/

theorem uintWrap_of_lt (n : Nat) (h : n < 2 ^ 32) : uintWrap n = n :=
  Nat.mod_eq_of_lt h

theorem countFunction_fold_fst (M : List ModFunc) :
    ∀ acc : Nat × Nat, acc.1 + totalBlocks M < 2 ^ 32 →
      (M.foldl countFunction acc).1 = acc.1 + totalBlocks M := by
  induction M with
  | nil => intro acc _; simp [totalBlocks]
  | cons F M ih =>
    intro acc h
    simp only [totalBlocks, List.map_cons, List.sum_cons] at h
    have h1 : (countFunction acc F).1 = acc.1 + F.blocks.length := by
      simp only [countFunction]
      exact uintWrap_of_lt _ (by omega)
    simp only [List.foldl_cons]
    rw [ih (countFunction acc F) (by rw [h1]; simp only [totalBlocks]; omega), h1]
    simp only [totalBlocks, List.map_cons, List.sum_cons]
    omega

theorem doInitialization_state (M : List ModFunc) (st0 : BBState)
    (hN : totalBlocks M < 2 ^ 32) (h : doInitialization M = some st0) :
    st0.bbIndex = 0 ∧ st0.bbTotal = totalBlocks M ∧ st0.calls = [] := by
  unfold doInitialization at h
  split at h
  · simp at h
  · split at h
    · simp at h
    · simp only [Option.some.injEq] at h
      subst h
      refine ⟨rfl, ?_, rfl⟩
      have := countFunction_fold_fst M (0, 0) (by simpa using hN)
      simpa using this

theorem instrumentBlocks_spec (F : ModFunc) :
    ∀ (blocks : List (List CountedInst)) (pos : Nat) (st : BBState),
      st.bbIndex + blocks.length ≤ st.bbTotal → st.bbTotal < 2 ^ 32 →
      ∃ st1, instrumentBlocks F pos blocks st = some st1 ∧ st1.bbTotal = st.bbTotal ∧
        st1.bbIndex = st.bbIndex + blocks.length ∧
        st1.calls.map LogCall.index = st.calls.map LogCall.index ++
          (if F.shouldInjectError = true then List.range' st.bbIndex blocks.length else []) := by
  intro blocks
  induction blocks with
  | nil => intro pos st _ _; exact ⟨st, rfl, rfl, rfl, by simp⟩
  | cons bb rest ih =>
    intro pos st hle hlt
    simp only [List.length_cons] at hle
    have hw : uintWrap (st.bbIndex + 1) = st.bbIndex + 1 := uintWrap_of_lt _ (by omega)
    simp only [instrumentBlocks]
    by_cases hinj : F.shouldInjectError = true
    · have hidx : st.bbIndex < st.bbTotal := by omega
      simp only [hinj, if_true, hidx, hw]
      obtain ⟨st1, e, ht, hi, hc⟩ := ih (pos + 1)
        { st with calls := st.calls ++ [⟨F.name, pos, st.bbIndex⟩], bbIndex := st.bbIndex + 1 }
        (by simp only; omega) (by simpa using hlt)
      refine ⟨st1, e, ht, ?_, ?_⟩
      · rw [hi]; simp only [List.length_cons]; omega
      · rw [hc]
        simp [hinj, List.range'_succ]
    · simp only [hinj, if_false, hw, Bool.false_eq_true]
      obtain ⟨st1, e, ht, hi, hc⟩ := ih (pos + 1) { st with bbIndex := st.bbIndex + 1 }
        (by simp only; omega) (by simpa using hlt)
      refine ⟨st1, e, ht, ?_, ?_⟩
      · rw [hi]; simp only [List.length_cons]; omega
      · rw [hc]
        simp [hinj]

theorem runOnFunctions_spec :
    ∀ (fs : List ModFunc) (st : BBState),
      st.bbIndex + totalBlocks fs ≤ st.bbTotal → st.bbTotal < 2 ^ 32 →
      ∃ st1 l, runOnFunctions fs st = some st1 ∧ st1.bbTotal = st.bbTotal ∧
        st1.calls.map LogCall.index = st.calls.map LogCall.index ++ l ∧
        l.Pairwise (fun a b => a < b) ∧
        (∀ x ∈ l, st.bbIndex ≤ x ∧ x < st.bbIndex + totalBlocks fs) ∧
        ((∀ F ∈ fs, F.shouldSkipFunc = false ∧ F.shouldInjectError = true) →
          l = List.range' st.bbIndex (totalBlocks fs)) := by
  intro fs
  induction fs with
  | nil =>
    intro st _ _
    exact ⟨st, [], rfl, rfl, by simp, List.Pairwise.nil, by simp, by simp [totalBlocks]⟩
  | cons F fs ih =>
    intro st hle hlt
    have htot : totalBlocks (F :: fs) = F.blocks.length + totalBlocks fs := by
      simp [totalBlocks]
    rw [htot] at hle
    by_cases hskip : F.shouldSkipFunc = true
    · obtain ⟨st1, l, e, ht, hc, hp, hb, _⟩ := ih st (by omega) hlt
      refine ⟨st1, l, ?_, ht, hc, hp, ?_, ?_⟩
      · simp only [runOnFunctions, runOnFunction, hskip, Bool.not_true, Bool.false_eq_true,
          if_false]
        exact e
      · intro x hx
        have := hb x hx
        rw [htot]
        omega
      · intro hall
        have := (hall F (List.mem_cons_self _ _)).1
        rw [hskip] at this
        simp at this
    · have hskip0 : F.shouldSkipFunc = false := by simpa using hskip
      obtain ⟨s1, e1, t1, i1, c1⟩ := instrumentBlocks_spec F F.blocks 0 st (by omega) hlt
      obtain ⟨st2, l2, e2, t2, c2, p2, b2, a2⟩ := ih s1 (by rw [i1, t1]; omega) (by rw [t1]; exact hlt)
      refine ⟨st2, (if F.shouldInjectError = true then List.range' st.bbIndex F.blocks.length
        else []) ++ l2, ?_, ?_, ?_, ?_, ?_, ?_⟩
      · simp only [runOnFunctions, runOnFunction, hskip0, Bool.not_false, if_true,
          instrumentBasicBlocks, e1, Option.map_some']
        exact e2
      · rw [t2, t1]
      · rw [c2, c1, List.append_assoc]
      · rw [List.pairwise_append]
        refine ⟨?_, p2, ?_⟩
        · split_ifs
          · exact List.pairwise_lt_range' _ _
          · exact List.Pairwise.nil
        · intro a ha b hb
          have hb2 := b2 b hb
          split_ifs at ha
          · have := List.mem_range'_1.1 ha
            omega
          · simp at ha
      · intro x hx
        rw [htot]
        rcases List.mem_append.1 hx with hx | hx
        · split_ifs at hx
          · have := List.mem_range'_1.1 hx
            omega
          · simp at hx
        · have := b2 x hx
          omega
      · intro hall
        have hF := (hall F (List.mem_cons_self _ _)).2
        have hl2 := a2 (fun G hG => hall G (List.mem_cons_of_mem _ hG))
        rw [hl2, i1, htot, if_pos hF,
          show st.bbIndex + F.blocks.length = st.bbIndex + 1 * F.blocks.length by omega,
          List.range'_append, Nat.add_comm]

theorem totalBlocks_perm (l1 l2 : List ModFunc) (h : List.Perm l1 l2) :
    totalBlocks l1 = totalBlocks l2 := by
  unfold totalBlocks
  exact (h.map _).sum_eq

theorem totalBlocks_append (l1 l2 : List ModFunc) :
    totalBlocks (l1 ++ l2) = totalBlocks l1 + totalBlocks l2 := by
  simp [totalBlocks]

/-! ## Basic-block instrumentation: the properties -/

/-- C12 (counterexample): `libraryModule` has two basic blocks, one of them in
a function that `shouldSkipFunc` excludes. After `doInitialization` and
`runOnFunction` on each function the only index passed to `logbb` is 0: the
indices do not form the set {0, 1}. -/
theorem skipped_function_leaves_gap :
    totalBlocks libraryModule = 2 ∧
    ∃ st0 st, doInitialization libraryModule = some st0 ∧ st0.bbTotal = 2 ∧
      runOnFunctions libraryModule st0 = some st ∧
      st.calls.map LogCall.index = [0] ∧ 1 ∉ st.calls.map LogCall.index := by
  refine ⟨by decide, _, _, rfl, by decide, rfl, by decide, by decide⟩

/-- C12 (amended): in a module with `N` basic blocks, `N` within the range of
the `unsigned` counters, in which no function is excluded by `shouldSkipFunc`
and every function is approved by `shouldInjectError`, `doInitialization`
followed by `runOnFunction` once on each function, in any order, inserts
`logbb` calls whose arguments are, in the order of insertion, 0, 1, ..., N-1:
exactly the set {0, ..., N-1}, without repeats. -/
theorem logbb_indices_cover_range (M visited : List ModFunc) (st0 : BBState)
    (hN : totalBlocks M < 2 ^ 32) (hinit : doInitialization M = some st0)
    (hperm : List.Perm visited M)
    (hall : ∀ F ∈ M, F.shouldSkipFunc = false ∧ F.shouldInjectError = true) :
    ∃ st, runOnFunctions visited st0 = some st ∧
      st.calls.map LogCall.index = List.range (totalBlocks M) ∧
      (st.calls.map LogCall.index).Nodup := by
  obtain ⟨hi, ht, hc⟩ := doInitialization_state M st0 hN hinit
  have htot : totalBlocks visited = totalBlocks M := totalBlocks_perm _ _ hperm
  obtain ⟨st, l, e, _, hcalls, _, _, hl⟩ := runOnFunctions_spec visited st0
    (by rw [hi, ht, htot]; omega) (by rw [ht]; exact hN)
  have hl2 := hl (fun F hF => hall F (hperm.subset hF))
  have hidx : st.calls.map LogCall.index = List.range (totalBlocks M) := by
    rw [hcalls, hc, hl2, hi, htot, List.range_eq_range']
    rfl
  exact ⟨st, e, hidx, by rw [hidx]; exact List.nodup_range _⟩

/-- Witness for C12 (amended): `exampleModule`, three blocks, visited with
`helper` before `main`. -/
theorem logbb_indices_cover_range_witness :
    ∃ st, runOnFunctions exampleModule.reverse
        ((doInitialization exampleModule).get (by decide)) = some st ∧
      st.calls.map LogCall.index = List.range (totalBlocks exampleModule) ∧
      (st.calls.map LogCall.index).Nodup :=
  logbb_indices_cover_range exampleModule exampleModule.reverse
    ((doInitialization exampleModule).get (by decide)) (by decide) (by simp)
    (List.reverse_perm _) (by decide)

/-- C20: in a module whose number of basic blocks is within the range of the
`unsigned` counters, after `doInitialization` every sequence of `runOnFunction`
calls that visits each function of the module at most once runs through
without a failure of the assertion `bbIndex < bbTotal`; `bbTotal` is the
number of blocks of the module, every index passed to `logbb` is below it, and
no index is passed twice. -/
theorem logbb_assertion_never_fails (M visited rest : List ModFunc) (st0 : BBState)
    (hN : totalBlocks M < 2 ^ 32) (hinit : doInitialization M = some st0)
    (hperm : List.Perm (visited ++ rest) M) :
    ∃ st, runOnFunctions visited st0 = some st ∧ st.bbTotal = totalBlocks M ∧
      (∀ c ∈ st.calls, c.index < st.bbTotal) ∧ (st.calls.map LogCall.index).Nodup := by
  obtain ⟨hi, ht, hc⟩ := doInitialization_state M st0 hN hinit
  have htot : totalBlocks visited + totalBlocks rest = totalBlocks M := by
    rw [← totalBlocks_append]
    exact totalBlocks_perm _ _ hperm
  obtain ⟨st, l, e, ht1, hcalls, hp, hb, _⟩ := runOnFunctions_spec visited st0
    (by rw [hi, ht]; omega) (by rw [ht]; exact hN)
  rw [hc] at hcalls
  simp only [List.map_nil, List.nil_append] at hcalls
  refine ⟨st, e, by rw [ht1, ht], ?_, ?_⟩
  · intro c hcmem
    have hx : c.index ∈ l := by
      rw [← hcalls]
      exact List.mem_map_of_mem _ hcmem
    have := hb c.index hx
    rw [ht1, ht]
    omega
  · rw [hcalls]
    exact hp.imp (fun h => Nat.ne_of_lt h)

/-- Witness for C20: in `exampleModule` only `helper` is visited. -/
theorem logbb_assertion_never_fails_witness :
    ∃ st, runOnFunctions [⟨"helper", [[⟨Opcode.load, ResultType.other⟩]], false, true⟩]
        ((doInitialization exampleModule).get (by decide)) = some st ∧
      st.bbTotal = totalBlocks exampleModule ∧
      (∀ c ∈ st.calls, c.index < st.bbTotal) ∧ (st.calls.map LogCall.index).Nodup :=
  logbb_assertion_never_fails exampleModule
    [⟨"helper", [[⟨Opcode.load, ResultType.other⟩]], false, true⟩]
    [⟨"main", [[⟨Opcode.binop, ResultType.float⟩], []], false, true⟩]
    ((doInitialization exampleModule).get (by decide)) (by decide) (by simp)
    (List.Perm.swap _ _ _)

/-! ## `perforateLoop`: rejection -/

/-- C23: when the loop lacks a header, a latch, a preheader or a single exit
block, or the header's terminator is not a conditional branch with two
successors, or neither successor of that branch is the exit block,
`perforateLoop` hands back the function and the loop exactly as it got them
(nothing allocated, inserted or created, no branch retargeted) and writes one
diagnostic. -/
theorem perforateLoop_rejection_unchanged (env : Env) (F : Func) (loop : Loop)
    (logfactor : Int) (isForLike : Bool)
    (h : loop.getHeader = none ∨ loop.latch = none ∨ loop.preheader = none ∨
      loop.getExitBlock F = none ∨
      (∀ header, loop.getHeader = some header → ∀ cond succ0 succ1,
        (F.block? header).map BasicBlock.term ≠ some (Terminator.condBr cond succ0 succ1)) ∨
      (∀ header exitBlock, loop.getHeader = some header →
        loop.getExitBlock F = some exitBlock → ∀ cond succ0 succ1,
        (F.block? header).map BasicBlock.term = some (Terminator.condBr cond succ0 succ1) →
        succ0 ≠ exitBlock ∧ succ1 ≠ exitBlock)) :
    ∃ msg, perforateLoop env F loop logfactor isForLike = (F, loop, [msg]) := by
  cases hh : loop.getHeader with
  | none => exact ⟨"malformed loop\n", by simp [perforateLoop, hh]⟩
  | some header =>
  cases hl : loop.latch with
  | none => exact ⟨"malformed loop\n", by simp [perforateLoop, hh, hl]⟩
  | some latch =>
  cases hp : loop.preheader with
  | none => exact ⟨"malformed loop\n", by simp [perforateLoop, hh, hl, hp]⟩
  | some preheader =>
  cases he : loop.getExitBlock F with
  | none => exact ⟨"malformed loop\n", by simp [perforateLoop, hh, hl, hp, he]⟩
  | some e =>
    have h2 : (∀ cond succ0 succ1,
          (F.block? header).map BasicBlock.term ≠ some (Terminator.condBr cond succ0 succ1)) ∨
        (∀ cond succ0 succ1,
          (F.block? header).map BasicBlock.term = some (Terminator.condBr cond succ0 succ1) →
          succ0 ≠ e ∧ succ1 ≠ e) := by
      rcases h with h | h | h | h | h | h
      · rw [hh] at h; cases h
      · rw [hl] at h; cases h
      · rw [hp] at h; cases h
      · rw [he] at h; cases h
      · exact Or.inl (h header hh)
      · exact Or.inr (h header e hh he)
    simp only [perforateLoop, hh, hl, hp, he]
    cases ht : (F.block? header).map BasicBlock.term with
    | none => exact ⟨_, rfl⟩
    | some t =>
      cases t with
      | br d => exact ⟨_, rfl⟩
      | ret => exact ⟨_, rfl⟩
      | other l => exact ⟨_, rfl⟩
      | condBr c s0 s1 =>
        rcases h2 with h | h
        · exact absurd ht (h c s0 s1)
        · obtain ⟨h0, h1⟩ := h c s0 s1 ht
          exact ⟨"loop condition does not exit\n", by simp [h0, h1]⟩

/-- Witness for C23: the loop of `breakFunc` has two exit edges and therefore
no single exit block. -/
theorem perforateLoop_rejection_unchanged_witness :
    ∃ msg, perforateLoop exampleEnv breakFunc forLoop 1 true = (breakFunc, forLoop, [msg]) :=
  perforateLoop_rejection_unchanged exampleEnv breakFunc forLoop 1 true
    (Or.inr (Or.inr (Or.inr (Or.inl (by decide)))))

/-! ## Maps of vectors: create the key if needed, then push -/

section EnsurePush

variable {κ ν : Type} [DecidableEq κ]

theorem mapFind_eq_none_iff (m : List (κ × ν)) (k : κ) :
    mapFind m k = none ↔ ∀ p ∈ m, p.1 ≠ k := by
  induction m with
  | nil => simp [mapFind]
  | cons p m ih =>
    by_cases hk : p.1 = k
    · simp [mapFind, hk]
    · simp [mapFind, hk, ih]

theorem mapPushBack_keys (m : List (κ × List ν)) (k : κ) (x : ν) :
    (mapPushBack m k x).map Prod.fst = m.map Prod.fst := by
  induction m with
  | nil => rfl
  | cons p m ih =>
    simp only [mapPushBack] at ih
    by_cases hk : p.1 = k
    · simp [mapPushBack, hk, ih]
    · simp [mapPushBack, hk, ih]

theorem mapPushBack_absent (m : List (κ × List ν)) (k : κ) (x : ν)
    (h : ∀ p ∈ m, p.1 ≠ k) : mapPushBack m k x = m := by
  induction m with
  | nil => rfl
  | cons p m ih =>
    have hp : p.1 ≠ k := h p (List.mem_cons_self _ _)
    have hm := ih (fun q hq => h q (List.mem_cons_of_mem _ hq))
    simp only [mapPushBack] at hm
    simp [mapPushBack, hp, hm]

theorem mapTotal_mapPushBack (m : List (κ × List ν)) (k : κ) (x : ν)
    (hn : (m.map Prod.fst).Nodup) (hk : ∃ p ∈ m, p.1 = k) :
    mapTotal (mapPushBack m k x) = mapTotal m + 1 := by
  induction m with
  | nil => obtain ⟨p, hp, _⟩ := hk; simp at hp
  | cons p m ih =>
    simp only [List.map_cons, List.nodup_cons] at hn
    by_cases hpk : p.1 = k
    · have habs : ∀ q ∈ m, q.1 ≠ k := by
        intro q hq e
        apply hn.1
        rw [hpk, ← e]
        exact List.mem_map_of_mem Prod.fst hq
      have hrest := mapPushBack_absent m k x habs
      simp only [mapPushBack] at hrest
      simp only [mapPushBack, List.map_cons, hpk, if_true, mapTotal, List.sum_cons, hrest,
        List.length_append, List.length_singleton]
      omega
    · have hk2 : ∃ q ∈ m, q.1 = k := by
        obtain ⟨q, hq, e⟩ := hk
        rcases List.mem_cons.1 hq with hq | hq
        · rw [hq] at e; exact absurd e hpk
        · exact ⟨q, hq, e⟩
      have := ih hn.2 hk2
      simp only [mapPushBack, mapTotal] at this
      simp only [mapPushBack, List.map_cons, hpk, if_false, mapTotal, List.sum_cons, this]
      omega

theorem ensure_push_total (m : List (κ × List ν)) (k : κ) (x : ν)
    (hn : (m.map Prod.fst).Nodup) :
    mapTotal (mapPushBack (if mapCount m k = 0 then mapSet m k [] else m) k x) = mapTotal m + 1 ∧
    ((mapPushBack (if mapCount m k = 0 then mapSet m k [] else m) k x).map Prod.fst).Nodup := by
  cases hf : mapFind m k with
  | none =>
    have habs := (mapFind_eq_none_iff m k).1 hf
    have hE : (if mapCount m k = 0 then mapSet m k [] else m) = m ++ [(k, [])] := by
      simp [mapCount, mapSet, hf]
    rw [hE]
    have hn2 : ((m ++ [(k, ([] : List ν))]).map Prod.fst).Nodup := by
      simp only [List.map_append, List.map_cons, List.map_nil]
      rw [List.nodup_append]
      refine ⟨hn, by simp, ?_⟩
      intro a ha hb
      simp only [List.mem_singleton] at hb
      subst hb
      obtain ⟨q, hq, e⟩ := List.mem_map.1 ha
      exact habs q hq e
    constructor
    · rw [mapTotal_mapPushBack _ k x hn2 ⟨(k, []), by simp, rfl⟩]
      simp [mapTotal]
    · rw [mapPushBack_keys]; exact hn2
  | some v =>
    have hE : (if mapCount m k = 0 then mapSet m k [] else m) = m := by
      simp [mapCount, hf]
    rw [hE]
    have hk : ∃ p ∈ m, p.1 = k := by
      by_contra hcon
      have : mapFind m k = none := (mapFind_eq_none_iff m k).2 (fun p hp e => hcon ⟨p, hp, e⟩)
      rw [hf] at this
      cases this
    exact ⟨mapTotal_mapPushBack m k x hn hk, by rw [mapPushBack_keys]; exact hn⟩

theorem ensure_push_find_self (m : List (κ × List ν)) (k : κ) (x : ν) :
    mapFind (mapPushBack (if mapCount m k = 0 then mapSet m k [] else m) k x) k
      = some ((mapFind m k).getD [] ++ [x]) := by
  rw [mapFind_mapPushBack_self]
  cases hf : mapFind m k with
  | none => simp [mapCount, mapSet, hf, mapFind_append_new]
  | some ds => simp [mapCount, hf]

theorem ensure_push_find_other (m : List (κ × List ν)) (k0 k : κ) (x : ν) (h : k ≠ k0) :
    mapFind (mapPushBack (if mapCount m k0 = 0 then mapSet m k0 [] else m) k0 x) k
      = mapFind m k := by
  rw [mapFind_mapPushBack_other _ _ _ _ h]
  split_ifs
  · exact mapFind_mapSet_other _ _ _ _ h
  · rfl

end EnsurePush

/-! ## Descriptions written by `tryToOptimizeLoop` -/

theorem addBlockerEntry_eq (env : Env) (F : Func) (m : List (Int × List String)) (b : Nat) :
    addBlockerEntry env F m b
      = mapPushBack
          (if mapCount m (blockerLineOf env F b) = 0 then mapSet m (blockerLineOf env F b) []
            else m)
          (blockerLineOf env F b) (blockerText env F b) :=
  rfl

theorem blockerEntries_spec (env : Env) (F : Func) :
    ∀ (B : List Nat) (m : List (Int × List String)), (m.map Prod.fst).Nodup →
      mapTotal (B.foldl (addBlockerEntry env F) m) = mapTotal m + B.length ∧
      ((B.foldl (addBlockerEntry env F) m).map Prod.fst).Nodup ∧
      ∀ l, (mapFind (B.foldl (addBlockerEntry env F) m) l).getD []
        = (mapFind m l).getD []
          ++ (B.filter (fun b => decide (blockerLineOf env F b = l))).map (blockerText env F) := by
  intro B
  induction B with
  | nil => intro m hn; simp [hn]
  | cons b B ih =>
    intro m hn
    obtain ⟨ht, hn1⟩ := ensure_push_total m (blockerLineOf env F b) (blockerText env F b) hn
    rw [← addBlockerEntry_eq] at ht hn1
    obtain ⟨t2, n2, f2⟩ := ih (addBlockerEntry env F m b) hn1
    simp only [List.foldl_cons]
    refine ⟨?_, n2, ?_⟩
    · rw [t2, ht]; simp only [List.length_cons]; omega
    · intro l
      rw [f2 l]
      by_cases hl : blockerLineOf env F b = l
      · have := ensure_push_find_self m (blockerLineOf env F b) (blockerText env F b)
        rw [← addBlockerEntry_eq, hl] at this
        rw [this]
        simp [hl]
      · have := ensure_push_find_other m (blockerLineOf env F b) l (blockerText env F b)
          (Ne.symm hl)
        rw [← addBlockerEntry_eq] at this
        rw [this]
        simp [hl]

theorem addLoopDesc_count (t : DescTable) (hasBlockers : Bool) (fileName : String)
    (lineNumber : Int) (p q : String) (entries : List (Int × List String))
    (hn : (t.map Prod.fst).Nodup) :
    mapTotal (addLoopDesc t hasBlockers fileName lineNumber p q entries) = mapTotal t + 1 ∧
    ((addLoopDesc t hasBlockers fileName lineNumber p q entries).map Prod.fst).Nodup :=
  ensure_push_total t ⟨"Loop", hasBlockers, fileName, lineNumber⟩ ⟨p, q, entries⟩ hn

theorem relaxStage_descTable (env : Env) (st : PassState) (loop : Loop)
    (loopName fileName : String) (lineNumber : Int) (prefixStream : String) (isForLike : Bool) :
    ∃ p q, (relaxStage env st loop loopName fileName lineNumber prefixStream
        isForLike).2.1.descTable
      = addLoopDesc st.descTable false fileName lineNumber p q [] := by
  unfold relaxStage
  dsimp only
  split_ifs
  · exact ⟨_, _, rfl⟩
  · exact ⟨_, _, rfl⟩

/-- The description table after a call: one `addLoopDesc` on the table before
the call, with `hasBlockers = true` exactly when the escape check was reached
and returned blockers, and then with the entries built from the blockers. -/
theorem tryToOptimizeLoop_descTable (env : Env) (st : PassState) (loop : Loop)
    (header : BlockId) (hh : loop.getHeader = some header)
    (r : Bool × PassState × Loop) (h : tryToOptimizeLoop env st loop = some r) :
    ((reachesEscapeCheck env st loop header = false ∨ blockersOf env st loop header = []) ∧
      ∃ p q e, r.2.1.descTable
        = addLoopDesc st.descTable false (loopLocation env st.func header false).fileName
            (loopLocation env st.func header false).lineNumber p q e) ∨
    (reachesEscapeCheck env st loop header = true ∧ blockersOf env st loop header ≠ [] ∧
      r.1 = false ∧ r.2.1.relaxConfig = st.relaxConfig ∧ r.2.1.func = st.func ∧
      ∃ p, r.2.1.descTable
        = addLoopDesc st.descTable true (loopLocation env st.func header false).fileName
            (loopLocation env st.func header false).lineNumber p "cannot perforate loop\n"
            ((blockersOf env st loop header).foldl (addBlockerEntry env st.func) [])) := by
  simp only [tryToOptimizeLoop, hh] at h
  split_ifs at h with h1 h2 h3 h4 h5 <;> simp only [Option.some.injEq] at h <;> subst h
  · exact Or.inl ⟨Or.inl (by simp [reachesEscapeCheck, h1]), _, _, _, rfl⟩
  · refine Or.inl ⟨Or.inl ?_, _, _, _, rfl⟩
    simp only [Option.isNone_some, Bool.false_or] at h2
    simp [reachesEscapeCheck, h2]
  · exact Or.inl ⟨Or.inl (by simp [reachesEscapeCheck, h3]), _, _, _, rfl⟩
  · refine Or.inl ⟨Or.inl ?_, _, _, _, rfl⟩
    have h4d : decide (loop.getNumBlocks = 2 ∧ some header ≠ loop.latch
        ∧ loop.latch.map (latchIsOnlyTerminator st.func) = some true) = true :=
      decide_eq_true h4
    simp only [reachesEscapeCheck, h4d, Bool.not_true, Bool.and_false, Bool.false_and]
  · obtain ⟨p, q, e⟩ := relaxStage_descTable env st loop
      (loopNameOf (env.srcPosDesc st.func header))
      (env.splitPosDesc (env.srcPosDesc st.func header)).1
      (env.atoi (env.splitPosDesc (env.srcPosDesc st.func header)).2)
      (descHead (env.srcPosDesc st.func header) st.func.name
        ++ shapeLine (startswith (st.func.blockName header) "for.cond"))
      (startswith (st.func.blockName header) "for.cond")
    refine Or.inl ⟨Or.inl ?_, p, q, [], e⟩
    simp only [reachesEscapeCheck, h5, Bool.not_true, Bool.and_false, Bool.false_and]
  · unfold analysisStage
    dsimp only
    split_ifs with g1 g2 g3
    · refine Or.inl ⟨Or.inl ?_, _, _, _, rfl⟩
      simp only [reachesEscapeCheck, g1, Bool.not_true, Bool.and_false, Bool.false_and]
    · refine Or.inl ⟨Or.inl ?_, _, _, _, rfl⟩
      simp only [reachesEscapeCheck, g2, Bool.not_true, Bool.and_false]
    · exact Or.inl ⟨Or.inr (List.eq_nil_of_length_eq_zero g3), _, _, _, rfl⟩
    · refine Or.inr ⟨?_, ?_, rfl, rfl, rfl, _, rfl⟩
      · simp only [Option.isNone_some, Bool.false_or] at h2
        simp only [reachesEscapeCheck, h1, h2, h3, h5, g1, g2, Bool.not_false, Bool.and_true,
          Bool.and_eq_true, Bool.not_eq_true', decide_eq_false_iff_not, true_and]
        exact h4
      · intro hb
        apply g3
        simp only [blockersOf] at hb
        rw [hb]
        rfl

theorem tryToOptimizeLoop_returns (env : Env) (st : PassState) (loop : Loop)
    (header : BlockId) (hh : loop.getHeader = some header) :
    ∃ r, tryToOptimizeLoop env st loop = some r := by
  simp only [tryToOptimizeLoop, hh]
  split_ifs <;> exact ⟨_, rfl⟩

/-- C21: take a loop with a header. If the call reaches the escape check (relax
flag off, none of the earlier checks rejects the loop) and `preciseEscapeCheck`
returns a non-empty list `B` of blockers, `tryToOptimizeLoop` answers false,
leaves `relaxConfig` and the function as they were and appends one description
under the loop's key with `hasBlockers = true`, leaving every other key alone;
its blocker map holds `|B|` strings in total, and under each source line the
strings of the blockers of that line, in order. In every other case the
descriptions under every key with `hasBlockers = true` stay as they were. -/
theorem blockers_description (env : Env) (st : PassState) (loop : Loop) (header : BlockId)
    (hh : loop.getHeader = some header) :
    (reachesEscapeCheck env st loop header = true → blockersOf env st loop header ≠ [] →
      ∃ r p entries, tryToOptimizeLoop env st loop = some r ∧ r.1 = false ∧
        r.2.1.relaxConfig = st.relaxConfig ∧ r.2.1.func = st.func ∧
        mapFind r.2.1.descTable (loopLocation env st.func header true)
          = some ((mapFind st.descTable (loopLocation env st.func header true)).getD []
              ++ [⟨p, "cannot perforate loop\n", entries⟩]) ∧
        (∀ k, k ≠ loopLocation env st.func header true →
          mapFind r.2.1.descTable k = mapFind st.descTable k) ∧
        mapTotal entries = (blockersOf env st loop header).length ∧
        ∀ l, (mapFind entries l).getD []
          = ((blockersOf env st loop header).filter
              (fun b => decide (blockerLineOf env st.func b = l))).map
              (blockerText env st.func)) ∧
    (∀ r, tryToOptimizeLoop env st loop = some r →
      (reachesEscapeCheck env st loop header = false ∨ blockersOf env st loop header = []) →
      ∀ k : Location, k.hasBlockers = true →
        mapFind r.2.1.descTable k = mapFind st.descTable k) := by
  constructor
  · intro hreach hB
    obtain ⟨r, hr⟩ := tryToOptimizeLoop_returns env st loop header hh
    rcases tryToOptimizeLoop_descTable env st loop header hh r hr with ⟨hno, _⟩ | hyes
    · rcases hno with hno | hno
      · rw [hreach] at hno; cases hno
      · exact absurd hno hB
    · obtain ⟨_, _, h1, h2, h3, p, ht⟩ := hyes
      obtain ⟨c1, _, c3⟩ := blockerEntries_spec env st.func (blockersOf env st loop header) []
        List.nodup_nil
      refine ⟨r, p, (blockersOf env st loop header).foldl (addBlockerEntry env st.func) [],
        hr, h1, h2, h3, ?_, ?_, ?_, ?_⟩
      · rw [ht]
        exact mapFind_addLoopDesc _ _ _ _ _ _ _
      · intro k hk
        rw [ht]
        exact mapFind_addLoopDesc_other _ _ _ _ _ _ _ k hk
      · rw [c1]; simp [mapTotal]
      · intro l
        rw [c3 l]
        simp [mapFind]
  · intro r hr hcase k hk
    rcases tryToOptimizeLoop_descTable env st loop header hh r hr with ⟨_, p, q, e, ht⟩ | hyes
    · rw [ht]
      apply mapFind_addLoopDesc_other
      intro e2
      rw [e2] at hk
      simp at hk
    · obtain ⟨g1, g2, _⟩ := hyes
      rcases hcase with hcase | hcase
      · rw [g1] at hcase; cases hcase
      · exact absurd hcase g2

/-- Witness for C21: the second loop of `twoLoopFunc` under `blockerEnv`, with
one blocker at line 4. -/
theorem blockers_description_witness :
    ∃ r p entries,
      tryToOptimizeLoop blockerEnv (exampleState false [] twoLoopFunc) secondLoop = some r ∧
        r.1 = false ∧
        r.2.1.relaxConfig = (exampleState false [] twoLoopFunc).relaxConfig ∧
        r.2.1.func = (exampleState false [] twoLoopFunc).func ∧
        mapFind r.2.1.descTable
            (loopLocation blockerEnv (exampleState false [] twoLoopFunc).func 5 true)
          = some ((mapFind (exampleState false [] twoLoopFunc).descTable
                (loopLocation blockerEnv (exampleState false [] twoLoopFunc).func 5 true)).getD []
              ++ [⟨p, "cannot perforate loop\n", entries⟩]) ∧
        (∀ k, k ≠ loopLocation blockerEnv (exampleState false [] twoLoopFunc).func 5 true →
          mapFind r.2.1.descTable k = mapFind (exampleState false [] twoLoopFunc).descTable k) ∧
        mapTotal entries
          = (blockersOf blockerEnv (exampleState false [] twoLoopFunc) secondLoop 5).length ∧
        ∀ l, (mapFind entries l).getD []
          = ((blockersOf blockerEnv (exampleState false [] twoLoopFunc) secondLoop 5).filter
              (fun b => decide
                (blockerLineOf blockerEnv (exampleState false [] twoLoopFunc).func b = l))).map
              (blockerText blockerEnv (exampleState false [] twoLoopFunc).func) :=
  (blockers_description blockerEnv (exampleState false [] twoLoopFunc) secondLoop 5
    (by decide)).1 (by decide) (by decide)

/-- C22: every call of `tryToOptimizeLoop` on a loop with a header returns, in
every mode and whichever branch it takes, and appends exactly one description:
under one key the vector is the old one with one description behind it, under
every other key it is the old one; and as the keys of the table are distinct,
the number of descriptions in the table grows by exactly one. -/
theorem one_description_per_call (env : Env) (st : PassState) (loop : Loop) (header : BlockId)
    (hh : loop.getHeader = some header) :
    ∃ r, tryToOptimizeLoop env st loop = some r ∧
      (∃ key d, mapFind r.2.1.descTable key = some ((mapFind st.descTable key).getD [] ++ [d]) ∧
        ∀ k, k ≠ key → mapFind r.2.1.descTable k = mapFind st.descTable k) ∧
      ((st.descTable.map Prod.fst).Nodup →
        mapTotal r.2.1.descTable = mapTotal st.descTable + 1 ∧
        (r.2.1.descTable.map Prod.fst).Nodup) := by
  obtain ⟨r, hr⟩ := tryToOptimizeLoop_returns env st loop header hh
  have hadd : ∃ hb fn ln p q e, r.2.1.descTable = addLoopDesc st.descTable hb fn ln p q e := by
    rcases tryToOptimizeLoop_descTable env st loop header hh r hr with ⟨_, p, q, e, ht⟩ | hyes
    · exact ⟨_, _, _, p, q, e, ht⟩
    · obtain ⟨_, _, _, _, _, p, ht⟩ := hyes
      exact ⟨_, _, _, p, _, _, ht⟩
  obtain ⟨hb, fn, ln, p, q, e, ht⟩ := hadd
  refine ⟨r, hr, ⟨⟨"Loop", hb, fn, ln⟩, ⟨p, q, e⟩, ?_, ?_⟩, ?_⟩
  · rw [ht]; exact mapFind_addLoopDesc _ _ _ _ _ _ _
  · intro k hk
    rw [ht]; exact mapFind_addLoopDesc_other _ _ _ _ _ _ _ k hk
  · intro hn
    rw [ht]
    exact addLoopDesc_count _ _ _ _ _ _ _ hn

/-- Witness for C22: the loop of `forFunc` in relax mode with factor 1, which
is perforated. -/
theorem one_description_per_call_witness :
    ∃ r, tryToOptimizeLoop exampleEnv (exampleState true [(exampleKey, 1)] (forFunc [] [] [0] [1]))
        forLoop = some r ∧
      (∃ key d, mapFind r.2.1.descTable key
          = some ((mapFind (exampleState true [(exampleKey, 1)]
              (forFunc [] [] [0] [1])).descTable key).getD [] ++ [d]) ∧
        ∀ k, k ≠ key → mapFind r.2.1.descTable k
          = mapFind (exampleState true [(exampleKey, 1)] (forFunc [] [] [0] [1])).descTable k) ∧
      (((exampleState true [(exampleKey, 1)] (forFunc [] [] [0] [1])).descTable.map
          Prod.fst).Nodup →
        mapTotal r.2.1.descTable
          = mapTotal (exampleState true [(exampleKey, 1)] (forFunc [] [] [0] [1])).descTable + 1 ∧
        (r.2.1.descTable.map Prod.fst).Nodup) :=
  one_description_per_call exampleEnv (exampleState true [(exampleKey, 1)] (forFunc [] [] [0] [1]))
    forLoop 1 (by decide)

/-! ## Static counting: the order of the counters -/

section Counting

theorem elidable_of_approx_tag (g : DefUse) (i : Fin g.size) (h : isApprox g i = true) :
    elidable g i = some true := by
  simp [elidable, elidable_helper, h]

/-- One instruction keeps the order of the global and of the block counters,
adds at most one to the totals and leaves the trace calls alone. -/
theorem countInst_inv (g : DefUse) (ulongBits : Nat) (term : Option (Fin g.size))
    (acc : CountState × BlockCounts) (ii : Fin g.size)
    (hg : acc.1.gTotalInsts + 1 < 2 ^ ulongBits) (hb : acc.2.totalInsts + 1 < 2 ^ 32)
    (h1 : acc.1.gApproxInsts ≤ acc.1.gElidableInsts)
    (h2 : acc.1.gElidableInsts ≤ acc.1.gTotalInsts)
    (h3 : acc.2.approxInsts ≤ acc.2.elidableInsts)
    (h4 : acc.2.elidableInsts ≤ acc.2.totalInsts) :
    (countInst g ulongBits term acc ii).1.gApproxInsts
        ≤ (countInst g ulongBits term acc ii).1.gElidableInsts ∧
      (countInst g ulongBits term acc ii).1.gElidableInsts
        ≤ (countInst g ulongBits term acc ii).1.gTotalInsts ∧
      (countInst g ulongBits term acc ii).2.approxInsts
        ≤ (countInst g ulongBits term acc ii).2.elidableInsts ∧
      (countInst g ulongBits term acc ii).2.elidableInsts
        ≤ (countInst g ulongBits term acc ii).2.totalInsts ∧
      (countInst g ulongBits term acc ii).1.gTotalInsts ≤ acc.1.gTotalInsts + 1 ∧
      (countInst g ulongBits term acc ii).2.totalInsts ≤ acc.2.totalInsts + 1 ∧
      (countInst g ulongBits term acc ii).1.traceCalls = acc.1.traceCalls := by
  have hw : ∀ n, n ≤ acc.1.gTotalInsts → ulongWrap ulongBits (n + 1) = n + 1 :=
    fun n hn => Nat.mod_eq_of_lt (by omega)
  have hu : ∀ n, n ≤ acc.2.totalInsts → uintWrap (n + 1) = n + 1 :=
    fun n hn => Nat.mod_eq_of_lt (by omega)
  by_cases ht : some ii = term
  · simp only [countInst, if_pos ht]
    refine ⟨?_, ?_, ?_, ?_, ?_, ?_, ?_⟩ <;> first | omega | trivial
  · by_cases ha : isApprox g ii = true
    · have he := elidable_of_approx_tag g ii ha
      simp only [countInst, if_neg ht, ha, he, decide_True, if_true,
        hw _ (h1.trans h2), hw _ h2, hw _ le_rfl, hu _ (h3.trans h4), hu _ h4, hu _ le_rfl]
      refine ⟨?_, ?_, ?_, ?_, ?_, ?_, ?_⟩ <;> first | omega | trivial
    · by_cases he : elidable g ii = some true
      · simp only [countInst, if_neg ht, ha, he, decide_True, if_true, Bool.false_eq_true,
          if_false, hw _ h2, hw _ le_rfl, hu _ h4, hu _ le_rfl]
        refine ⟨?_, ?_, ?_, ?_, ?_, ?_, ?_⟩ <;> first | omega | trivial
      · simp only [countInst, if_neg ht, ha, he, decide_False, Bool.false_eq_true, if_false,
          hw _ le_rfl, hu _ le_rfl]
        refine ⟨?_, ?_, ?_, ?_, ?_, ?_, ?_⟩ <;> first | omega | trivial
/-- The instructions of a block keep the order of the counters. -/
theorem countInst_fold_inv (g : DefUse) (ulongBits : Nat) (term : Option (Fin g.size))
    (l : List (Fin g.size)) :
    ∀ acc : CountState × BlockCounts,
      acc.1.gTotalInsts + l.length < 2 ^ ulongBits → acc.2.totalInsts + l.length < 2 ^ 32 →
      acc.1.gApproxInsts ≤ acc.1.gElidableInsts →
      acc.1.gElidableInsts ≤ acc.1.gTotalInsts →
      acc.2.approxInsts ≤ acc.2.elidableInsts →
      acc.2.elidableInsts ≤ acc.2.totalInsts →
      (l.foldl (countInst g ulongBits term) acc).1.gApproxInsts
          ≤ (l.foldl (countInst g ulongBits term) acc).1.gElidableInsts ∧
        (l.foldl (countInst g ulongBits term) acc).1.gElidableInsts
          ≤ (l.foldl (countInst g ulongBits term) acc).1.gTotalInsts ∧
        (l.foldl (countInst g ulongBits term) acc).2.approxInsts
          ≤ (l.foldl (countInst g ulongBits term) acc).2.elidableInsts ∧
        (l.foldl (countInst g ulongBits term) acc).2.elidableInsts
          ≤ (l.foldl (countInst g ulongBits term) acc).2.totalInsts ∧
        (l.foldl (countInst g ulongBits term) acc).1.gTotalInsts
          ≤ acc.1.gTotalInsts + l.length ∧
        (l.foldl (countInst g ulongBits term) acc).1.traceCalls = acc.1.traceCalls := by
  induction l with
  | nil =>
    intro acc _ _ h1 h2 h3 h4
    exact ⟨h1, h2, h3, h4, Nat.le_refl _, rfl⟩
  | cons ii l ih =>
    intro acc hg hb h1 h2 h3 h4
    simp only [List.length_cons] at hg hb
    obtain ⟨a1, a2, a3, a4, a5, a6, a7⟩ :=
      countInst_inv g ulongBits term acc ii (by omega) (by omega) h1 h2 h3 h4
    obtain ⟨b1, b2, b3, b4, b5, b6⟩ :=
      ih (countInst g ulongBits term acc ii) (by omega) (by omega) a1 a2 a3 a4
    simp only [List.foldl_cons, List.length_cons]
    exact ⟨b1, b2, b3, b4, by omega, b6.trans a7⟩

/-- One block keeps the counters ordered and adds at most its length to the
module-wide total. -/
theorem countBlock_inv (g : DefUse) (ulongBits : Nat) (optInstrument : Bool)
    (st : CountState) (bb : List (Fin g.size))
    (hg : st.gTotalInsts + bb.length < 2 ^ ulongBits) (hb : bb.length < 2 ^ 32)
    (hst : st.ordered) :
    (countBlock g ulongBits optInstrument st bb).ordered ∧
      (countBlock g ulongBits optInstrument st bb).gTotalInsts
        ≤ st.gTotalInsts + bb.length := by
  obtain ⟨h1, h2, h3⟩ := hst
  obtain ⟨b1, b2, b3, b4, b5, b6⟩ :=
    countInst_fold_inv g ulongBits bb.getLast? bb (st, ⟨0, 0, 0⟩) hg
      (by simpa using hb) h1 h2 (Nat.le_refl _) (Nat.le_refl _)
  cases optInstrument with
  | false =>
    simp only [countBlock, Bool.false_eq_true, if_false]
    exact ⟨⟨b1, b2, by rw [b6]; exact h3⟩, b5⟩
  | true =>
    simp only [countBlock, if_true]
    refine ⟨⟨b1, b2, ?_⟩, b5⟩
    intro c hc
    simp only [b6, List.mem_append, List.mem_singleton] at hc
    rcases hc with hc | hc
    · exact h3 c hc
    · subst hc
      exact ⟨b3, b4⟩

theorem countAndInstrument_inv (g : DefUse) (ulongBits : Nat) (optInstrument : Bool)
    (F : List (List (Fin g.size))) :
    ∀ st : CountState, st.gTotalInsts + funcInstCount F < 2 ^ ulongBits →
      (∀ bb ∈ F, bb.length < 2 ^ 32) → st.ordered →
      (countAndInstrument g ulongBits optInstrument F st).ordered ∧
        (countAndInstrument g ulongBits optInstrument F st).gTotalInsts
          ≤ st.gTotalInsts + funcInstCount F := by
  induction F with
  | nil =>
    intro st _ _ hst
    exact ⟨hst, Nat.le_refl _⟩
  | cons bb F ih =>
    intro st hg hb hst
    simp only [funcInstCount, List.map_cons, List.sum_cons] at hg
    obtain ⟨a1, a2⟩ := countBlock_inv g ulongBits optInstrument st bb (by omega)
      (hb bb (List.mem_cons_self _ _)) hst
    obtain ⟨c1, c2⟩ := ih (countBlock g ulongBits optInstrument st bb)
      (by simp only [funcInstCount]; omega)
      (fun b hb2 => hb b (List.mem_cons_of_mem _ hb2)) a1
    simp only [countAndInstrument, List.foldl_cons, funcInstCount, List.map_cons,
      List.sum_cons]
    simp only [countAndInstrument, funcInstCount] at c1 c2
    exact ⟨c1, by omega⟩

theorem countFunctions_fold_inv (g : DefUse) (ulongBits : Nat) (optInstrument : Bool)
    (fs : List (List (List (Fin g.size)))) :
    ∀ st : CountState, st.gTotalInsts + instCount fs < 2 ^ ulongBits →
      (∀ F ∈ fs, ∀ bb ∈ F, bb.length < 2 ^ 32) → st.ordered →
      (fs.foldl (fun s F => countAndInstrument g ulongBits optInstrument F s) st).ordered := by
  induction fs with
  | nil =>
    intro st _ _ hst
    exact hst
  | cons F fs ih =>
    intro st hg hb hst
    simp only [instCount, List.map_cons, List.sum_cons] at hg
    obtain ⟨a1, a2⟩ := countAndInstrument_inv g ulongBits optInstrument F st (by omega)
      (hb F (List.mem_cons_self _ _)) hst
    simp only [List.foldl_cons]
    exact ih _ (by simp only [instCount]; omega)
      (fun F2 hF2 => hb F2 (List.mem_cons_of_mem _ hF2)) a1

end Counting

section CountingTrace

theorem countInst_traceCalls (g : DefUse) (ulongBits : Nat) (term : Option (Fin g.size))
    (acc : CountState × BlockCounts) (ii : Fin g.size) :
    (countInst g ulongBits term acc ii).1.traceCalls = acc.1.traceCalls := by
  unfold countInst
  split <;> rfl

theorem countInst_fold_traceCalls (g : DefUse) (ulongBits : Nat) (term : Option (Fin g.size))
    (l : List (Fin g.size)) :
    ∀ acc : CountState × BlockCounts,
      (l.foldl (countInst g ulongBits term) acc).1.traceCalls = acc.1.traceCalls := by
  induction l with
  | nil => intro acc; rfl
  | cons ii l ih =>
    intro acc
    simp only [List.foldl_cons]
    exact (ih _).trans (countInst_traceCalls g ulongBits term acc ii)

/-- With `optInstrument` every block gets one trace call. -/
theorem countBlock_traceCalls_length (g : DefUse) (ulongBits : Nat) (st : CountState)
    (bb : List (Fin g.size)) :
    (countBlock g ulongBits true st bb).traceCalls.length = st.traceCalls.length + 1 := by
  simp only [countBlock, if_true, List.length_append, List.length_singleton,
    countInst_fold_traceCalls]

theorem countAndInstrument_traceCalls_length (g : DefUse) (ulongBits : Nat)
    (F : List (List (Fin g.size))) :
    ∀ st : CountState,
      (countAndInstrument g ulongBits true F st).traceCalls.length
        = st.traceCalls.length + F.length := by
  induction F with
  | nil => intro st; rfl
  | cons bb F ih =>
    intro st
    have h := ih (countBlock g ulongBits true st bb)
    simp only [countAndInstrument] at h
    simp only [countAndInstrument, List.foldl_cons, List.length_cons, h,
      countBlock_traceCalls_length]
    omega

theorem countFunctions_fold_traceCalls_length (g : DefUse) (ulongBits : Nat)
    (fs : List (List (List (Fin g.size)))) :
    ∀ st : CountState,
      (fs.foldl (fun s F => countAndInstrument g ulongBits true F s) st).traceCalls.length
        = st.traceCalls.length + (fs.map List.length).sum := by
  induction fs with
  | nil => intro st; rfl
  | cons F fs ih =>
    intro st
    simp only [List.foldl_cons, ih, countAndInstrument_traceCalls_length, List.map_cons,
      List.sum_cons]
    omega

end CountingTrace

/-- C24: after `countAndInstrument` has run on any sequence of functions,
starting from the counters of the constructor, the module-wide counters satisfy
gApproxInsts ≤ gElidableInsts ≤ gTotalInsts, and the three counts of every
trace call are in the same order. The reason is that every instruction for
which `isApprox` holds is elidable. With `optInstrument` there is one trace
call per block. The module has fewer than `2 ^ ulongBits` instructions and
every block fewer than `2 ^ 32`, so that no counter wraps. -/
theorem counters_ordered (g : DefUse) (ulongBits : Nat) (optInstrument : Bool)
    (fs : List (List (List (Fin g.size))))
    (htotal : instCount fs < 2 ^ ulongBits)
    (hblock : ∀ F ∈ fs, ∀ bb ∈ F, bb.length < 2 ^ 32) :
    (∀ i : Fin g.size, isApprox g i = true → elidable g i = some true) ∧
      (countFunctions g ulongBits optInstrument fs).gApproxInsts
        ≤ (countFunctions g ulongBits optInstrument fs).gElidableInsts ∧
      (countFunctions g ulongBits optInstrument fs).gElidableInsts
        ≤ (countFunctions g ulongBits optInstrument fs).gTotalInsts ∧
      (∀ c ∈ (countFunctions g ulongBits optInstrument fs).traceCalls,
        c.1 ≤ c.2.1 ∧ c.2.1 ≤ c.2.2) ∧
      (optInstrument = true →
        (countFunctions g ulongBits optInstrument fs).traceCalls.length
          = (fs.map List.length).sum) := by
  have hinit : CountState.init.ordered :=
    ⟨Nat.le_refl _, Nat.le_refl _, fun c hc => by cases hc⟩
  obtain ⟨h1, h2, h3⟩ := countFunctions_fold_inv g ulongBits optInstrument fs
    CountState.init (by simpa [CountState.init] using htotal) hblock hinit
  refine ⟨elidable_of_approx_tag g, h1, h2, h3, ?_⟩
  intro ho
  subst ho
  have h := countFunctions_fold_traceCalls_length g ulongBits fs CountState.init
  simpa [CountState.init, countFunctions] using h

/-- Witness for C24 on the two blocks of `countExample` with 64-bit module
counters: block `[0, 1, 5]` is traced with (1, 2, 2), block `[2, 3, 4]` with
(0, 1, 2), and the module-wide counters end as 1 ≤ 3 ≤ 4. -/
theorem counters_ordered_witness :
    countFunctions countExample 64 true [countExampleBlocks]
        = { gApproxInsts := 1, gElidableInsts := 3, gTotalInsts := 4,
            traceCalls := [(1, 2, 2), (0, 1, 2)] } ∧
      (countFunctions countExample 64 true [countExampleBlocks]).gApproxInsts
        ≤ (countFunctions countExample 64 true [countExampleBlocks]).gElidableInsts ∧
      (countFunctions countExample 64 true [countExampleBlocks]).gElidableInsts
        ≤ (countFunctions countExample 64 true [countExampleBlocks]).gTotalInsts ∧
      (∀ c ∈ (countFunctions countExample 64 true [countExampleBlocks]).traceCalls,
        c.1 ≤ c.2.1 ∧ c.2.1 ≤ c.2.2) :=
  ⟨by decide,
    (counters_ordered countExample 64 true [countExampleBlocks] (by decide) (by decide)).2.1,
    (counters_ordered countExample 64 true [countExampleBlocks] (by decide) (by decide)).2.2.1,
    (counters_ordered countExample 64 true [countExampleBlocks]
      (by decide) (by decide)).2.2.2.1⟩

/-! ## Execution of perforated loops outside the for-loop layout of the front end -/

/-- C7 (failing input): `forFuncSwapped` is a for-like loop (header
`for.cond`) whose body is the single block 2, without exits; its header
branches to the exit 4 on successor 0 and to the body on successor 1. Take the
execution in which the header test lets the loop continue three times and then
asks for the exit (the branch condition is false three times, then true): the
function as written runs header, body and latch three times and reaches the
exit. `perforateLoop` accepts the loop with exponent 1 and writes no
diagnostic, and `tryToOptimizeLoop` in relax mode with factor 1 hands out that
rewritten function. In the rewritten function the same execution runs the body
on all three iterations, also on the one with the odd counter value 1, and
when the test asks for the exit control enters the check block 16 with the
counter at 3 instead of reaching the exit; no block of the rewritten function
branches to the exit at all. -/
theorem perforated_swapped_for_loop_runs_body_on_every_iteration :
    startswith (forFuncSwapped.blockName 1) "for.cond" = true ∧
    bodyBlocksOf forLoop 1 true = [2] ∧
    forFuncSwapped.successors 2 = [3] ∧
    (∃ m, run forFuncSwapped (fun j => decide (3 ≤ j)) 4 11 (Machine.start 0) = some m ∧
        m.pc = 4 ∧ m.trace.reverse = [0, 1, 2, 3, 1, 2, 3, 1, 2, 3, 1]) ∧
    (perforateLoop exampleEnv forFuncSwapped forLoop 1 true).2.2 = [] ∧
    (tryToOptimizeLoop exampleEnv (exampleState true [(exampleKey, 1)] forFuncSwapped)
        forLoop).map (fun r => (r.1, r.2.1.func))
      = some (true, (perforateLoop exampleEnv forFuncSwapped forLoop 1 true).1) ∧
    (∃ m, run (perforateLoop exampleEnv forFuncSwapped forLoop 1 true).1
          (fun j => decide (3 ≤ j)) 16 11 (Machine.start 0) = some m ∧
        m.pc = 16 ∧ m.mem 10 = some (some 3) ∧
        m.trace.reverse = [0, 1, 2, 3, 1, 2, 3, 1, 2, 3, 1] ∧
        m.trace.count 3 = 3 ∧ m.trace.count 2 = 3) ∧
    (∀ p ∈ (perforateLoop exampleEnv forFuncSwapped forLoop 1 true).1.blocks,
      4 ∉ p.2.term.successors) := by
  refine ⟨by decide, by decide, by decide, ⟨_, rfl, rfl, rfl⟩, by decide, by decide,
    ⟨_, rfl, rfl, rfl, rfl, rfl, rfl⟩, by decide⟩

/-- C19 (failing input): `whileFunc` is the loop `while (c) body` with the
single block 2 as body and latch. `perforateLoop` accepts it as a while-like
loop with exponent 1 on a 64-bit target and writes no diagnostic, and
`tryToOptimizeLoop` in relax mode with factor 1 hands out that rewritten
function. The check block 16 of the rewritten function sends control to the
body for every counter value `c`, also for `c = 1`, whose low bit is not zero:
both successors of its branch are the body. In the execution with four
successful header tests the counter goes from 0 to 4 and the body runs on all
four iterations, not on one of every two. -/
theorem while_check_block_enters_body_for_every_count (c : Nat) (oracle : Nat → Bool) :
    (perforateLoop exampleEnv whileFunc whileLoop ((1 : Nat) : Int) false).2.2 = [] ∧
    (tryToOptimizeLoop exampleEnv (exampleState true [(exampleKey, 1)] whileFunc)
        whileLoop).map (fun r => (r.1, r.2.1.func))
      = some (true, (perforateLoop exampleEnv whileFunc whileLoop ((1 : Nat) : Int) false).1) ∧
    ((perforateLoop exampleEnv whileFunc whileLoop ((1 : Nat) : Int) false).1.block? 16).map
        BasicBlock.term = some (Terminator.condBr 15 2 2) ∧
    (∃ m1, step (perforateLoop exampleEnv whileFunc whileLoop ((1 : Nat) : Int) false).1 oracle
        (machineAt 16 10 c) = some m1 ∧ m1.pc = 2) ∧
    (1 % 2 ^ 1 ≠ 0 ∧
      ∃ m1, step (perforateLoop exampleEnv whileFunc whileLoop ((1 : Nat) : Int) false).1 oracle
        (machineAt 16 10 1) = some m1 ∧ m1.pc = 2 ∧ m1.trace = [16]) ∧
    (∃ m, run (perforateLoop exampleEnv whileFunc whileLoop ((1 : Nat) : Int) false).1
          (fun j => decide (j < 4)) 3 14 (Machine.start 0) = some m ∧
        m.pc = 3 ∧ m.mem 10 = some (some 4) ∧
        m.trace.reverse = [0, 1, 16, 2, 1, 16, 2, 1, 16, 2, 1, 16, 2, 1] ∧
        m.trace.count 2 = 4) := by
  have hstep : ∀ v : Nat,
      ∃ m1, step (perforateLoop exampleEnv whileFunc whileLoop ((1 : Nat) : Int) false).1 oracle
        (machineAt 16 10 v) = some m1 ∧ m1.pc = 2 ∧ m1.trace = [16] := by
    intro v
    obtain ⟨m1, s1, p1, _, _, t1⟩ := perforateLoop_check_block_step exampleEnv 1 (by decide)
      (by decide) whileFunc whileLoop 1 2 0 3 ⟨"while.cond", [], Terminator.condBr 5 2 3⟩ 5 2 3
      false (by decide) (by decide) (by decide) (by decide) (by decide) rfl (by decide)
      (by decide) oracle (machineAt 16 10 v) v rfl rfl
    refine ⟨m1, s1, ?_, t1⟩
    rw [p1]
    simp
  refine ⟨by decide, by decide, by decide, ?_, ⟨by decide, hstep 1⟩,
    ⟨_, rfl, rfl, rfl, rfl, rfl⟩⟩
  obtain ⟨m1, s1, p1, _⟩ := hstep c
  exact ⟨m1, s1, p1⟩

end Accept
